import Mathlib

/-!
# json-schema-deref-sync: a shallow embedding of `lib/index.js` and `lib/utils.js`

The library mutates a clone of the caller's document in place, and a local
reference is replaced by the very object found at its target path, so the
resolved document is a graph in general.  The embedding therefore keeps an
explicit heap of objects with identity.

Modelling conventions.
* A JavaScript value is a `Val`; objects (mappings, sequences, `Error`
  instances) live in the `Heap` and are denoted by their address.
* The properties of an object are its own enumerable properties, in
  enumeration order.  Built-in members (`length`, prototype methods, the
  characters of a string) are not part of the model: looking one of them up
  gives `undefined`, and an assignment to the `length` of an array is an
  ordinary assignment; the theorems that depend on it exclude such members by
  hypothesis.  The one method the code calls on a node of the document,
  `hasOwnProperty`, throws when a member of that name shadows it.
* Numbers are integers.
* A thrown JavaScript exception is `Exn.typeError`; `Exn.fuel` is the
  embedding running out of recursion budget and stands for no behaviour of the
  program.
* The libraries `traverse`, `dag-map`, `clone` and `lodash` are embedded from
  their published sources (traverse 0.6, dag-map 1.0, lodash 4.17.21);
  `valid-url`, `md5` and `String.prototype.toLowerCase` are parameters (`Env`).
-/

namespace Deref

/-! ## Documents and values -/

/-- A JSON document as the caller passes it: keys of a mapping are listed in
    enumeration order. -/
inductive Json where
  | null
  | bool (b : Bool)
  | num (n : Int)
  | str (s : String)
  | arr (xs : List Json)
  | obj (kvs : List (String × Json))

/-- A JavaScript value; `obj a` is a reference to the heap object at address `a`. -/
inductive Val where
  | undefined
  | null
  | bool (b : Bool)
  | num (n : Int)
  | str (s : String)
  | obj (a : Nat)
  deriving DecidableEq

/-- What kind of object a heap cell holds. -/
inductive Kind where
  | plain
  | array
  | error (msg : String)
  deriving DecidableEq

/-- A heap object: its kind and its own enumerable properties in enumeration order. -/
structure Obj where
  kind : Kind
  props : List (String × Val)
  deriving DecidableEq

/-- The heap; the address of an object is its index. -/
abbrev Heap := List Obj

/-- A thrown exception (`TypeError`, `RangeError`, or the `Error` dag-map throws on
    a cycle), or the embedding's recursion budget running out. -/
inductive Exn where
  | typeError
  | rangeError
  | cycle
  | fuel
  deriving DecidableEq

/-- What `derefSchema` and `deref` return: a value or an `Error` instance. -/
inductive Res where
  | value (v : Val)
  | error (msg : String)
  deriving DecidableEq

deriving instance DecidableEq for Except

/-! ## Property lists -/

/-- Value stored under key `k`, if any. -/
def assoc (k : String) : List (String × Val) → Option Val
  | [] => none
  | (k', v) :: r => if k' = k then some v else assoc k r

/-- Assignment `o[k] = v` on a property list: overwrite in place, or append. -/
def setKey (k : String) (v : Val) : List (String × Val) → List (String × Val)
  | [] => [(k, v)]
  | (k', v') :: r => if k' = k then (k, v) :: r else (k', v') :: setKey k v r

/-- Deletion `delete o[k]` on a property list. -/
def delKey (k : String) : List (String × Val) → List (String × Val)
  | [] => []
  | (k', v') :: r => if k' = k then r else (k', v') :: delKey k r

/-! ## Heap access -/

/-- Property read `v[k]` for a non-nullish `v`: the own property, else `undefined`. -/
def getProp (H : Heap) (v : Val) (k : String) : Val :=
  match v with
  | .obj a =>
    match H[a]? with
    | some o => (assoc k o.props).getD .undefined
    | none => .undefined
  | _ => .undefined

/-- Own-property test on a value: `hasOwnProperty.call(v, k)`. -/
def hasOwn (H : Heap) (v : Val) (k : String) : Bool :=
  match v with
  | .obj a =>
    match H[a]? with
    | some o => (assoc k o.props).isSome
    | none => false
  | _ => false

/-- Replace the heap cell at address `a`. -/
def modifyAt (H : Heap) (a : Nat) (f : Obj → Obj) : Heap :=
  match H[a]? with
  | some o => H.set a (f o)
  | none => H

/-- Assignment `v[k] = x` (no effect on a primitive). -/
def setProp (H : Heap) (v : Val) (k : String) (x : Val) : Heap :=
  match v with
  | .obj a => modifyAt H a (fun o => { o with props := setKey k x o.props })
  | _ => H

/-- Deletion `delete v[k]` (no effect on a primitive). -/
def delProp (H : Heap) (v : Val) (k : String) : Heap :=
  match v with
  | .obj a => modifyAt H a (fun o => { o with props := delKey k o.props })
  | _ => H

/-- `Object.keys(v)` for an object. -/
def objectKeys (H : Heap) (v : Val) : List String :=
  match v with
  | .obj a =>
    match H[a]? with
    | some o => o.props.map Prod.fst
    | none => []
  | _ => []

/-- `typeof v === 'object' && v !== null`. -/
def isObject : Val → Bool
  | .obj _ => true
  | _ => false

/-- `Array.isArray(v)`. -/
def isArray (H : Heap) (v : Val) : Bool :=
  match v with
  | .obj a =>
    match H[a]? with
    | some o => decide (o.kind = Kind.array)
    | none => false
  | _ => false

/-- Is `v` a plain object (lodash `isPlainObject`). -/
def isPlain (H : Heap) (v : Val) : Bool :=
  match v with
  | .obj a =>
    match H[a]? with
    | some o => decide (o.kind = Kind.plain)
    | none => false
  | _ => false

/-- The string a value is, if `typeof v === 'string'`. -/
def strOf : Val → Option String
  | .str s => some s
  | _ => none

/-- JavaScript truthiness. -/
def truthy : Val → Bool
  | .undefined => false
  | .null => false
  | .bool b => b
  | .num n => decide (n ≠ 0)
  | .str s => decide (s ≠ "")
  | .obj _ => true

/-- Allocate a fresh object. -/
def allocObj (H : Heap) (o : Obj) : Nat × Heap := (H.length, H ++ [o])

/-! ## `clone`: a document becomes a fresh tree in the heap -/

mutual
/-- Allocate a document; children are allocated before their parent. -/
def alloc : Json → Heap → Val × Heap
  | .null, H => (.null, H)
  | .bool b, H => (.bool b, H)
  | .num n, H => (.num n, H)
  | .str s, H => (.str s, H)
  | .arr xs, H =>
    let r := allocItems xs 0 H
    (.obj r.2.length, r.2 ++ [{ kind := .array, props := r.1 }])
  | .obj kvs, H =>
    let r := allocFields kvs H
    (.obj r.2.length, r.2 ++ [{ kind := .plain, props := r.1 }])
/-- Allocate the elements of a sequence, element `i` under key `toString i`. -/
def allocItems : List Json → Nat → Heap → List (String × Val) × Heap
  | [], _, H => ([], H)
  | x :: xs, i, H =>
    let r := alloc x H
    let rs := allocItems xs (i + 1) r.2
    ((toString i, r.1) :: rs.1, rs.2)
/-- Allocate the members of a mapping. -/
def allocFields : List (String × Json) → Heap → List (String × Val) × Heap
  | [], H => ([], H)
  | (k, x) :: kvs, H =>
    let r := alloc x H
    let rs := allocFields kvs r.2
    ((k, r.1) :: rs.1, rs.2)
end

mutual
/-- Deep equality of a heap value with a document: `v` in `H` is the tree `t`. -/
def deepEq (H : Heap) : Val → Json → Bool
  | .null, .null => true
  | .bool b, .bool b' => decide (b = b')
  | .num n, .num n' => decide (n = n')
  | .str s, .str s' => decide (s = s')
  | .obj a, .arr xs =>
    match H[a]? with
    | some o => decide (o.kind = Kind.array) && deepEqItems H o.props xs 0
    | none => false
  | .obj a, .obj kvs =>
    match H[a]? with
    | some o => decide (o.kind = Kind.plain) && deepEqFields H o.props kvs
    | none => false
  | _, _ => false
/-- Deep equality of the properties of an array with a list of documents. -/
def deepEqItems (H : Heap) : List (String × Val) → List Json → Nat → Bool
  | [], [], _ => true
  | (k, v) :: ps, x :: xs, i => decide (k = toString i) && deepEq H v x && deepEqItems H ps xs (i + 1)
  | _, _, _ => false
/-- Deep equality of the properties of a plain object with the members of a mapping. -/
def deepEqFields (H : Heap) : List (String × Val) → List (String × Json) → Bool
  | [], [] => true
  | (k, v) :: ps, (k', x) :: kvs => decide (k = k') && deepEq H v x && deepEqFields H ps kvs
  | _, _ => false
end

/-! ## Strings -/

/-- Index of the first occurrence of `c` (`indexOf`), if any. -/
def indexOfChar (c : Char) : List Char → Option Nat
  | [] => none
  | d :: r => if d = c then some 0 else (indexOfChar c r).map (· + 1)

/-- Split at every `/` (`split('/')`): always at least one segment. -/
def splitSlash : List Char → List (List Char)
  | [] => [[]]
  | c :: cs =>
    if c = '/' then [] :: splitSlash cs
    else
      match splitSlash cs with
      | [] => [[c]]
      | seg :: rest => (c :: seg) :: rest

/-- `path.join('/')`. -/
def joinPath (path : List String) : String := "/".intercalate path

/-- Rendering of a possibly undefined string inside a template literal. -/
def showRef : Option String → String
  | some s => s
  | none => "undefined"

/-- `Array.prototype.toString` on a list of possibly undefined strings. -/
def showRefs (l : List (Option String)) : String :=
  ",".intercalate (l.map (fun o => o.getD ""))

/-! ## Parameters: the external functions -/

/-- External functions the code calls: `validUrl.isWebUri`, `md5` of the
    serialised document, and `String.prototype.toLowerCase`. -/
structure Env where
  isWebUri : String → Bool
  md5 : Json → String
  toLowerCase : String → String

/-! ## `traverse`: the walk -/

/-- What the walk remembers of an ancestor: the node it was entered with and
    the node after the visitor's `update`. -/
structure Frame where
  node_ : Val
  node : Val

/-- A call `this.update(value, stopHere)` made by the visitor. -/
structure Update where
  value : Val
  stopHere : Bool

/-- The visitor of a walk: from the path and node of the visited position to a
    new user state and heap, and the `update` it asks for. -/
abbrev Visitor (σ : Type) :=
  List String → Val → σ → Heap → Except Exn (σ × Heap × Option Update)

/-- The assignment made by `this.update(x)`: `state.parent.node[state.key] = x`,
    unless the node is the root. -/
def updateParent (H : Heap) (upd : Option Update) (parents : List Frame) (path : List String) :
    Heap :=
  match upd, parents.getLast?, path.getLast? with
  | some u, some p, some key => setProp H p.node key u.value
  | _, _, _ => H

/-- The function `walker` of traverse (`forEach`, in place): visit the node, apply
    the visitor's update to the parent, then walk the children of the updated
    node unless told to stop or the entered node is one of its own ancestors.
    The keys walked are those read before the visit when the node was not
    replaced; each child is read when its turn comes. -/
def walker {σ : Type} (cb : Visitor σ) :
    Nat → List String → List Frame → Val → σ → Heap → Except Exn (Val × σ × Heap)
  | 0, _, _, _, _, _ => .error .fuel
  | n + 1, path, parents, node_, s, H =>
    let circular := isObject node_ && parents.any (fun f => decide (f.node_ = node_))
    let keys0 := objectKeys H node_
    match cb path node_ s H with
    | .error e => .error e
    | .ok (s1, H1, upd) =>
      let node := match upd with
        | some u => u.value
        | none => node_
      let H2 := updateParent H1 upd parents path
      let keepGoing := match upd with
        | some u => !u.stopHere
        | none => true
      if keepGoing && isObject node && !circular then
        let keys := if isObject node_ && decide (node = node_) then keys0 else objectKeys H2 node
        match keys.foldlM (fun (acc : σ × Heap) key =>
            ((walker cb n (path ++ [key]) (parents ++ [⟨node_, node⟩])
                (getProp acc.2 node key) acc.1 acc.2).map Prod.snd : Except Exn (σ × Heap)))
            (s1, H2) with
        | .ok r => .ok (node, r.1, r.2)
        | .error e => .error e
      else .ok (node, s1, H2)

/-! ## `utils.js` -/

/-- The three tags `getRefType` gives. -/
inductive RefType where
  | local
  | web
  | file
  deriving DecidableEq

/-- Source `getRefValue`: the `$ref` string of `ref.value` when that is truthy,
    else of `ref` itself; undefined unless it is a non-empty string. -/
def getRefValue (H : Heap) (ref : Val) : Option String :=
  let thing := if truthy ref then (if truthy (getProp H ref "value") then getProp H ref "value" else ref)
    else Val.null
  if truthy thing then
    match strOf (getProp H thing "$ref") with
    | some s => if s = "" then none else some s
    | none => none
  else none

/-- Source `getRefType`. -/
def getRefType (env : Env) (H : Heap) (ref : Val) : Option RefType :=
  match getRefValue H ref with
  | some val =>
    if val.data.head? = some '#' then some .local
    else if env.isWebUri val then some .web
    else some .file
  | none => none

/-- The part of `refPath` that `getRefPathValue` splits into keys. -/
def refPathTail (refPath : String) : List Char :=
  match indexOfChar '#' refPath.data with
  | some i => if 1 < (refPath.data.drop i).length then refPath.data.drop 1 else []
  | none => refPath.data

/-- The keys `getRefPathValue` indexes by: the non-empty `/`-separated segments. -/
def refPathKeys (refPath : String) : List String :=
  ((splitSlash (refPathTail refPath)).filter (fun k => !k.isEmpty)).map String.mk

/-- One step `value[key]` of the reduction: a `TypeError` on `undefined` and
    `null`, else the own property `key` of `value` (`undefined` when there is
    none). -/
def index (H : Heap) (value : Val) (key : String) : Except Exn Val :=
  match value with
  | .undefined => .error .typeError
  | .null => .error .typeError
  | v => .ok (getProp H v key)

/-- Source `getRefPathValue`. -/
def getRefPathValue (H : Heap) (schema : Val) (refPath : String) : Except Exn Val :=
  (refPathKeys refPath).foldlM (index H) schema

/-- Source `getRefFilePath`. -/
def getRefFilePath (refPath : String) : String :=
  match indexOfChar '#' refPath.data with
  | some i => if 0 < i then String.mk (refPath.data.take i) else refPath
  | none => refPath

/-! ## `dag-map` -/

/-- The graph of dag-map: vertex names in order of creation, and the edges
    `(from, to)` in order of insertion. -/
structure DAG where
  names : List String
  edges : List (String × String)

/-- The empty graph, `new DAG()`. -/
def DAG.empty : DAG := ⟨[], []⟩

/-- The method `add` of dag-map: create the vertex unless it exists. -/
def DAG.add (g : DAG) (name : String) : DAG :=
  if name ∈ g.names then g else { g with names := g.names ++ [name] }

/-- The `incomingNames` of a vertex. -/
def DAG.incoming (g : DAG) (v : String) : List String :=
  (g.edges.filter (fun e => decide (e.2 = v))).map Prod.fst

/-- The function `visit` of dag-map with the callback `checkCycle` of `addEdge`:
    depth-first over incoming edges, each vertex once, throwing at `toName`. -/
def DAG.visit (g : DAG) (toName : String) : Nat → String → List String → Except Exn (List String)
  | 0, _, _ => .error .fuel
  | n + 1, v, visited =>
    if v ∈ visited then .ok visited
    else
      match (g.incoming v).foldlM (fun vis u => DAG.visit g toName n u vis) (v :: visited) with
      | .error e => .error e
      | .ok vis => if v = toName then .error .cycle else .ok vis

/-- The method `addEdge` of dag-map. -/
def DAG.addEdge (g : DAG) (fromName toName : String) : Except Exn DAG :=
  if fromName = "" ∨ toName = "" ∨ fromName = toName then .ok g
  else
    let g2 := (g.add fromName).add toName
    if (fromName, toName) ∈ g2.edges then .ok g2
    else
      match g2.visit toName (g2.names.length + 1) fromName [] with
      | .error e => .error e
      | .ok _ => .ok { g2 with edges := g2.edges ++ [(fromName, toName)] }

/-! ## `checkLocalCircular` -/

/-- An entry of `locals`: the path of a local reference node and its `$ref`. -/
structure Local where
  from_ : String
  to_ : String
  deriving DecidableEq

/-- The reducer of `checkLocalCircular`. -/
def collectLocal (env : Env) : Visitor (List Local) := fun path node acc H =>
  match node with
  | .undefined => .error .typeError
  | .null => .ok (acc, H, none)
  | _ =>
    match strOf (getProp H node "$ref") with
    | some _ =>
      if getRefType env H node = some .local then
        match getRefValue H node with
        | some value => .ok (acc ++ [⟨joinPath path, value⟩], H, none)
        | none => .ok (acc, H, none)
      else .ok (acc, H, none)
    | none => .ok (acc, H, none)

/-- The `_.find` of `checkLocalCircular`: the first entry whose edge dag-map
    refuses, or whose target path is a prefix of its own path. -/
def findCircular : DAG → List Local → Except Exn (Option Local)
  | _, [] => .ok none
  | g, elem :: rest =>
    let fromEdge := elem.from_ ++ "/"
    let dest := String.mk (elem.to_.data.drop 2) ++ "/"
    match g.addEdge fromEdge dest with
    | .error .cycle => .ok (some elem)
    | .error e => .error e
    | .ok g' =>
      if dest.data.isPrefixOf fromEdge.data then .ok (some elem)
      else findCircular g' rest

/-- Source `checkLocalCircular`: `some msg` is the returned `Error`. -/
def checkLocalCircular (env : Env) (fuel : Nat) (H : Heap) (schema : Val) :
    Except Exn (Option String) :=
  match walker (collectLocal env) fuel [] [] schema [] H with
  | .error e => .error e
  | .ok (_, locals, _) =>
    if locals.isEmpty then .ok none
    else if locals.any (fun elem => decide (elem.to_ = "#")) then .ok (some "Circular self reference")
    else
      match findCircular DAG.empty locals with
      | .error e => .error e
      | .ok (some elem) =>
        .ok (some ("Circular self reference from " ++ elem.from_ ++ " to " ++ elem.to_))
      | .ok none => .ok none

/-! ## lodash `merge` -/

/-- The keys `baseMerge` iterates over (`keysIn`): the properties of an
    object, the indices of a string, nothing for other primitives. -/
def keysIn (H : Heap) (source : Val) : List String :=
  match source with
  | .obj _ => objectKeys H source
  | .str s => (List.range s.data.length).map toString
  | _ => []

/-- The read `source[key]` inside `baseMerge`, characters of a string included. -/
def getIn (H : Heap) (source : Val) (key : String) : Val :=
  match source with
  | .str s =>
    match (List.range s.data.length).find? (fun i => decide (toString i = key)) with
    | some i => (s.data.get? i).elim Val.undefined (fun c => Val.str (String.singleton c))
    | none => .undefined
  | v => getProp H v key

/-- lodash `assignMergeValue`. -/
def assignMergeValue (H : Heap) (object : Nat) (key : String) (value : Val) : Heap :=
  if (value ≠ .undefined ∧ getProp H (.obj object) key ≠ value)
      ∨ (value = .undefined ∧ hasOwn H (.obj object) key = false) then
    setProp H (.obj object) key value
  else H

/-- The address of an object value. -/
def objAddr : Val → Option Nat
  | .obj a => some a
  | _ => none

/-- lodash `isArrayLikeObject` for a value that is not an array, together with
    the length it finds: the `length` of an object when that is a valid length
    (`isLength`: an integer from 0 to `Number.MAX_SAFE_INTEGER`). -/
def arrayLikeLength (H : Heap) (v : Val) : Option Int :=
  if isObject v then
    match getProp H v "length" with
    | .num n => if 0 ≤ n ∧ n ≤ 9007199254740991 then some n else none
    | _ => none
  else none

/-- lodash `copyArray(source)` for a source of length `n`: the new array
    `Array(n)` with the elements `source[0]`, `source[1]`, ... assigned;
    `Array(n)` throws a `RangeError` when `n` is negative or above `2^32 - 1`. -/
def copyArray (H : Heap) (source : Val) (n : Int) : Except Exn Obj :=
  if n < 0 ∨ 4294967295 < n then .error .rangeError
  else
    .ok ⟨.array,
      (List.range n.toNat).map (fun i => (toString i, getProp H source (toString i)))⟩

/-- The recursive part of lodash `baseMergeDeep`: merge the source object `sa`
    into `newValue`, which is the existing destination value `dst` or a fresh
    empty object of the given kind, then assign it to `object[key]`.  `rec` is
    `baseMerge`. -/
def mergeDeep (rec : List (Nat × Nat) → Nat → Val → Heap → Except Exn Heap)
    (stack : List (Nat × Nat)) (object : Nat) (key : String) (sa : Nat) (dst : Option Nat)
    (kind : Kind) (H : Heap) : Except Exn Heap :=
  match dst with
  | some oa =>
    (rec ((sa, oa) :: stack) oa (.obj sa) H).map
      (fun H' => assignMergeValue H' object key (.obj oa))
  | none =>
    (rec ((sa, H.length) :: stack) H.length (.obj sa) (H ++ [{ kind := kind, props := [] }])).map
      (fun H' => assignMergeValue H' object key (.obj H.length))

/-- The branch `isArrayLikeObject(objValue)` of lodash `baseMergeDeep`: merge the
    source array `sa` into a new array that `copyArray` makes of the destination
    value `objValue`, then assign it to `object[key]`.  `rec` is `baseMerge`. -/
def mergeArrayLike (rec : List (Nat × Nat) → Nat → Val → Heap → Except Exn Heap)
    (stack : List (Nat × Nat)) (object : Nat) (key : String) (sa : Nat) (objValue : Val)
    (length : Int) (H : Heap) : Except Exn Heap :=
  match copyArray H objValue length with
  | .error e => .error e
  | .ok copy =>
    (rec ((sa, H.length) :: stack) H.length (.obj sa) (H ++ [copy])).map
      (fun H' => assignMergeValue H' object key (.obj H.length))

/-- The callback of lodash `baseMerge` for one key of the source, with
    `baseMergeDeep` inlined: a source value that is an object is merged
    recursively; any other source value is assigned.  For the key `__proto__`,
    `baseMergeDeep` reads the two values with `safeGet`, which gives `undefined`,
    and assigns nothing.  A source array is merged into the destination value if
    that is an array, into an array copy of it if it is array-like, and else into
    a fresh array; a source plain object is merged into the destination value if
    that is an object, and else into a fresh one.  `stack` maps the sources being
    merged to their destinations. -/
def mergeStep (rec : List (Nat × Nat) → Nat → Val → Heap → Except Exn Heap)
    (stack : List (Nat × Nat)) (object : Nat) (source : Val) (H : Heap) (key : String) :
    Except Exn Heap :=
  match getIn H source key with
  | .obj sa =>
    if key = "__proto__" then .ok H
    else
      match stack.lookup sa with
      | some stacked => .ok (assignMergeValue H object key (.obj stacked))
      | none =>
        if isArray H (.obj sa) then
          if isArray H (getProp H (.obj object) key) then
            mergeDeep rec stack object key sa (objAddr (getProp H (.obj object) key)) .array H
          else
            match arrayLikeLength H (getProp H (.obj object) key) with
            | some length =>
              mergeArrayLike rec stack object key sa (getProp H (.obj object) key) length H
            | none => mergeDeep rec stack object key sa none .array H
        else if isPlain H (.obj sa) then
          mergeDeep rec stack object key sa (objAddr (getProp H (.obj object) key)) .plain H
        else .ok (assignMergeValue H object key (.obj sa))
  | srcValue => .ok (assignMergeValue H object key srcValue)

/-- lodash `baseMerge`: merge `source` into the object at address `object`, key
    by key. -/
def baseMerge : Nat → List (Nat × Nat) → Nat → Val → Heap → Except Exn Heap
  | 0, _, _, _, _ => .error .fuel
  | n + 1, stack, object, source, H =>
    if source = .obj object then .ok H
    else (keysIn H source).foldlM (mergeStep (baseMerge n) stack object source) H

/-- lodash `merge({}, ...sources)`: a fresh object, each truthy source merged in turn. -/
def merge (fuel : Nat) (H : Heap) (sources : List Val) : Except Exn (Val × Heap) :=
  (sources.foldlM (fun (H' : Heap) source =>
      (if truthy source then baseMerge fuel [] H.length source H' else .ok H' : Except Exn Heap))
    (H ++ [{ kind := .plain, props := [] }])).map (fun H' => (Val.obj H.length, H'))

/-! ## `index.js` -/

/-- The options of `deref` that the engine reads. -/
structure Options where
  baseFolder : Option String
  failOnMissing : Bool
  mergeAdditionalProperties : Bool
  removeIds : Bool

/-- The defaults of `deref`. -/
def Options.default : Options := ⟨none, false, false, false⟩

/-- The resolution state of one call of `deref`; `error` holds the message of
    the recorded `Error`. -/
structure State where
  circular : Bool
  circularRefs : List (Option String)
  error : Option String
  cwd : Option String
  missing : List (Option String)
  history : List String
  cache : List (String × Val)
  current : String

/-- What a call of `derefSchema` or of a loader leaves behind. -/
abbrev World := Options × State × Heap

/-- A registered loader: its `getRefSchema`, given the engine to call back. -/
structure Loader where
  getRefSchema : (Val → Options → State → Heap → Except Exn (Res × World)) →
    Option String → RefType → Val → Options → State → Heap → Except Exn (Val × World)

/-- The option `loaders`: the loader registered for a reference type, if any. -/
abbrev Loaders := RefType → Option Loader

/-- The default `loaders: {}`. -/
def noLoaders : Loaders := fun _ => none

/-! ## `loaders/file.js` -/

/-- What the file loader calls from Node: `process.cwd()`, and `isAbsolute`,
    `resolve` (of two arguments) and `dirname` of the module `path`. -/
structure Sys where
  processCwd : String
  isAbsolute : String → Bool
  resolve : String → String → String
  dirname : String → String

/-- Truthiness of a possibly undefined string. -/
def truthyStr : Option String → Bool
  | some s => decide (s ≠ "")
  | none => false

/-- Source `getCwdFromOptions`. -/
def getCwdFromOptions (sys : Sys) (o : Options) : String :=
  match o.baseFolder with
  | some b =>
    if b = "" then sys.processCwd
    else if !sys.isAbsolute b then sys.resolve sys.processCwd b
    else b
  | none => sys.processCwd

/-- The fragment `refVal.split('#')[1]` of a reference that has a `#`. -/
def fragmentOf (refVal : String) : Option String :=
  match indexOfChar '#' refVal.data with
  | some i => some (String.mk ((refVal.data.drop (i + 1)).takeWhile (fun c => c ≠ '#')))
  | none => none

/-- The entry `cache[key]`. -/
def cacheGet (cache : List (String × Val)) (key : String) : Val :=
  (assoc key cache).getD .undefined

/-- The first half of the file loader's `getRefSchema`: the cached content, or
    else the loaded and dereferenced one (an `Error` that `derefSchema` returns is
    an object like any other here). -/
def fileLoaderValue (sys : Sys) (load : Option String → Options → Heap → Except Exn (Val × Heap))
    (recur : Val → Options → State → Heap → Except Exn (Res × World))
    (refVal : Option String) (cwd : String) (filePath : Option String) (cached : Val)
    (o : Options) (st : State) (H : Heap) : Except Exn (Val × World) :=
  if truthy cached then .ok (cached, o, st, H)
  else
    match load refVal o H with
    | .error e => .error e
    | .ok (loaded, H1) =>
      if truthy loaded then
        let dirname := match filePath with
          | some fp => if sys.dirname fp = "." then "" else sys.dirname fp
          | none => ""
        let oldBasePath : Option String := if dirname = "" then none else some cwd
        let o1 := if dirname = "" then o else { o with baseFolder := some (sys.resolve cwd dirname) }
        match recur loaded o1 st H1 with
        | .error e => .error e
        | .ok (res, o2, st2, H2) =>
          let out : Val × Heap := match res with
            | .value v => (v, H2)
            | .error msg => (.obj (allocObj H2 ⟨.error msg, []⟩).1, (allocObj H2 ⟨.error msg, []⟩).2)
          if truthyStr oldBasePath then
            .ok (out.1, { o2 with baseFolder := oldBasePath }, { st2 with cwd := oldBasePath }, out.2)
          else .ok (out.1, o2, st2, out.2)
      else .ok (loaded, o, st, H1)

/-- Source `getRefSchema` of `loaders/file.js`, for a loader whose `load` is
    `load`. -/
def fileGetRefSchema (sys : Sys) (load : Option String → Options → Heap → Except Exn (Val × Heap))
    (recur : Val → Options → State → Heap → Except Exn (Res × World))
    (refVal : Option String) (refType : RefType) (_parent : Val)
    (o : Options) (st : State) (H : Heap) : Except Exn (Val × World) :=
  let cwd := if truthyStr st.cwd then st.cwd.getD "" else getCwdFromOptions sys o
  if refType = .file ∧ refVal = none then .error .typeError
  else
    let filePath : Option String := if refType = .file then refVal.map getRefFilePath else none
    let fullRefFilePath : Option String :=
      filePath.map (fun fp => if sys.isAbsolute fp then fp else sys.resolve cwd fp)
    let cached : Val := match fullRefFilePath with
      | some full => if truthy (cacheGet st.cache full) then cacheGet st.cache full else .undefined
      | none => .undefined
    match fileLoaderValue sys load recur refVal cwd filePath cached o st H with
    | .error e => .error e
    | .ok (loaderValue, o3, st3, H3) =>
      if truthy loaderValue then
        let st4 := match fullRefFilePath with
          | some full =>
            if truthyStr (some full) && !truthy (cacheGet st3.cache full) then
              { st3 with cache := setKey full loaderValue st3.cache }
            else st3
          | none => st3
        match refVal with
        | none => .error .typeError
        | some rv =>
          match fragmentOf rv with
          | some refPath =>
            match getRefPathValue H3 loaderValue refPath with
            | .error e => .error e
            | .ok refNewVal => .ok (if truthy refNewVal then refNewVal else .undefined, o3, st4, H3)
          | none => .ok (loaderValue, o3, st4, H3)
      else .ok (.undefined, o3, st3, H3)

/-- Source `load` of `loaders/file.js`; `read` stands for `fs.readFileSync`
    followed by `JSON.parse`, and gives nothing when either throws. -/
def fileLoad (sys : Sys) (read : String → Option Json) (refValue : Option String) (o : Options)
    (H : Heap) : Except Exn (Val × Heap) :=
  match refValue with
  | none => .error .typeError
  | some rv =>
    let baseFolder := if truthyStr o.baseFolder then sys.resolve sys.processCwd (o.baseFolder.getD "")
      else sys.processCwd
    let refPath := if ("file:".data).isPrefixOf rv.data then String.mk (rv.data.drop 5)
      else sys.resolve baseFolder rv
    match read (getRefFilePath refPath) with
    | some content => .ok (alloc content H)
    | none => .ok (.undefined, H)

/-- The file loader with the `load` of `loaders/file.js`. -/
def fileLoader (sys : Sys) (read : String → Option Json) : Loader :=
  ⟨fileGetRefSchema sys (fileLoad sys read)⟩

/-- The option `loaders: { file: fileLoader }`. -/
def fileLoaders (sys : Sys) (read : String → Option Json) : Loaders :=
  fun t => if t = .file then some (fileLoader sys read) else none

/-- Source `getRefSchema` of `index.js`. -/
def getRefSchema (loaders : Loaders)
    (recur : Val → Options → State → Heap → Except Exn (Res × World))
    (refVal : Option String) (refType : Option RefType) (parent : Val)
    (o : Options) (st : State) (H : Heap) : Except Exn (Val × World) :=
  match refType with
  | some t =>
    match loaders t with
    | some loader => loader.getRefSchema recur refVal t parent o st H
    | none =>
      if t = .local then
        match refVal with
        | some v => (getRefPathValue H parent v).map (fun x => (x, o, st, H))
        | none => .error .typeError
      else .ok (.undefined, o, st, H)
  | none => .ok (.undefined, o, st, H)

/-- Source `addToHistory`: whether the reference is accepted, and the state. -/
def addToHistory (env : Env) (st : State) (type : Option RefType) (value : Option String) :
    Except Exn (Bool × State) :=
  let record := fun (dest : String) =>
    if dest = "" then (true, st)
    else if env.toLowerCase dest ∈ st.history then (false, st)
    else (true, { st with history := st.history ++ [env.toLowerCase dest] })
  if type = some .file then
    match value with
    | some v => .ok (record (getRefFilePath v))
    | none => .error .typeError
  else if value = some "#" then .ok (false, st)
  else .ok (record (st.current ++ (":" ++ showRef value)))

/-- Source `setCurrent`. -/
def setCurrent (st : State) (type : Option RefType) (value : Option String) : Except Exn State :=
  if type = some .file then
    match value with
    | some v => .ok (if getRefFilePath v = "" then st else { st with current := getRefFilePath v })
    | none => .error .typeError
  else .ok st

/-- Does the call `v.hasOwnProperty('$id')` throw a `TypeError`, for a defined
    `v`: it does when `v` is `null`, and when `v` has a member named
    `hasOwnProperty`, which is no function in a document. -/
def hasOwnThrows (H : Heap) (v : Val) : Bool :=
  decide (v = .null) || hasOwn H v "hasOwnProperty"

/-- The visitor of `derefSchema`: what happens at one node of the walk. -/
def derefVisit (env : Env) (loaders : Loaders)
    (recur : Val → Options → State → Heap → Except Exn (Res × World))
    (fuel : Nat) (schema : Val) : Visitor (State × Options) := fun _ node s H =>
  match node with
  | .undefined => .error .typeError
  | .null => .ok (s, H, none)
  | _ =>
    match strOf (getProp H node "$ref") with
    | some _ =>
      let refType := getRefType env H node
      let refVal := getRefValue H node
      match addToHistory env s.1 refType refVal with
      | .error e => .error e
      | .ok (false, st1) =>
        let refs := st1.circularRefs ++ [refVal]
        .ok (({ st1 with circular := true, circularRefs := refs,
                         error := some ("circular references found: " ++ showRefs refs) }, s.2),
             H, some ⟨node, true⟩)
      | .ok (true, st1) =>
        match setCurrent st1 refType refVal with
        | .error e => .error e
        | .ok st2 =>
          match getRefSchema loaders recur refVal refType schema s.2 st2 H with
          | .error e => .error e
          | .ok (newValue, o3, st3, H3) =>
            let st4 := { st3 with history := st3.history.dropLast }
            if newValue = .undefined then
              let st5 := if refVal ∈ st4.missing then st4
                else { st4 with missing := st4.missing ++ [refVal] }
              let st6 := if o3.failOnMissing then
                  { st5 with error := some ("Missing $ref: " ++ showRef refVal) }
                else st5
              .ok ((st6, o3), H3, some ⟨node, o3.failOnMissing⟩)
            else if o3.removeIds && hasOwnThrows H3 newValue then .error .typeError
            else
              let H4 := if o3.removeIds && hasOwn H3 newValue "$id" then delProp H3 newValue "$id"
                else H3
              let st5 := { st4 with missing := st4.missing.erase refVal }
              if o3.mergeAdditionalProperties then
                match merge fuel (delProp H4 node "$ref") [newValue, node] with
                | .error e => .error e
                | .ok (merged, H5) => .ok ((st5, o3), H5, some ⟨merged, false⟩)
              else .ok ((st5, o3), H4, some ⟨newValue, false⟩)
    | none => .ok (s, H, none)

/-- Source `derefSchema`. -/
def derefSchema (env : Env) (loaders : Loaders) :
    Nat → Val → Options → State → Heap → Except Exn (Res × World)
  | 0, _, _, _, _ => .error .fuel
  | n + 1, schema, o, st, H =>
    match checkLocalCircular env n H schema with
    | .error e => .error e
    | .ok (some msg) => .ok (.error msg, o, st, H)
    | .ok none =>
      if st.circular then
        .ok (.error ("circular references found: " ++ showRefs st.circularRefs), o, st, H)
      else
        match st.error with
        | some msg => .ok (.error msg, o, st, H)
        | none =>
          match walker (derefVisit env loaders (derefSchema env loaders n) n schema) n [] []
              schema (st, o) H with
          | .error e => .error e
          | .ok (v, s', H') => .ok (.value v, s'.2, s'.1, H')

/-- The state `deref` starts from. -/
def initState (env : Env) (schema : Json) (options : Options) : State :=
  { circular := false, circularRefs := [], error := none, cwd := options.baseFolder,
    missing := [], history := [], cache := [], current := env.md5 schema }

/-- Source `deref`: clone the document, run `derefSchema`, and return the
    recorded error if there is one.  The result comes with the heap in which
    a returned value is to be read. -/
def deref (env : Env) (loaders : Loaders) (fuel : Nat) (schema : Json) (options : Options) :
    Except Exn (Res × Heap) :=
  match derefSchema env loaders fuel (alloc schema []).1 options (initState env schema options)
      (alloc schema []).2 with
  | .error e => .error e
  | .ok (ret, _, st, H) =>
    match ret, st.error with
    | .value _, some msg => .ok (.error msg, H)
    | _, _ => .ok (ret, H)

/-- Does `deref` return a document deeply equal to `t`? -/
def returnsDoc (r : Except Exn (Res × Heap)) (t : Json) : Bool :=
  match r with
  | .ok (.value v, H) => deepEq H v t
  | _ => false

/-- Does `deref` return an `Error` with this message? -/
def returnsError (r : Except Exn (Res × Heap)) (msg : String) : Bool :=
  match r with
  | .ok (.error m, _) => decide (m = msg)
  | _ => false


/-! ## Documents as trees: what the theorems say about a document -/

/-- The members of a sequence under their index keys, from index `i`. -/
def indexed : List Json → Nat → List (String × Json)
  | [], _ => []
  | x :: xs, i => (toString i, x) :: indexed xs (i + 1)

/-- The members of a container in enumeration order (none for a scalar). -/
def Json.props : Json → List (String × Json)
  | .arr xs => indexed xs 0
  | .obj kvs => kvs
  | _ => []

/-- First member stored under `k`. -/
def lookupJ (k : String) : List (String × Json) → Option Json
  | [] => none
  | (k', x) :: r => if k' = k then some x else lookupJ k r

/-- The member `t[k]` of a document node, if it has one. -/
def Json.member (t : Json) (k : String) : Option Json := lookupJ k t.props

/-- The kind of heap object a container is cloned to. -/
def Json.kind : Json → Kind
  | .arr _ => .array
  | _ => .plain

/-- Is the node a mapping or a sequence? -/
def Json.isContainer : Json → Bool
  | .arr _ => true
  | .obj _ => true
  | _ => false

mutual
/-- Number of nodes of a document. -/
def Json.size : Json → Nat
  | .arr xs => 1 + sizeItems xs
  | .obj kvs => 1 + sizeFields kvs
  | _ => 1
/-- Number of nodes of the elements of a sequence. -/
def sizeItems : List Json → Nat
  | [] => 0
  | x :: xs => x.size + sizeItems xs
/-- Number of nodes of the members of a mapping. -/
def sizeFields : List (String × Json) → Nat
  | [] => 0
  | (_, x) :: kvs => x.size + sizeFields kvs
end

mutual
/-- Well-formed document: the members of every mapping have distinct names. -/
def Json.wf : Json → Bool
  | .arr xs => wfItems xs
  | .obj kvs => decide (kvs.map Prod.fst).Nodup && wfFields kvs
  | _ => true
/-- Well-formedness of the elements of a sequence. -/
def wfItems : List Json → Bool
  | [] => true
  | x :: xs => x.wf && wfItems xs
/-- Well-formedness of the members of a mapping. -/
def wfFields : List (String × Json) → Bool
  | [] => true
  | (_, x) :: kvs => x.wf && wfFields kvs
end

/-- The node `n` occurs in the document `t`, at any depth. -/
inductive IsNode (n : Json) : Json → Prop where
  | here : IsNode n n
  | item (xs : List Json) (x : Json) : x ∈ xs → IsNode n x → IsNode n (.arr xs)
  | field (kvs : List (String × Json)) (k : String) (x : Json) :
      (k, x) ∈ kvs → IsNode n x → IsNode n (.obj kvs)

/-- Truthiness of a document node. -/
def Json.truthy : Json → Bool
  | .null => false
  | .bool b => b
  | .num n => decide (n ≠ 0)
  | .str s => decide (s ≠ "")
  | _ => true

/-- The string a node is, if it is one. -/
def Json.asStr : Json → Option String
  | .str s => some s
  | _ => none

/-- The string stored under `k`, if the member is a string. -/
def Json.strMember (t : Json) (k : String) : Option String :=
  match t.member k with
  | some x => x.asStr
  | none => none

/-- Does the node carry a string-valued `$ref`: the test of the two visitors. -/
def Json.hasRef (t : Json) : Bool := (t.strMember "$ref").isSome

/-- What `getRefValue` gives on a document node. -/
def Json.refValue (t : Json) : Option String :=
  let thing := match t.member "value" with
    | some w => if w.truthy then w else t
    | none => t
  if t.truthy && thing.truthy then
    match thing.strMember "$ref" with
    | some s => if s = "" then none else some s
    | none => none
  else none

/-- What `getRefType` gives on a document node. -/
def Json.refType (env : Env) (t : Json) : Option RefType :=
  match t.refValue with
  | some val =>
    if val.data.head? = some '#' then some .local
    else if env.isWebUri val then some .web
    else some .file
  | none => none

/-- A visitor seen on the document: the new user state, and the `stopHere` of
    its `update(node, stopHere)` if it makes one. -/
abbrev TreeVisitor (σ : Type) := List String → Json → σ → σ × Option Bool

mutual
/-- The walk of a visitor that leaves the document as it is. -/
def twalk {σ : Type} (f : TreeVisitor σ) : List String → Json → σ → σ
  | path, .arr xs, s =>
    if (f path (.arr xs) s).2 = some true then (f path (.arr xs) s).1
    else twalkItems f path xs 0 (f path (.arr xs) s).1
  | path, .obj kvs, s =>
    if (f path (.obj kvs) s).2 = some true then (f path (.obj kvs) s).1
    else twalkFields f path kvs (f path (.obj kvs) s).1
  | path, .null, s => (f path .null s).1
  | path, .bool b, s => (f path (.bool b) s).1
  | path, .num n, s => (f path (.num n) s).1
  | path, .str x, s => (f path (.str x) s).1
/-- The walk over the elements of a sequence, from index `i`. -/
def twalkItems {σ : Type} (f : TreeVisitor σ) : List String → List Json → Nat → σ → σ
  | _, [], _, s => s
  | path, x :: xs, i, s => twalkItems f path xs (i + 1) (twalk f (path ++ [toString i]) x s)
/-- The walk over the members of a mapping. -/
def twalkFields {σ : Type} (f : TreeVisitor σ) : List String → List (String × Json) → σ → σ
  | _, [], s => s
  | path, (k, x) :: kvs, s => twalkFields f path kvs (twalk f (path ++ [k]) x s)
end

/-- The reducer of `checkLocalCircular` seen on the document. -/
def collectLocalTree (env : Env) : TreeVisitor (List Local) := fun path t acc =>
  if t.hasRef && decide (t.refType env = some .local) then
    match t.refValue with
    | some value => (acc ++ [⟨joinPath path, value⟩], none)
    | none => (acc, none)
  else (acc, none)

/-- The `locals` that `checkLocalCircular` collects from a document. -/
def localsOf (env : Env) (t : Json) : List Local := twalk (collectLocalTree env) [] t []

/-- The node of a document at a path of member names. -/
def Json.nodeAt (t : Json) : List String → Option Json
  | [] => some t
  | k :: ks =>
    match t.member k with
    | some x => x.nodeAt ks
    | none => none

mutual
/-- Does every node of the document satisfy `p`? -/
def Json.all (p : Json → Bool) : Json → Bool
  | .arr xs => p (.arr xs) && allItems p xs
  | .obj kvs => p (.obj kvs) && allFields p kvs
  | .null => p .null
  | .bool b => p (.bool b)
  | .num n => p (.num n)
  | .str s => p (.str s)
/-- Does every node of the elements satisfy `p`? -/
def allItems (p : Json → Bool) : List Json → Bool
  | [] => true
  | x :: xs => x.all p && allItems p xs
/-- Does every node of the members satisfy `p`? -/
def allFields (p : Json → Bool) : List (String × Json) → Bool
  | [] => true
  | (_, x) :: kvs => x.all p && allFields p kvs
end

/-- A node that is no reference, or a reference classified `file` or `web`. -/
def Json.externalOrPlain (env : Env) (t : Json) : Bool :=
  !t.hasRef || decide (t.refType env = some .file) || decide (t.refType env = some .web)

/-- The state after the visit of a reference that no loader resolves. -/
def missingStateTree (env : Env) (t : Json) (s : State × Options) : State :=
  let st2 : State :=
    if t.refType env = some .file then
      (if getRefFilePath (t.refValue.getD "") = "" then s.1
       else { s.1 with current := getRefFilePath (t.refValue.getD "") })
    else s.1
  let st4 : State := { st2 with history := [] }
  let st5 : State := if t.refValue ∈ st4.missing then st4
    else { st4 with missing := st4.missing ++ [t.refValue] }
  if s.2.failOnMissing then { st5 with error := some ("Missing $ref: " ++ showRef t.refValue) }
  else st5

/-- The visitor of `derefSchema` seen on a document whose references no loader resolves. -/
def missingVisitTree (env : Env) : TreeVisitor (State × Options) := fun _ t s =>
  if t.hasRef then ((missingStateTree env t s, s.2), some s.2.failOnMissing) else (s, none)

/-- The node at path `p` is a reference whose fragment is exactly the path `q`. -/
def refersTo (doc : Json) (p q : List String) : Bool :=
  match doc.nodeAt p with
  | some m => m.hasRef && decide (m.refValue = some ("#/" ++ joinPath q))
  | none => false

/-- Every path of the list holds a reference to the next path of the list. -/
def chainRefs (doc : Json) : List (List String) → Bool
  | p :: q :: r => refersTo doc p q && chainRefs doc (q :: r)
  | _ => true

/-- The paths `p1 .. pk` hold reference nodes that form a cycle: the fragment of
    each is the path of the next, and the fragment of the last is the path of the first. -/
def isRefCycle (doc : Json) : List (List String) → Bool
  | [] => false
  | p :: r => chainRefs doc (p :: (r ++ [p]))


/-- The reference string of a node that is exactly `{ $ref: r }`. -/
def Json.soleRef : Json → Option String
  | .obj [(k, .str r)] => if k = "$ref" then some r else none
  | _ => none

/-- No node on the path `ks` from `t` down to the node it leads to, both
    included, is a reference node. -/
def Json.plainPath : Json → List String → Bool
  | t, [] => !t.hasRef
  | t, k :: ks =>
    !t.hasRef &&
      match t.member k with
      | some x => x.plainPath ks
      | none => false

/-- The condition on a node `m` of `doc`: `m` is not a reference node, or it is
    exactly `{ $ref: r }` with `r` a local reference other than `#` whose target
    exists in `doc`, is not reached through a reference node, and holds no
    reference node. -/
def Json.refOK (doc : Json) (m : Json) : Bool :=
  !m.hasRef ||
    match m.soleRef with
    | some r =>
      decide (r.data.head? = some '#') && decide (r ≠ "#") &&
        match doc.nodeAt (refPathKeys r) with
        | some t => doc.plainPath (refPathKeys r) && t.all (fun x => !x.hasRef)
        | none => false
    | none => false

mutual
/-- The document node `t` with every reference node replaced by the node of
    `doc` that its `$ref` points to. -/
def Json.subst (doc : Json) : Json → Json
  | .arr xs => .arr (substItems doc xs)
  | .obj kvs =>
    match (Json.obj kvs).strMember "$ref" with
    | some r => (doc.nodeAt (refPathKeys r)).getD (.obj kvs)
    | none => .obj (substFields doc kvs)
  | .null => .null
  | .bool b => .bool b
  | .num n => .num n
  | .str s => .str s
/-- Substitution in the elements of a sequence. -/
def substItems (doc : Json) : List Json → List Json
  | [] => []
  | x :: xs => Json.subst doc x :: substItems doc xs
/-- Substitution in the members of a mapping. -/
def substFields (doc : Json) : List (String × Json) → List (String × Json)
  | [] => []
  | (k, x) :: kvs => (k, Json.subst doc x) :: substFields doc kvs
end
/-! ## Auxiliary definitions for the proofs -/

/-- Value of a list of decimal digit characters, most significant first. -/
def digitsValue : List Char → Nat
  | [] => 0
  | c :: cs => (c.toNat - 48) * 10 ^ cs.length + digitsValue cs

/-- A property of the heap is the member of the document with the same key. -/
def Rel (H : Heap) (p : String × Val) (kv : String × Json) : Prop :=
  p.1 = kv.1 ∧ deepEq H p.2 kv.2 = true

/-- The edge relation of a graph. -/
def DAG.Edge (g : DAG) (a b : String) : Prop := (a, b) ∈ g.edges

/-- The invariant of the graph dag-map maintains: the ends of every edge are
    vertices, and no vertex reaches itself. -/
structure DAG.Good (g : DAG) : Prop where
  ends : ∀ a b, (a, b) ∈ g.edges → a ∈ g.names ∧ b ∈ g.names
  acyclic : ∀ x, ¬ Relation.TransGen g.Edge x x

mutual
/-- The value `v` is the document `t`, laid out in the heap cells `lo .. hi - 1`
    exactly: a container sits at `lo` and its members follow in order. -/
def treeAt (H : Heap) : Json → Nat → Nat → Val → Prop
  | .arr xs, lo, hi, v =>
    v = .obj lo ∧ ∃ ps, H[lo]? = some ⟨.array, ps⟩ ∧ itemsAt H xs 0 (lo + 1) hi ps
  | .obj kvs, lo, hi, v =>
    v = .obj lo ∧ ∃ ps, H[lo]? = some ⟨.plain, ps⟩ ∧ fieldsAt H kvs (lo + 1) hi ps
  | .null, lo, hi, v => lo = hi ∧ v = .null
  | .bool b, lo, hi, v => lo = hi ∧ v = .bool b
  | .num n, lo, hi, v => lo = hi ∧ v = .num n
  | .str s, lo, hi, v => lo = hi ∧ v = .str s
/-- The properties `ps` are the members of a mapping, laid out in `lo .. hi - 1`. -/
def fieldsAt (H : Heap) : List (String × Json) → Nat → Nat → List (String × Val) → Prop
  | [], lo, hi, ps => lo = hi ∧ ps = []
  | (k, x) :: kvs, lo, hi, ps =>
    ∃ v rest mid, ps = (k, v) :: rest ∧ treeAt H x lo mid v ∧ fieldsAt H kvs mid hi rest
/-- The properties `ps` are the elements of a sequence from index `i`, laid out in
    `lo .. hi - 1`. -/
def itemsAt (H : Heap) : List Json → Nat → Nat → Nat → List (String × Val) → Prop
  | [], _, lo, hi, ps => lo = hi ∧ ps = []
  | x :: xs, i, lo, hi, ps =>
    ∃ v rest mid, ps = (toString i, v) :: rest ∧ treeAt H x lo mid v ∧
      itemsAt H xs (i + 1) mid hi rest
end

/-- The object pointers stored in a property list. -/
def pointers : List (String × Val) → List Nat
  | [] => []
  | (_, .obj p) :: r => p :: pointers r
  | _ :: r => pointers r

/-- A range of heap cells is well-formed and its cells only point into it. -/
structure LayoutFacts (H : Heap) (lo hi : Nat) : Prop where
  le : lo ≤ hi
  closed : ∀ c o, lo ≤ c → c < hi → H[c]? = some o → ∀ p ∈ pointers o.props, lo ≤ p ∧ p < hi

/-- The cells a merge into a laid-out destination may touch: the range of the
    destination, and the cells allocated from `Lc` on. -/
def inA (lo hi Lc : Nat) (c : Nat) : Prop := (lo ≤ c ∧ c < hi) ∨ Lc ≤ c

/-- The cells a merge may touch only point to cells it may touch. -/
def ClosedA (lo hi Lc : Nat) (H : Heap) : Prop :=
  ∀ c o, inA lo hi Lc c → H[c]? = some o → ∀ p ∈ pointers o.props, inA lo hi Lc p

/-- Assignment on the list that describes the members of a merged object. -/
def setKeyO (k : String) (v : Option Json) :
    List (String × Option Json) → List (String × Option Json)
  | [] => [(k, v)]
  | (k', v') :: r => if k' = k then (k, v) :: r else (k', v') :: setKeyO k v r

/-- Lookup in the list that describes the members of a merged object. -/
def lookupO (k : String) : List (String × Option Json) → Option (Option Json)
  | [] => none
  | (k', v) :: r => if k' = k then some v else lookupO k r

/-- What lodash leaves under a key when the source member `y` is merged over a
    destination whose member is `old`: `some t` when the result is the document
    `t` (the source member replaces a scalar or an absent member, and a sequence
    replaces a mapping), `none` when the two are merged recursively. -/
def combine (old : Option (Option Json)) (y : Json) : Option Json :=
  if y.isContainer = false then some y
  else
    match old with
    | none => some y
    | some none => none
    | some (some x) =>
      if x.isContainer = false then some y
      else if y.kind = Kind.array ∧ x.kind = Kind.plain then some y
      else none

/-- The members of `merge({}, target, node)` for a target with members `tkvs`
    and a node with members `nkvs`, as far as they are documents. -/
def mergeTop (tkvs nkvs : List (String × Json)) : List (String × Option Json) :=
  nkvs.foldl (fun acc kv => setKeyO kv.1 (combine (lookupO kv.1 acc) kv.2) acc)
    (tkvs.map (fun kv => (kv.1, some kv.2)))

/-- The state of `merge({}, target, node)` while the members of the node are
    merged in: the sources (the cells below `H0.length`) are untouched, the result
    object sits at `H0.length`, its keys are those of `spec`, and every member that
    `spec` gives as a document is that document, laid out in cells `iv k` of its
    own. -/
def MergeInv (H0 : Heap) (spec : List (String × Option Json)) (H : Heap) : Prop :=
  H0.length < H.length ∧ (∀ c, c < H0.length → H[c]? = H0[c]?) ∧
  ∃ (dps : List (String × Val)) (iv : String → Nat × Nat),
    H[H0.length]? = some ⟨.plain, dps⟩ ∧
    dps.map Prod.fst = spec.map Prod.fst ∧
    (∀ k, H0.length < (iv k).1 ∧ (iv k).2 ≤ H.length) ∧
    (∀ k k', k ≠ k' → (iv k).2 ≤ (iv k').1 ∨ (iv k').2 ≤ (iv k).1) ∧
    (∀ k x, lookupO k spec = some (some x) →
      ∃ v, assoc k dps = some v ∧ treeAt H x (iv k).1 (iv k).2 v)

/-- Does lodash take the node for array-like on account of a member `length`:
    has it a member `length` that is an integer from 0 to
    `Number.MAX_SAFE_INTEGER`?  (The members of a sequence are its elements.) -/
def Json.arrayLike (t : Json) : Bool :=
  match t.member "length" with
  | some (.num n) => decide (0 ≤ n) && decide (n ≤ 9007199254740991)
  | _ => false

/-- Has the node a member named `length`?  (The members of a sequence are its
    elements.) -/
def Json.hasLength (t : Json) : Bool := (t.member "length").isSome

/-- Has the node a member named `__proto__`? -/
def Json.hasProto (t : Json) : Bool := (t.member "__proto__").isSome

/-- No cell that a merge may touch has a property `length` that lodash takes
    for the length of an array-like object. -/
def NoLen (lo hi Lc : Nat) (H : Heap) : Prop :=
  ∀ c, inA lo hi Lc c → arrayLikeLength H (.obj c) = none

/-- The heap in which `_.merge({}, newValue, node)` reads its sources: `$id` has
    been deleted from the target if `removeIds` asks for it, and `$ref` from the
    node. -/
def preMerge (o : Options) (H : Heap) (target node : Val) : Heap :=
  delProp (if o.removeIds && hasOwn H target "$id" then delProp H target "$id" else H)
    node "$ref"

/-- Does the sibling's value `y` replace the target's member `old` in a merge?  It
    does when one of the two is a scalar, when the target has no such member, and
    when a sequence meets a mapping; otherwise lodash merges the two recursively. -/
def siblingWins (old : Option Json) (y : Json) : Bool :=
  !y.isContainer ||
    match old with
    | none => true
    | some x => !x.isContainer || (decide (y.kind = Kind.array) && decide (x.kind = Kind.plain))

mutual
/-- The value `v` is the document `t` as `alloc` lays it out in the heap cells
    `lo .. hi - 1`: the members first, in order, and the container itself last. -/
def allocAt (H : Heap) : Json → Nat → Nat → Val → Prop
  | .arr xs, lo, hi, v =>
    ∃ top ps, hi = top + 1 ∧ v = .obj top ∧ H[top]? = some ⟨.array, ps⟩ ∧
      allocItemsAt H xs 0 lo top ps
  | .obj kvs, lo, hi, v =>
    ∃ top ps, hi = top + 1 ∧ v = .obj top ∧ H[top]? = some ⟨.plain, ps⟩ ∧
      allocFieldsAt H kvs lo top ps
  | .null, lo, hi, v => lo = hi ∧ v = .null
  | .bool b, lo, hi, v => lo = hi ∧ v = .bool b
  | .num n, lo, hi, v => lo = hi ∧ v = .num n
  | .str s, lo, hi, v => lo = hi ∧ v = .str s
/-- The properties `ps` are the members of a mapping as `allocFields` lays them
    out in `lo .. hi - 1`. -/
def allocFieldsAt (H : Heap) : List (String × Json) → Nat → Nat → List (String × Val) → Prop
  | [], lo, hi, ps => lo = hi ∧ ps = []
  | (k, x) :: kvs, lo, hi, ps =>
    ∃ v rest mid, ps = (k, v) :: rest ∧ allocAt H x lo mid v ∧ allocFieldsAt H kvs mid hi rest
/-- The properties `ps` are the elements of a sequence from index `i` as
    `allocItems` lays them out in `lo .. hi - 1`. -/
def allocItemsAt (H : Heap) : List Json → Nat → Nat → Nat → List (String × Val) → Prop
  | [], _, lo, hi, ps => lo = hi ∧ ps = []
  | x :: xs, i, lo, hi, ps =>
    ∃ v rest mid, ps = (toString i, v) :: rest ∧ allocAt H x lo mid v ∧
      allocItemsAt H xs (i + 1) mid hi rest
end

/-- What a property value is when the walk is over: a pointer to a reference
    node has become the pointer to its target, as found in the clone `H0`. -/
def fixVal (H0 : Heap) (root : Val) (w : Val) : Val :=
  match strOf (getProp H0 w "$ref") with
  | some r =>
    match getRefPathValue H0 root r with
    | .ok t => t
    | .error _ => w
  | none => w

/-- A heap cell when the walk is over. -/
def fixCell (H0 : Heap) (root : Val) (o : Obj) : Obj :=
  { o with props := o.props.map (fun p => (p.1, fixVal H0 root p.2)) }

/-- The heap when the walk over the clone `H0` is over. -/
def resolved (H0 : Heap) (root : Val) : Heap := H0.map (fixCell H0 root)

/-- A property during the walk: that of the clone, or already that of the end. -/
def Fixed (H0 : Heap) (root : Val) (p p0 : String × Val) : Prop :=
  p.1 = p0.1 ∧ (p.2 = p0.2 ∨ p.2 = fixVal H0 root p0.2)

/-- A heap during the walk: the cells of the clone, with some of the pointers to
    reference nodes already replaced. -/
def Between (H0 : Heap) (root : Val) (H : Heap) : Prop :=
  H.length = H0.length ∧
  ∀ (c : Nat) (o0 : Obj), H0[c]? = some o0 →
    ∃ o : Obj, H[c]? = some o ∧ o.kind = o0.kind ∧
      List.Forall₂ (Fixed H0 root) o.props o0.props

/-- The value reached from `v` by reading the keys `ks` one after the other. -/
def follow (H : Heap) (v : Val) (ks : List String) : Val := ks.foldl (getProp H) v

/-- The frames `parents` and the keys `path` of a call of `walker` on the node
    `v` of the clone `H0`: each frame is a node that is not a reference node and
    was not replaced, and its key leads to the next frame, the last one to `v`. -/
inductive Chain (H0 : Heap) : List Frame → List String → Val → Prop where
  | nil (v : Val) : Chain H0 [] [] v
  | snoc (ps : List Frame) (ks : List String) (a : Nat) (k : String) (v : Val) :
      Chain H0 ps ks (.obj a) → strOf (getProp H0 (.obj a) "$ref") = none →
      getProp H0 (.obj a) k = v → Chain H0 (ps ++ [⟨.obj a, .obj a⟩]) (ks ++ [k]) v

/-- The heap that `walker` returns for a node `v` when `Hm` is the heap after the
    visit of the node and of its members: the parent now has the value that took
    the place of `v`. -/
def walkOut (H0 : Heap) (root : Val) (parents : List Frame) (path : List String) (v : Val)
    (Hm : Heap) : Heap :=
  match parents.getLast?, path.getLast? with
  | some p, some key => setProp Hm p.node key (fixVal H0 root v)
  | _, _ => Hm

/-- What holds when `walker` is called on the node `v` of the clone `H0`, laid
    out in the cells `lo .. hi - 1`: the state is that of the start, the cells of
    the node are still those of the clone, and the ancestors lie above them. -/
structure WalkPre (H0 : Heap) (root : Val) (lo hi : Nat) (v : Val) (parents : List Frame)
    (path : List String) (s : State) (H : Heap) : Prop where
  missing : s.missing = []
  history : s.history = []
  between : Between H0 root H
  agree : ∀ c, lo ≤ c → c < hi → H[c]? = H0[c]?
  above : ∀ fr ∈ parents, ∃ a, fr.node_ = .obj a ∧ hi ≤ a
  chain : Chain H0 parents path v
  link : ∀ p key, parents.getLast? = some p → path.getLast? = some key →
    getProp H p.node key = v

/-- What holds of the heap `Hm` after the visit of a node laid out in the cells
    `lo .. hi - 1` and of its members, started in `H`: these cells are those of
    the end, the others are untouched. -/
structure WalkPost (H0 : Heap) (root : Val) (lo hi : Nat) (H Hm : Heap) : Prop where
  done : ∀ c, lo ≤ c → c < hi → Hm[c]? = (resolved H0 root)[c]?
  frame : ∀ c, ¬ (lo ≤ c ∧ c < hi) → Hm[c]? = H[c]?
  between : Between H0 root Hm


/-- Does `deref` return a value in which the keys `ks1` lead to an object from
    which the keys `ks2` lead back to that same object? -/
def returnsCyclic (r : Except Exn (Res × Heap)) (ks1 ks2 : List String) : Bool :=
  match r with
  | .ok (.value v, H) =>
    isObject (follow H v ks1) && decide (follow H (follow H v ks1) ks2 = follow H v ks1)
  | _ => false

/-- Does `deref` return a value in which the keys `ks` lead to an `Error` object
    with the message `msg`? -/
def returnsErrorAt (r : Except Exn (Res × Heap)) (ks : List String) (msg : String) : Bool :=
  match r with
  | .ok (.value v, H) =>
    match follow H v ks with
    | .obj e => decide (H[e]? = some ⟨.error msg, []⟩)
    | _ => false
  | _ => false

/-- The classification of a reference string in the words of the specification:
    `local` when it starts with `#`, else `web` when it is an absolute web URI,
    else `file`. -/
def classify (env : Env) (val : String) : RefType :=
  if val.data.head? = some '#' then .local
  else if env.isWebUri val then .web
  else .file
/-! ## Concrete documents used below -/

/-- An environment for evaluating examples: no string is a web URI. -/
def exampleEnv : Env := ⟨fun _ => false, fun _ => "0", id⟩

/-- The reference node `{ $ref: s }`. -/
def refNode (s : String) : Json := .obj [("$ref", .str s)]

/-- Options with `failOnMissing: true`. -/
def failOnMissingOptions : Options := ⟨none, true, false, false⟩

/-- The chain `{ a: {$ref:'#/b'}, b: {$ref:'#/c'}, c: {x:1} }`. -/
def chainDoc : Json :=
  .obj [("a", refNode "#/b"), ("b", refNode "#/c"), ("c", .obj [("x", .num 1)])]

/-- The document `{ a: {$ref:'#/x/y'} }`: the intermediate segment `x` is absent. -/
def missingIntermediateDoc : Json := .obj [("a", refNode "#/x/y")]

/-- The document `{ a: {$ref:'#/x'}, b: {$ref:'#/y'} }`: two unresolvable references. -/
def twoMissingDoc : Json := .obj [("a", refNode "#/x"), ("b", refNode "#/y")]

/-- The document `{ a: [ { $ref: '#' } ] }`: a root self-reference inside a sequence. -/
def selfRefDoc : Json := .obj [("a", .arr [refNode "#"])]

/-- The document `{ a: {$ref:'other.json#/x'}, b: [ {$ref:'defs.json'} ] }`: file references only. -/
def fileRefsDoc : Json :=
  .obj [("a", refNode "other.json#/x"), ("b", .arr [refNode "defs.json"])]

/-- The mutual cycle `{ b: {$ref:'#/a'}, a: {$ref:'#/b'} }`. -/
def mutualCycleDoc : Json := .obj [("b", refNode "#/a"), ("a", refNode "#/b")]

/-- The document `{ a: {$ref:'#/b', value: 7}, b: {x:1} }`: a reference node with a
    truthy sibling named `value`. -/
def valueSiblingDoc : Json :=
  .obj [("a", .obj [("$ref", .str "#/b"), ("value", .num 7)]), ("b", .obj [("x", .num 1)])]


/-- Options with `mergeAdditionalProperties: true`. -/
def mergeOptions : Options := ⟨none, false, true, false⟩

/-- Options with `mergeAdditionalProperties: true` and `removeIds: true`. -/
def mergeRemoveIdsOptions : Options := ⟨none, false, true, true⟩

/-- The document `{ a: {$ref:'#/b', extra:5}, b: {x:1, extra:9} }`: a scalar sibling
    over a scalar member of the target. -/
def siblingDoc : Json :=
  .obj [("a", .obj [("$ref", .str "#/b"), ("extra", .num 5)]),
    ("b", .obj [("x", .num 1), ("extra", .num 9)])]

/-- The document `{ a: {$ref:'#/b', p:{y:2}}, b: {p:{x:1}} }`: a mapping sibling over
    a mapping member of the target. -/
def deepMergeDoc : Json :=
  .obj [("a", .obj [("$ref", .str "#/b"), ("p", .obj [("y", .num 2)])]),
    ("b", .obj [("p", .obj [("x", .num 1)])])]

/-- The document `{ a: {$ref:'#/b', $id:'s'}, b: {$id:'t', x:1} }`: the reference
    node and its target both have an `$id`. -/
def idDoc : Json :=
  .obj [("a", .obj [("$ref", .str "#/b"), ("$id", .str "s")]),
    ("b", .obj [("$id", .str "t"), ("x", .num 1)])]

/-- The document `{ a: {$ref:'#/b', extra:7}, b: {x:1} }`: a reference node with a
    sibling. -/
def extraDoc : Json :=
  .obj [("a", .obj [("$ref", .str "#/b"), ("extra", .num 7)]), ("b", .obj [("x", .num 1)])]

/-- The document `{ a: {$ref:'#/b'}, b: {x:1} }`. -/
def simpleRefDoc : Json := .obj [("a", refNode "#/b"), ("b", .obj [("x", .num 1)])]

/-- The document `{ b: {$ref:'#/c'}, a: {$ref:'#/b/$ref'}, c: {x:1} }`: the target of
    `a` is the string under the key `$ref` of the reference node `b`. -/
def refKeyDoc : Json :=
  .obj [("b", refNode "#/c"), ("a", refNode "#/b/$ref"), ("c", .obj [("x", .num 1)])]

/-- A stand-in for `path.isAbsolute` on POSIX: the path starts with `/`. -/
def exampleIsAbsolute (p : String) : Bool := decide (p.data.head? = some '/')

/-- A stand-in for `path.resolve(a, b)` on POSIX, for an absolute `a` and paths
    with no `.` or `..` segment and no doubled or trailing `/`. -/
def exampleResolve (a b : String) : String := if exampleIsAbsolute b then b else a ++ "/" ++ b

/-- A stand-in for `path.dirname` on POSIX, for the same paths: what comes before
    the last `/`, or `.` when there is none. -/
def exampleDirname (p : String) : String :=
  match p.data.reverse.dropWhile (fun c => c ≠ '/') with
  | [] => "."
  | [_] => "/"
  | _ :: r => String.mk r.reverse

/-- The process runs in `/r`. -/
def exampleSys : Sys := ⟨"/r", exampleIsAbsolute, exampleResolve, exampleDirname⟩

/-- The files of the examples, by absolute path. -/
def exampleFiles (p : String) : Option Json :=
  if p = "/r/sub/a.json" then some (.obj [("c", refNode "b.json")])
  else if p = "/r/sub/b.json" then some (.obj [("v", .num 1)])
  else if p = "/r/b.json" then some (.obj [("v", .num 2)])
  else if p = "/r/A.json" then some (.obj [("b", refNode "B.json")])
  else if p = "/r/B.json" then some (.obj [("c", refNode "A.json")])
  else if p = "/r/C.json" then some (.obj [("b", refNode "D.json")])
  else if p = "/r/D.json" then some (.obj [("c", refNode "C.json"), ("d", refNode "#")])
  else if p = "/r/self.json" then some (.obj [("x", refNode "#")])
  else if p = "/r/f.json" then
    some (.obj [("n", .num 0), ("b", .bool false), ("s", .str ""), ("z", .null),
      ("v", .obj [("k", .num 1)])])
  else none

/-- Options with `baseFolder: '/r'`. -/
def baseFolderOptions : Options := ⟨some "/r", false, false, false⟩

/-- The document `{ a: {$ref:'sub/a.json'}, b: {$ref:'b.json'} }`. -/
def nestedFolderDoc : Json := .obj [("a", refNode "sub/a.json"), ("b", refNode "b.json")]

/-- The document `{ a: {$ref:'A.json'} }`: `A.json` and `B.json` refer to each other. -/
def fileCycleDoc : Json := .obj [("a", refNode "A.json")]

/-- The document `{ a: {$ref:'C.json'} }`: `C.json` and `D.json` refer to each other,
    and `D.json` also holds `{ $ref: '#' }`. -/
def fileCycleStaticDoc : Json := .obj [("a", refNode "C.json")]

/-- The document `{ a: {$ref:'self.json'} }`: `self.json` holds `{ $ref: '#' }`. -/
def externalStaticDoc : Json := .obj [("a", refNode "self.json")]

/-- The document `{ a: {$ref:'self.json#/x'} }`. -/
def externalStaticFragmentDoc : Json := .obj [("a", refNode "self.json#/x")]

/-- The document with a reference to each member of `f.json`. -/
def fragmentsDoc : Json :=
  .obj [("n", refNode "f.json#/n"), ("b", refNode "f.json#/b"), ("s", refNode "f.json#/s"),
    ("z", refNode "f.json#/z"), ("v", refNode "f.json#/v"), ("w", refNode "f.json")]

/-- A document with no reference. -/
def plainDoc : Json :=
  .obj [("x", .num 1), ("$ref", .num 5), ("y", .arr [.null, .str "s", .obj [("$id", .str "i")]])]

/-- The document `{ a: {$ref:'#/'} }`: a reference to the root by the fragment `#/`. -/
def rootSlashDoc : Json := .obj [("a", refNode "#/")]

/-- The document `{ a: {x: {$ref:'#/b'}}, b: {y: {$ref:'#/a'}} }`. -/
def nestedMutualDoc : Json :=
  .obj [("a", .obj [("x", refNode "#/b")]), ("b", .obj [("y", refNode "#/a")])]

/-- The document `{ a: { b: {$ref:'#/a'} } }`: a reference to an ancestor. -/
def ancestorRefDoc : Json := .obj [("a", .obj [("b", refNode "#/a")])]

/-- The document `{ ab: {$ref:'#/a'}, a: {x:1} }`: the key `a` of the target is a
    prefix of the key `ab` of the reference node. -/
def keyPrefixDoc : Json := .obj [("ab", refNode "#/a"), ("a", .obj [("x", .num 1)])]

/-- The document `{ a: {$ref:'#//a', $id:'n', k:1} }`: the fragment `#//a` leads to
    the reference node itself. -/
def selfMergeDoc : Json :=
  .obj [("a", .obj [("$ref", .str "#//a"), ("$id", .str "n"), ("k", .num 1)])]

/-- The document `{ 'a/b': {$ref:'#/a'}, a: {x:1} }`: the key of the reference node
    contains a `/`. -/
def slashKeyDoc : Json := .obj [("a/b", refNode "#/a"), ("a", .obj [("x", .num 1)])]

/-- The document `{ a: {$ref:'#/b', p:['z']}, b: {p:{length:2}} }`: a sequence
    sibling over a member of the target that is a mapping with a numeric `length`. -/
def arrayLikeDoc : Json :=
  .obj [("a", .obj [("$ref", .str "#/b"), ("p", .arr [.str "z"])]),
    ("b", .obj [("p", .obj [("length", .num 2)])])]

/-- The document `{ a: {$ref:'#/b', k:1}, b: {hasOwnProperty:1} }`: the target has a
    member named `hasOwnProperty`. -/
def shadowDoc : Json :=
  .obj [("a", .obj [("$ref", .str "#/b"), ("k", .num 1)]),
    ("b", .obj [("hasOwnProperty", .num 1)])]
/-! ## Lemmas: decimal rendering -/

theorem digitChar_value (k : Nat) (h : k < 10) : (Nat.digitChar k).toNat - 48 = k := by
  interval_cases k <;> rfl

theorem digitsValue_toDigitsCore (fuel : Nat) :
    ∀ (n : Nat) (ds : List Char), n < fuel →
      digitsValue (Nat.toDigitsCore 10 fuel n ds) = n * 10 ^ ds.length + digitsValue ds := by
  induction fuel with
  | zero => intro n ds h; omega
  | succ fuel ih =>
    intro n ds h
    unfold Nat.toDigitsCore
    have hd : (Nat.digitChar (n % 10)).toNat - 48 = n % 10 :=
      digitChar_value _ (Nat.mod_lt _ (by decide))
    by_cases h0 : n / 10 = 0
    · simp only [h0, if_true, digitsValue, hd]
      have : n % 10 = n := by omega
      rw [this]
    · simp only [h0, if_false]
      rw [ih (n / 10) _ (by omega)]
      simp only [digitsValue, hd, List.length_cons, pow_succ]
      have h3 : n = 10 * (n / 10) + n % 10 := (Nat.div_add_mod n 10).symm
      generalize n / 10 = q at *
      generalize n % 10 = r at *
      subst h3
      ring

theorem toString_nat_injective (i j : Nat) (h : toString i = toString j) : i = j := by
  have h1 : Nat.toDigits 10 i = Nat.toDigits 10 j := by
    have : (Nat.toDigits 10 i).asString = (Nat.toDigits 10 j).asString := h
    exact congrArg String.data this
  have h2 := congrArg digitsValue h1
  unfold Nat.toDigits at h2
  rw [digitsValue_toDigitsCore _ _ _ (Nat.lt_succ_self i),
    digitsValue_toDigitsCore _ _ _ (Nat.lt_succ_self j)] at h2
  simpa [digitsValue] using h2

/-! ## Lemmas: documents -/

theorem Json.size_pos (t : Json) : 0 < t.size := by
  cases t <;> simp [Json.size]

theorem sizeFields_mem {k : String} {x : Json} :
    ∀ {kvs : List (String × Json)}, (k, x) ∈ kvs → x.size ≤ sizeFields kvs := by
  intro kvs
  induction kvs with
  | nil => intro h; cases h
  | cons p r ih =>
    intro h
    obtain ⟨k', x'⟩ := p
    rcases List.mem_cons.1 h with h | h
    · cases h; simp [sizeFields]
    · have := ih h
      simp [sizeFields]; omega

theorem sizeFields_indexed (xs : List Json) : ∀ i, sizeFields (indexed xs i) = sizeItems xs := by
  induction xs with
  | nil => intro i; rfl
  | cons x xs ih => intro i; simp [indexed, sizeFields, sizeItems, ih]

theorem Json.size_eq (t : Json) : t.size = 1 + sizeFields t.props := by
  cases t <;> simp [Json.size, Json.props, sizeFields, sizeFields_indexed]

theorem Json.size_member {t : Json} {k : String} {x : Json} (h : (k, x) ∈ t.props) :
    x.size < t.size := by
  have := sizeFields_mem h
  rw [Json.size_eq t]; omega

theorem indexed_keys (xs : List Json) : ∀ i,
    (indexed xs i).map Prod.fst = (List.range' i xs.length).map toString := by
  induction xs with
  | nil => intro i; rfl
  | cons x xs ih => intro i; simp [indexed, ih, List.range']

theorem indexed_keys_nodup (xs : List Json) (i : Nat) : ((indexed xs i).map Prod.fst).Nodup := by
  rw [indexed_keys]
  exact (List.nodup_range' i xs.length).map (fun a b h => toString_nat_injective a b h)

theorem wfFields_indexed (xs : List Json) : ∀ i, wfFields (indexed xs i) = wfItems xs := by
  induction xs with
  | nil => intro i; rfl
  | cons x xs ih => intro i; simp [indexed, wfFields, wfItems, ih]

theorem wfFields_mem {k : String} {x : Json} :
    ∀ {kvs : List (String × Json)}, wfFields kvs = true → (k, x) ∈ kvs → x.wf = true := by
  intro kvs
  induction kvs with
  | nil => intro _ h; cases h
  | cons p r ih =>
    intro hw h
    obtain ⟨k', x'⟩ := p
    simp [wfFields] at hw
    rcases List.mem_cons.1 h with h | h
    · cases h; exact hw.1
    · exact ih hw.2 h

theorem Json.wf_props {t : Json} (h : t.wf = true) :
    (t.props.map Prod.fst).Nodup ∧ wfFields t.props = true := by
  cases t with
  | arr xs => exact ⟨indexed_keys_nodup xs 0, by simpa [Json.props, wfFields_indexed, Json.wf] using h⟩
  | obj kvs => simpa [Json.props, Json.wf] using h
  | _ => simp [Json.props, wfFields]

theorem Json.wf_member {t : Json} {k : String} {x : Json} (h : t.wf = true)
    (hm : (k, x) ∈ t.props) : x.wf = true :=
  wfFields_mem (Json.wf_props h).2 hm

theorem IsNode.member {n t : Json} {k : String} {x : Json} (hm : (k, x) ∈ t.props)
    (h : IsNode n x) : IsNode n t := by
  cases t with
  | arr xs =>
    have : x ∈ xs := by
      have key : ∀ (l : List Json) i, (k, x) ∈ indexed l i → x ∈ l := by
        intro l
        induction l with
        | nil => intro i h; cases h
        | cons y ys ih =>
          intro i h
          simp only [indexed, List.mem_cons] at h
          rcases h with h | h
          · cases h; exact List.mem_cons_self _ _
          · exact List.mem_cons_of_mem _ (ih _ h)
      exact key xs 0 hm
    exact IsNode.item xs x this h
  | obj kvs => exact IsNode.field kvs k x hm h
  | _ => cases hm

/-! ## Lemmas: a heap value that is a document -/

theorem deepEqFields_iff (H : Heap) : ∀ ps kvs,
    deepEqFields H ps kvs = true ↔ List.Forall₂ (Rel H) ps kvs := by
  intro ps
  induction ps with
  | nil =>
    intro kvs
    cases kvs with
    | nil => simp [deepEqFields]
    | cons kv r => simp [deepEqFields]
  | cons p ps ih =>
    intro kvs
    obtain ⟨k, v⟩ := p
    cases kvs with
    | nil => simp [deepEqFields]
    | cons kv r =>
      obtain ⟨k', x⟩ := kv
      simp [deepEqFields, ih, Rel, and_assoc]

theorem deepEqItems_iff (H : Heap) : ∀ ps xs i,
    deepEqItems H ps xs i = true ↔ List.Forall₂ (Rel H) ps (indexed xs i) := by
  intro ps
  induction ps with
  | nil =>
    intro xs i
    cases xs with
    | nil => simp [deepEqItems, indexed]
    | cons x r => simp [deepEqItems, indexed]
  | cons p ps ih =>
    intro xs i
    obtain ⟨k, v⟩ := p
    cases xs with
    | nil => simp [deepEqItems, indexed]
    | cons x r => simp [deepEqItems, indexed, ih, Rel, and_assoc]

theorem deepEq_container {H : Heap} {v : Val} {t : Json} (hc : t.isContainer = true) :
    deepEq H v t = true ↔
      ∃ a o, v = .obj a ∧ H[a]? = some o ∧ o.kind = t.kind ∧ List.Forall₂ (Rel H) o.props t.props := by
  cases t with
  | arr xs =>
    cases v with
    | obj a =>
      cases hH : H[a]? with
      | none => simp [deepEq, hH]
      | some o => simp [deepEq, hH, deepEqItems_iff, Json.kind, Json.props]
    | _ => simp [deepEq]
  | obj kvs =>
    cases v with
    | obj a =>
      cases hH : H[a]? with
      | none => simp [deepEq, hH]
      | some o => simp [deepEq, hH, deepEqFields_iff, Json.kind, Json.props]
    | _ => simp [deepEq]
  | _ => simp [Json.isContainer] at hc

theorem deepEq_scalar {H : Heap} {v : Val} {t : Json} (hc : t.isContainer = false)
    (h : deepEq H v t = true) : isObject v = false ∧ ∀ H', deepEq H' v t = true := by
  cases t <;> cases v <;> simp_all [deepEq, Json.isContainer, isObject]

theorem deepEq_isObject {H : Heap} {v : Val} {t : Json} (h : deepEq H v t = true) :
    isObject v = t.isContainer := by
  cases t <;> cases v <;> simp_all [deepEq, Json.isContainer, isObject]

theorem indexed_snd (xs : List Json) : ∀ i, (indexed xs i).map Prod.snd = xs := by
  induction xs with
  | nil => intro i; rfl
  | cons x xs ih => intro i; simp [indexed, ih]

theorem Json.eq_of_props {t t' : Json} (hc : t.isContainer = true) (hc' : t'.isContainer = true)
    (hk : t.kind = t'.kind) (hp : t.props = t'.props) : t = t' := by
  cases t <;> cases t' <;> simp_all [Json.isContainer, Json.kind, Json.props]
  rename_i xs ys
  have := congrArg (List.map Prod.snd) hp
  simpa [indexed_snd] using this

theorem deepEq_functional : ∀ (n : Nat) (t : Json), t.size ≤ n → ∀ (H : Heap) (v : Val) (t' : Json),
    deepEq H v t = true → deepEq H v t' = true → t = t' := by
  intro n
  induction n with
  | zero => intro t h; have := t.size_pos; omega
  | succ n ih =>
    intro t hsz H v t' h h'
    have ho := deepEq_isObject h
    have ho' := deepEq_isObject h'
    cases hc : t.isContainer with
    | false =>
      clear ih ho ho' hsz
      cases t <;> simp [Json.isContainer] at hc <;> cases v <;> simp [deepEq] at h <;>
        cases t' <;> simp [deepEq] at h' <;> simp_all
    | true =>
      rw [hc] at ho
      rw [ho] at ho'
      obtain ⟨a, o, rfl, hH, hk, hps⟩ := (deepEq_container hc).1 h
      obtain ⟨a', o', ha, hH', hk', hps'⟩ := (deepEq_container ho'.symm).1 h'
      cases ha
      rw [hH] at hH'
      cases hH'
      apply Json.eq_of_props hc ho'.symm (hk.symm.trans hk')
      have key : ∀ (ps : List (String × Val)) (l l' : List (String × Json)),
          (∀ kv ∈ l, kv.2.size ≤ n) → List.Forall₂ (Rel H) ps l → List.Forall₂ (Rel H) ps l' →
          l = l' := by
        intro ps
        induction ps with
        | nil => intro l l' _ h1 h2; cases h1; cases h2; rfl
        | cons p ps ihp =>
          intro l l' hl h1 h2
          cases h1 with
          | cons r1 t1 =>
            cases h2 with
            | cons r2 t2 =>
              rename_i kv l kv2 l2
              have e1 : kv.2 = kv2.2 := ih kv.2 (hl kv (List.mem_cons_self _ _)) H p.2 kv2.2 r1.2 r2.2
              have e2 : kv.1 = kv2.1 := r1.1.symm.trans r2.1
              have e3 : kv = kv2 := Prod.ext e2 e1
              rw [e3, ihp l l2 (fun kv h => hl kv (List.mem_cons_of_mem _ h)) t1 t2]
      apply key o.props _ _ _ hps hps'
      intro kv hkv
      have := Json.size_member (show (kv.1, kv.2) ∈ t.props from hkv)
      omega

/-! ## Lemmas: property lists and the heap -/

theorem assoc_append_of_not_mem {k : String} {v : Val} :
    ∀ (pre suf : List (String × Val)), k ∉ pre.map Prod.fst →
      assoc k (pre ++ (k, v) :: suf) = some v := by
  intro pre
  induction pre with
  | nil => intro suf _; simp [assoc]
  | cons p pre ih =>
    intro suf h
    obtain ⟨k', v'⟩ := p
    simp only [List.map_cons, List.mem_cons, not_or] at h
    have : ¬ k' = k := fun e => h.1 e.symm
    simp [assoc, this, ih suf h.2]

theorem setKey_of_assoc {k : String} {v : Val} :
    ∀ (ps : List (String × Val)), assoc k ps = some v → setKey k v ps = ps := by
  intro ps
  induction ps with
  | nil => intro h; simp [assoc] at h
  | cons p ps ih =>
    intro h
    obtain ⟨k', v'⟩ := p
    by_cases e : k' = k
    · simp [assoc, e] at h
      simp [setKey, e, h]
    · simp [assoc, e] at h
      simp [setKey, e, ih h]

theorem modifyAt_id {H : Heap} {a : Nat} {o : Obj} {g : Obj → Obj} (h : H[a]? = some o)
    (hg : g o = o) : modifyAt H a g = H := by
  unfold modifyAt
  rw [h]
  simp only [hg]
  apply List.ext_getElem?
  intro i
  by_cases e : a = i
  · subst e; simp [List.getElem?_set, h]
    exact (List.getElem?_eq_some.1 h).1
  · simp [List.getElem?_set, e]

theorem setProp_same {H : Heap} {a : Nat} {o : Obj} {k : String} {v : Val} (h : H[a]? = some o)
    (hk : assoc k o.props = some v) : setProp H (.obj a) k v = H := by
  unfold setProp
  exact modifyAt_id h (by simp [setKey_of_assoc _ hk])

/-! ## Lemmas: the walk of a visitor that leaves the document as it is -/

theorem sizeItems_mem {x : Json} : ∀ {xs : List Json}, x ∈ xs → x.size ≤ sizeItems xs := by
  intro xs
  induction xs with
  | nil => intro h; cases h
  | cons y ys ih =>
    intro h
    rcases List.mem_cons.1 h with h | h
    · cases h; simp [sizeItems]
    · have := ih h
      simp [sizeItems]; omega

theorem IsNode.size_le {m t : Json} (h : IsNode m t) : m.size ≤ t.size := by
  induction h with
  | here => exact le_refl _
  | item xs y hy _ ih =>
    have := sizeItems_mem hy
    simp [Json.size]; omega
  | field kvs k y hy _ ih =>
    have := sizeFields_mem hy
    simp [Json.size]; omega

theorem twalkFields_indexed {σ : Type} (f : TreeVisitor σ) (path : List String) (xs : List Json) :
    ∀ i s, twalkFields f path (indexed xs i) s = twalkItems f path xs i s := by
  induction xs with
  | nil => intro i s; rfl
  | cons x xs ih => intro i s; simp [indexed, twalkFields, twalkItems, ih]

theorem twalk_eq {σ : Type} (f : TreeVisitor σ) (path : List String) (t : Json) (s : σ) :
    twalk f path t s =
      if (f path t s).2 = some true then (f path t s).1
      else twalkFields f path t.props (f path t s).1 := by
  cases t <;> simp [twalk, Json.props, twalkFields, twalkFields_indexed]

theorem forall₂_keys {H : Heap} : ∀ {ps : List (String × Val)} {kvs : List (String × Json)},
    List.Forall₂ (Rel H) ps kvs → ps.map Prod.fst = kvs.map Prod.fst := by
  intro ps kvs h
  induction h with
  | nil => rfl
  | cons r _ ih => simp [r.1, ih]

theorem walker_pure {σ : Type} (cb : Visitor σ) (f : TreeVisitor σ) (P : Json → Prop)
    (Inv : σ → Prop)
    (hsim : ∀ path v t s H, P t → Inv s → deepEq H v t = true →
      cb path v s H = .ok ((f path t s).1, H, (f path t s).2.map (fun b => ⟨v, b⟩)))
    (hinv : ∀ path t s, P t → Inv s → Inv (f path t s).1) :
    ∀ (n : Nat) (t : Json), t.size ≤ n → t.wf = true → (∀ m, IsNode m t → P m) →
      ∀ path parents v s H, Inv s → deepEq H v t = true →
        (∀ fr ∈ parents, ∀ m, IsNode m t → deepEq H fr.node_ m = false) →
        (∀ p key, parents.getLast? = some p → path.getLast? = some key →
            setProp H p.node key v = H) →
        walker cb n path parents v s H = .ok (v, twalk f path t s, H) ∧
          Inv (twalk f path t s) := by
  intro n
  induction n with
  | zero => intro t h; have := t.size_pos; omega
  | succ n ih =>
    intro t hsz hwf hP path parents v s H hI hde hpar hkey
    have hcb := hsim path v t s H (hP t .here) hI hde
    have hI1 := hinv path t s (hP t .here) hI
    have hcirc : parents.any (fun fr => decide (fr.node_ = v)) = false := by
      rw [List.any_eq_false]
      intro fr hfr
      have := hpar fr hfr t .here
      intro e
      simp only [decide_eq_true_eq] at e
      rw [e, hde] at this
      cases this
    have hH2 : updateParent H ((f path t s).2.map (fun b => (⟨v, b⟩ : Update))) parents path
        = H := by
      unfold updateParent
      cases (f path t s).2 with
      | none => rfl
      | some b =>
        cases hp : parents.getLast? with
        | none => rfl
        | some p =>
          cases hk : path.getLast? with
          | none => rfl
          | some key => exact hkey p key hp hk
    have hnode : (match (f path t s).2.map (fun b => (⟨v, b⟩ : Update)) with
        | some u => u.value
        | none => v) = v := by
      cases (f path t s).2 <;> rfl
    have hkeep : (match (f path t s).2.map (fun b => (⟨v, b⟩ : Update)) with
        | some u => !u.stopHere
        | none => true) = !decide ((f path t s).2 = some true) := by
      cases (f path t s).2 with
      | none => rfl
      | some b => cases b <;> rfl
    rw [walker]
    simp only [hcb, hH2, hnode, hkeep, hcirc, Bool.and_false, Bool.not_false, Bool.and_true,
      decide_True, ite_self]
    rw [twalk_eq]
    by_cases hstop : (f path t s).2 = some true
    · simp [hstop, hI1]
    · simp only [hstop, decide_False, Bool.not_false, Bool.true_and, if_false]
      by_cases hc : t.isContainer = true
      · obtain ⟨a, o, rfl, hH, hk, hps⟩ := (deepEq_container hc).1 hde
        have hkeys := forall₂_keys hps
        have hnd : (o.props.map Prod.fst).Nodup := by
          rw [hkeys]; exact (Json.wf_props hwf).1
        simp only [isObject, if_true, objectKeys, hH]
        have fold : ∀ (suf : List (String × Val)) (kvs : List (String × Json)) (pre : List (String × Val)),
            o.props = pre ++ suf → List.Forall₂ (Rel H) suf kvs → (∀ kv ∈ kvs, kv ∈ t.props) →
            ∀ s', Inv s' →
            (suf.map Prod.fst).foldlM (fun (acc : σ × Heap) key =>
              ((walker cb n (path ++ [key]) (parents ++ [⟨Val.obj a, Val.obj a⟩])
                (getProp acc.2 (Val.obj a) key) acc.1 acc.2).map Prod.snd : Except Exn (σ × Heap)))
              (s', H) = .ok (twalkFields f path kvs s', H) ∧ Inv (twalkFields f path kvs s') := by
          intro suf
          induction suf with
          | nil =>
            intro kvs pre _ h2 _ s' hs'
            cases h2
            exact ⟨rfl, hs'⟩
          | cons p suf ihs =>
            intro kvs pre h1 h2 h3 s' hs'
            cases h2 with
            | cons r rest =>
              rename_i kv kvs
              obtain ⟨k, c⟩ := p
              obtain ⟨k', x⟩ := kv
              have hk' : k = k' := r.1
              subst hk'
              have hx : deepEq H c x = true := r.2
              have hmem : (k, x) ∈ t.props := h3 _ (List.mem_cons_self _ _)
              have hnotin : k ∉ pre.map Prod.fst := by
                rw [h1, List.map_append, List.nodup_append] at hnd
                intro hin
                exact hnd.2.2 hin (by simp)
              have hassoc : assoc k o.props = some c := by
                rw [h1]; exact assoc_append_of_not_mem pre suf hnotin
              have hget : getProp H (Val.obj a) k = c := by
                simp [getProp, hH, hassoc]
              have hstep := ih x (by have := Json.size_member hmem; omega) (Json.wf_member hwf hmem)
                (fun m hm => hP m (IsNode.member hmem hm)) (path ++ [k])
                (parents ++ [⟨Val.obj a, Val.obj a⟩]) c s' H hs' hx
                (by
                  intro fr hfr m hm
                  rcases List.mem_append.1 hfr with hfr | hfr
                  · exact hpar fr hfr m (IsNode.member hmem hm)
                  · simp only [List.mem_singleton] at hfr
                    subst hfr
                    cases hd : deepEq H (Val.obj a) m with
                    | false => rfl
                    | true =>
                      have e := deepEq_functional t.size t (le_refl _) H _ m hde hd
                      have hlt : m.size < t.size := by
                        have h1 : m.size ≤ x.size := hm.size_le
                        have := Json.size_member hmem
                        omega
                      rw [e] at hlt
                      omega)
                (by
                  intro p key hp hkey'
                  simp at hp hkey'
                  subst hp; subst hkey'
                  exact setProp_same hH hassoc)
              simp only [List.map_cons, List.foldlM_cons, hget, hstep.1, Except.map, bind,
                Except.bind, twalkFields]
              exact ihs kvs (pre ++ [(k, c)]) (by simp [h1]) rest
                (fun kv h => h3 kv (List.mem_cons_of_mem _ h)) _ hstep.2
        have := fold o.props t.props [] rfl hps (fun _ h => h) _ hI1
        rw [this.1]
        exact ⟨rfl, this.2⟩
      · have hc' : t.isContainer = false := by simpa using hc
        have := deepEq_scalar hc' hde
        have hp : t.props = [] := by cases t <;> simp_all [Json.isContainer, Json.props]
        simp [this.1, hp, twalkFields, hI1]

/-! ## Lemmas: cloning -/

theorem getElem?_append_some {H ext : Heap} {a : Nat} {o : Obj} (h : H[a]? = some o) :
    (H ++ ext)[a]? = some o := by
  have hlt : a < H.length := (List.getElem?_eq_some.1 h).1
  rw [List.getElem?_append_left hlt]; exact h

theorem deepEq_mono : ∀ (n : Nat) (t : Json), t.size ≤ n → ∀ (H ext : Heap) (v : Val),
    deepEq H v t = true → deepEq (H ++ ext) v t = true := by
  intro n
  induction n with
  | zero => intro t h; have := t.size_pos; omega
  | succ n ih =>
    intro t hsz H ext v h
    cases hc : t.isContainer with
    | false => exact (deepEq_scalar hc h).2 _
    | true =>
      obtain ⟨a, o, rfl, hH, hk, hps⟩ := (deepEq_container hc).1 h
      refine (deepEq_container hc).2 ⟨a, o, rfl, getElem?_append_some hH, hk, ?_⟩
      have key : ∀ (ps : List (String × Val)) (l : List (String × Json)),
          (∀ kv ∈ l, kv.2.size ≤ n) → List.Forall₂ (Rel H) ps l →
          List.Forall₂ (Rel (H ++ ext)) ps l := by
        intro ps l hl h1
        induction h1 with
        | nil => exact .nil
        | cons r _ ihl =>
          exact .cons ⟨r.1, ih _ (hl _ (List.mem_cons_self _ _)) H ext _ r.2⟩
            (ihl (fun kv h => hl kv (List.mem_cons_of_mem _ h)))
      apply key _ _ _ hps
      intro kv hkv
      have := Json.size_member (show (kv.1, kv.2) ∈ t.props from hkv)
      omega

theorem rel_mono {H ext : Heap} {ps : List (String × Val)} {l : List (String × Json)}
    (h : List.Forall₂ (Rel H) ps l) : List.Forall₂ (Rel (H ++ ext)) ps l := by
  induction h with
  | nil => exact .nil
  | cons r _ ih => exact .cons ⟨r.1, deepEq_mono _ _ (le_refl _) H ext _ r.2⟩ ih

theorem alloc_spec : ∀ (n : Nat) (t : Json), t.size ≤ n → ∀ (H : Heap),
    (∃ ext, (alloc t H).2 = H ++ ext) ∧ deepEq (alloc t H).2 (alloc t H).1 t = true := by
  intro n
  induction n with
  | zero => intro t h; have := t.size_pos; omega
  | succ n ih =>
    intro t hsz H
    have fields : ∀ (kvs : List (String × Json)), (∀ kv ∈ kvs, kv.2.size ≤ n) → ∀ H,
        (∃ ext, (allocFields kvs H).2 = H ++ ext) ∧
          List.Forall₂ (Rel (allocFields kvs H).2) (allocFields kvs H).1 kvs := by
      intro kvs
      induction kvs with
      | nil => intro _ H; exact ⟨⟨[], by simp [allocFields]⟩, by simp [allocFields]⟩
      | cons kv kvs ihk =>
        intro hl H
        obtain ⟨k, x⟩ := kv
        obtain ⟨⟨e1, h1⟩, d1⟩ := ih x (hl (k, x) (List.mem_cons_self _ _)) H
        obtain ⟨⟨e2, h2⟩, d2⟩ := ihk (fun kv h => hl kv (List.mem_cons_of_mem _ h)) (alloc x H).2
        refine ⟨⟨e1 ++ e2, by simp only [allocFields, h2]; rw [h1, List.append_assoc]⟩, ?_⟩
        simp only [allocFields]
        refine .cons ⟨rfl, ?_⟩ d2
        rw [h2]
        exact deepEq_mono _ _ (le_refl _) _ _ _ d1
    have items : ∀ (xs : List Json), (∀ x ∈ xs, x.size ≤ n) → ∀ i H,
        (∃ ext, (allocItems xs i H).2 = H ++ ext) ∧
          List.Forall₂ (Rel (allocItems xs i H).2) (allocItems xs i H).1 (indexed xs i) := by
      intro xs
      induction xs with
      | nil => intro _ i H; exact ⟨⟨[], by simp [allocItems]⟩, by simp [allocItems, indexed]⟩
      | cons x xs ihk =>
        intro hl i H
        obtain ⟨⟨e1, h1⟩, d1⟩ := ih x (hl x (List.mem_cons_self _ _)) H
        obtain ⟨⟨e2, h2⟩, d2⟩ := ihk (fun y h => hl y (List.mem_cons_of_mem _ h)) (i + 1)
          (alloc x H).2
        refine ⟨⟨e1 ++ e2, by simp only [allocItems, h2]; rw [h1, List.append_assoc]⟩, ?_⟩
        simp only [allocItems, indexed]
        refine .cons ⟨rfl, ?_⟩ d2
        rw [h2]
        exact deepEq_mono _ _ (le_refl _) _ _ _ d1
    cases t with
    | arr xs =>
      obtain ⟨⟨e, he⟩, d⟩ := items xs (fun x hx => by
        have := sizeItems_mem hx
        simp [Json.size] at hsz; omega) 0 H
      refine ⟨⟨e ++ [{ kind := .array, props := (allocItems xs 0 H).1 }], by simp [alloc, he]⟩, ?_⟩
      refine (deepEq_container (show (Json.arr xs).isContainer = true from rfl)).2
        ⟨_, { kind := .array, props := (allocItems xs 0 H).1 }, rfl, ?_, rfl, ?_⟩
      · simp [alloc]
      · simp only [alloc, Json.props]; exact rel_mono d
    | obj kvs =>
      obtain ⟨⟨e, he⟩, d⟩ := fields kvs (fun kv hkv => by
        have := sizeFields_mem (show (kv.1, kv.2) ∈ kvs from hkv)
        simp [Json.size] at hsz; omega) H
      refine ⟨⟨e ++ [{ kind := .plain, props := (allocFields kvs H).1 }], by simp [alloc, he]⟩, ?_⟩
      refine (deepEq_container (show (Json.obj kvs).isContainer = true from rfl)).2
        ⟨_, { kind := .plain, props := (allocFields kvs H).1 }, rfl, ?_, rfl, ?_⟩
      · simp [alloc]
      · simp only [alloc, Json.props]; exact rel_mono d
    | _ => exact ⟨⟨[], by simp [alloc]⟩, by simp [alloc, deepEq]⟩

theorem deepEq_alloc (t : Json) : deepEq (alloc t []).2 (alloc t []).1 t = true :=
  (alloc_spec _ t (le_refl _) []).2

/-! ## Lemmas: the classifier on a heap value that is a document -/

theorem lookup_rel {H : Heap} : ∀ {ps : List (String × Val)} {kvs : List (String × Json)},
    List.Forall₂ (Rel H) ps kvs → ∀ k,
      (∃ x c, lookupJ k kvs = some x ∧ assoc k ps = some c ∧ deepEq H c x = true) ∨
        (lookupJ k kvs = none ∧ assoc k ps = none) := by
  intro ps kvs h
  induction h with
  | nil => intro k; exact .inr ⟨rfl, rfl⟩
  | @cons p kv ps kvs r _ ih =>
    intro k
    obtain ⟨k1, c⟩ := p
    obtain ⟨k2, x⟩ := kv
    have e : k1 = k2 := r.1
    subst e
    by_cases hk : k1 = k
    · exact .inl ⟨x, c, by simp [lookupJ, hk], by simp [assoc, hk], r.2⟩
    · simpa [lookupJ, assoc, hk] using ih k

theorem getProp_cases {H : Heap} {v : Val} {t : Json} (h : deepEq H v t = true) (k : String) :
    (∃ x, t.member k = some x ∧ deepEq H (getProp H v k) x = true) ∨
      (t.member k = none ∧ getProp H v k = .undefined) := by
  cases hc : t.isContainer with
  | false =>
    have := (deepEq_scalar hc h).1
    right
    constructor
    · cases t <;> simp_all [Json.isContainer, Json.member, Json.props, lookupJ]
    · cases v <;> simp_all [isObject, getProp]
  | true =>
    obtain ⟨a, o, rfl, hH, _, hps⟩ := (deepEq_container hc).1 h
    rcases lookup_rel hps k with ⟨x, c, h1, h2, h3⟩ | ⟨h1, h2⟩
    · exact .inl ⟨x, h1, by simpa [getProp, hH, h2] using h3⟩
    · exact .inr ⟨h1, by simp [getProp, hH, h2]⟩

theorem truthy_deepEq {H : Heap} {v : Val} {t : Json} (h : deepEq H v t = true) :
    truthy v = t.truthy := by
  cases t <;> cases v <;> simp_all [deepEq, truthy, Json.truthy]

theorem strOf_deepEq {H : Heap} {v : Val} {t : Json} (h : deepEq H v t = true) :
    strOf v = t.asStr := by
  cases t <;> cases v <;> simp [deepEq] at h <;> simp [strOf, Json.asStr, h]

theorem strOf_getProp {H : Heap} {v : Val} {t : Json} (h : deepEq H v t = true) (k : String) :
    strOf (getProp H v k) = t.strMember k := by
  rcases getProp_cases h k with ⟨x, h1, h2⟩ | ⟨h1, h2⟩
  · rw [strOf_deepEq h2, Json.strMember, h1]
  · rw [h2, Json.strMember, h1]; rfl

theorem truthy_undefined : truthy Val.undefined = false := rfl

theorem truthy_null : truthy Val.null = false := rfl

theorem getRefValue_deepEq {H : Heap} {v : Val} {t : Json} (h : deepEq H v t = true) :
    getRefValue H v = t.refValue := by
  have hv := truthy_deepEq h
  cases ht : t.truthy with
  | false => simp only [getRefValue, Json.refValue, hv, ht, truthy_null]; simp [truthy_null]
  | true =>
    rcases getProp_cases h "value" with ⟨w, h1, h2⟩ | ⟨h1, h2⟩
    · have hw' := truthy_deepEq h2
      cases hw : w.truthy with
      | false =>
        simp only [getRefValue, Json.refValue, hv, ht, h1, hw', hw, strOf_getProp h]
        simp [ht, hv, strOf_getProp h]
      | true =>
        simp only [getRefValue, Json.refValue, hv, ht, h1, hw', hw, strOf_getProp h2]
        simp [hw, hw', strOf_getProp h2]
    · simp only [getRefValue, Json.refValue, hv, ht, h1, h2, truthy_undefined, strOf_getProp h]
      simp [ht, hv, strOf_getProp h]

theorem getRefType_deepEq (env : Env) {H : Heap} {v : Val} {t : Json}
    (h : deepEq H v t = true) : getRefType env H v = t.refType env := by
  unfold getRefType Json.refType
  rw [getRefValue_deepEq h]

theorem deepEq_ne_undefined {H : Heap} {v : Val} {t : Json} (h : deepEq H v t = true) :
    v ≠ .undefined := by
  intro e; subst e; cases t <;> simp [deepEq] at h

theorem collectLocal_sim (env : Env) (path : List String) (v : Val) (t : Json)
    (acc : List Local) (H : Heap) (h : deepEq H v t = true) :
    collectLocal env path v acc H =
      .ok ((collectLocalTree env path t acc).1, H,
        (collectLocalTree env path t acc).2.map (fun b => ⟨v, b⟩)) := by
  have hs := strOf_getProp h "$ref"
  have hrv := getRefValue_deepEq h
  have hrt := getRefType_deepEq env h
  have main : (match strOf (getProp H v "$ref") with
      | some _ =>
        if getRefType env H v = some .local then
          match getRefValue H v with
          | some value => Except.ok (acc ++ [⟨joinPath path, value⟩], H, none)
          | none => .ok (acc, H, none)
        else .ok (acc, H, none)
      | none => .ok (acc, H, none)) =
      (.ok ((collectLocalTree env path t acc).1, H,
        (collectLocalTree env path t acc).2.map (fun b => ⟨v, b⟩)) :
        Except Exn (List Local × Heap × Option Update)) := by
    rw [hs, hrv, hrt]
    unfold collectLocalTree Json.hasRef
    cases t.strMember "$ref" with
    | none => simp
    | some s =>
      by_cases hl : t.refType env = some RefType.local
      · simp only [hl, Option.isSome_some, decide_True, Bool.and_self, if_true]
        cases t.refValue <;> rfl
      · simp [hl]
  cases v with
  | undefined => exact absurd rfl (deepEq_ne_undefined h)
  | null =>
    have : t = .null := by cases t <;> simp_all [deepEq]
    subst this
    simp [collectLocal, collectLocalTree, Json.hasRef, Json.strMember, Json.member, Json.props,
      lookupJ]
  | _ => exact main

/-! ## Lemmas: what `checkLocalCircular` collects -/

theorem lookupJ_of_mem {k : String} {x : Json} : ∀ {kvs : List (String × Json)},
    (kvs.map Prod.fst).Nodup → (k, x) ∈ kvs → lookupJ k kvs = some x := by
  intro kvs
  induction kvs with
  | nil => intro _ h; cases h
  | cons p r ih =>
    intro hnd h
    obtain ⟨k', x'⟩ := p
    simp only [List.map_cons, List.nodup_cons] at hnd
    rcases List.mem_cons.1 h with h | h
    · cases h; simp [lookupJ]
    · have : k' ≠ k := by
        intro e; subst e
        exact hnd.1 (List.mem_map_of_mem Prod.fst h)
      simp [lookupJ, this, ih hnd.2 h]

theorem mem_of_lookupJ {k : String} {x : Json} : ∀ {kvs : List (String × Json)},
    lookupJ k kvs = some x → (k, x) ∈ kvs := by
  intro kvs
  induction kvs with
  | nil => intro h; cases h
  | cons p r ih =>
    intro h
    obtain ⟨k', x'⟩ := p
    by_cases e : k' = k
    · simp [lookupJ, e] at h; subst e; subst h; exact List.mem_cons_self _ _
    · simp [lookupJ, e] at h; exact List.mem_cons_of_mem _ (ih h)

theorem twalk_collect (env : Env) : ∀ (n : Nat) (t : Json), t.size ≤ n → t.wf = true →
    ∀ (path : List String) (acc : List Local),
      ∃ ext, twalk (collectLocalTree env) path t acc = acc ++ ext ∧
        ∀ rel m val, t.nodeAt rel = some m → m.hasRef = true →
          m.refType env = some .local → m.refValue = some val →
          (⟨joinPath (path ++ rel), val⟩ : Local) ∈ ext := by
  intro n
  induction n with
  | zero => intro t h; have := t.size_pos; omega
  | succ n ih =>
    intro t hsz hwf path acc
    have hnd := (Json.wf_props hwf).1
    have hstop : (collectLocalTree env path t acc).2 = none := by
      unfold collectLocalTree; split
      · split <;> rfl
      · rfl
    obtain ⟨e0, he0, hm0⟩ : ∃ e0, (collectLocalTree env path t acc).1 = acc ++ e0 ∧
        ∀ val, t.hasRef = true → t.refType env = some .local → t.refValue = some val →
          (⟨joinPath path, val⟩ : Local) ∈ e0 := by
      unfold collectLocalTree
      by_cases h1 : t.hasRef = true ∧ t.refType env = some .local
      · cases hv : t.refValue with
        | none => exact ⟨[], by simp [h1.1, h1.2, hv], by intro val _ _ h; cases h⟩
        | some val =>
          exact ⟨[⟨joinPath path, val⟩], by simp [h1.1, h1.2, hv],
            by intro val' _ _ h; cases h; simp⟩
      · refine ⟨[], ?_, ?_⟩
        · have : (t.hasRef && decide (t.refType env = some RefType.local)) = false := by
            cases hh : t.hasRef <;> simp_all
          simp [this]
        · intro val a b _; exact absurd ⟨a, b⟩ h1
    have fields : ∀ (kvs : List (String × Json)), (∀ kv ∈ kvs, kv ∈ t.props) →
        ∀ acc', ∃ ext, twalkFields (collectLocalTree env) path kvs acc' = acc' ++ ext ∧
          ∀ k x, (k, x) ∈ kvs → ∀ rel m val, x.nodeAt rel = some m → m.hasRef = true →
            m.refType env = some .local → m.refValue = some val →
            (⟨joinPath (path ++ k :: rel), val⟩ : Local) ∈ ext := by
      intro kvs
      induction kvs with
      | nil => intro _ acc'; exact ⟨[], by simp [twalkFields], by intro k x h; cases h⟩
      | cons kv kvs ihk =>
        intro hsub acc'
        obtain ⟨k, x⟩ := kv
        have hmem : (k, x) ∈ t.props := hsub _ (List.mem_cons_self _ _)
        obtain ⟨e1, h1, m1⟩ := ih x (by have := Json.size_member hmem; omega)
          (Json.wf_member hwf hmem) (path ++ [k]) acc'
        obtain ⟨e2, h2, m2⟩ := ihk (fun kv h => hsub kv (List.mem_cons_of_mem _ h)) (acc' ++ e1)
        refine ⟨e1 ++ e2, by simp [twalkFields, h1, h2], ?_⟩
        intro k' x' hin rel m val hat hr ht hv
        rcases List.mem_cons.1 hin with hin | hin
        · cases hin
          have := m1 rel m val hat hr ht hv
          simp only [List.append_assoc, List.singleton_append] at this
          exact List.mem_append_left _ this
        · exact List.mem_append_right _ (m2 k' x' hin rel m val hat hr ht hv)
    obtain ⟨e1, h1, m1⟩ := fields t.props (fun _ h => h) (acc ++ e0)
    refine ⟨e0 ++ e1, ?_, ?_⟩
    · rw [twalk_eq, hstop, he0]; simp [h1]
    · intro rel m val hat hr ht hv
      cases rel with
      | nil =>
        simp only [Json.nodeAt, Option.some.injEq] at hat
        subst hat
        simpa using Or.inl (hm0 val hr ht hv)
      | cons k rel =>
        simp only [Json.nodeAt] at hat
        cases hmk : t.member k with
        | none => simp [hmk] at hat
        | some x =>
          simp only [hmk] at hat
          exact List.mem_append_right _ (m1 k x (mem_of_lookupJ hmk) rel m val hat hr ht hv)

theorem nodeAt_of_isNode {m t : Json} (h : IsNode m t) (hwf : t.wf = true) :
    ∃ rel, t.nodeAt rel = some m := by
  induction h with
  | here => exact ⟨[], rfl⟩
  | item xs x hx _ ih =>
    have hmem : ∃ k, (k, x) ∈ (Json.arr xs).props := by
      have key : ∀ (l : List Json) i, x ∈ l → ∃ k, (k, x) ∈ indexed l i := by
        intro l
        induction l with
        | nil => intro i h; cases h
        | cons y ys ihl =>
          intro i h
          rcases List.mem_cons.1 h with h | h
          · subst h; exact ⟨toString i, by simp [indexed]⟩
          · obtain ⟨k, hk⟩ := ihl (i + 1) h
            exact ⟨k, by simp [indexed, hk]⟩
      exact key xs 0 hx
    obtain ⟨k, hk⟩ := hmem
    obtain ⟨rel, hrel⟩ := ih (Json.wf_member hwf hk)
    exact ⟨k :: rel, by simp [Json.nodeAt, Json.member, lookupJ_of_mem (Json.wf_props hwf).1 hk, hrel]⟩
  | field kvs k x hx _ ih =>
    have hk : (k, x) ∈ (Json.obj kvs).props := hx
    obtain ⟨rel, hrel⟩ := ih (Json.wf_member hwf hk)
    exact ⟨k :: rel, by simp [Json.nodeAt, Json.member, lookupJ_of_mem (Json.wf_props hwf).1 hk, hrel]⟩

theorem walker_collectLocal (env : Env) (t : Json) (hwf : t.wf = true) (n : Nat)
    (hn : t.size ≤ n) (H : Heap) (v : Val) (h : deepEq H v t = true) :
    walker (collectLocal env) n [] [] v [] H = .ok (v, localsOf env t, H) := by
  have := walker_pure (collectLocal env) (collectLocalTree env) (fun _ => True) (fun _ => True)
    (fun path v t s H _ _ hd => collectLocal_sim env path v t s H hd)
    (fun _ _ _ _ _ => trivial) n t hn hwf (fun _ _ => trivial) [] [] v [] H trivial h
    (by intro fr hfr; cases hfr) (by intro p key hp; cases hp)
  exact this.1

/-! ## Lemmas: references that no loader resolves -/

theorem IsNode.inv {m t : Json} (h : IsNode m t) :
    m = t ∨ ∃ k x, (k, x) ∈ t.props ∧ IsNode m x := by
  cases h with
  | here => exact .inl rfl
  | item xs x hx hm =>
    right
    have key : ∀ (l : List Json) i, x ∈ l → ∃ k, (k, x) ∈ indexed l i := by
      intro l
      induction l with
      | nil => intro i h; cases h
      | cons y ys ihl =>
        intro i h
        rcases List.mem_cons.1 h with h | h
        · subst h; exact ⟨toString i, by simp [indexed]⟩
        · obtain ⟨k, hk⟩ := ihl (i + 1) h
          exact ⟨k, by simp [indexed, hk]⟩
    obtain ⟨k, hk⟩ := key xs 0 hx
    exact ⟨k, x, hk, hm⟩
  | field kvs k x hx hm => exact .inr ⟨k, x, hx, hm⟩

theorem allFields_indexed (p : Json → Bool) (xs : List Json) :
    ∀ i, allFields p (indexed xs i) = allItems p xs := by
  induction xs with
  | nil => intro i; rfl
  | cons x xs ih => intro i; simp [indexed, allFields, allItems, ih]

theorem Json.all_eq (p : Json → Bool) (t : Json) : t.all p = (p t && allFields p t.props) := by
  cases t <;> simp [Json.all, Json.props, allFields, allFields_indexed]

theorem allFields_mem {p : Json → Bool} {k : String} {x : Json} :
    ∀ {kvs : List (String × Json)}, allFields p kvs = true → (k, x) ∈ kvs → x.all p = true := by
  intro kvs
  induction kvs with
  | nil => intro _ h; cases h
  | cons q r ih =>
    intro hw h
    obtain ⟨k', x'⟩ := q
    simp [allFields] at hw
    rcases List.mem_cons.1 h with h | h
    · cases h; exact hw.1
    · exact ih hw.2 h

theorem Json.all_isNode {p : Json → Bool} : ∀ (n : Nat) (t : Json), t.size ≤ n →
    t.all p = true → ∀ m, IsNode m t → p m = true := by
  intro n
  induction n with
  | zero => intro t h; have := t.size_pos; omega
  | succ n ih =>
    intro t hsz hall m hm
    rw [Json.all_eq] at hall
    simp only [Bool.and_eq_true] at hall
    rcases hm.inv with rfl | ⟨k, x, hx, hmx⟩
    · exact hall.1
    · exact ih x (by have := Json.size_member hx; omega) (allFields_mem hall.2 hx) m hmx

theorem twalk_id {σ : Type} (f : TreeVisitor σ) : ∀ (n : Nat) (t : Json), t.size ≤ n →
    (∀ m, IsNode m t → ∀ path s, f path m s = (s, none)) →
    ∀ path s, twalk f path t s = s := by
  intro n
  induction n with
  | zero => intro t h; have := t.size_pos; omega
  | succ n ih =>
    intro t hsz hf path s
    rw [twalk_eq, hf t .here path s]
    simp only [if_false, reduceCtorEq]
    have fields : ∀ (kvs : List (String × Json)), (∀ kv ∈ kvs, kv ∈ t.props) →
        ∀ s', twalkFields f path kvs s' = s' := by
      intro kvs
      induction kvs with
      | nil => intro _ s'; rfl
      | cons kv kvs ihk =>
        intro hsub s'
        obtain ⟨k, x⟩ := kv
        have hmem : (k, x) ∈ t.props := hsub _ (List.mem_cons_self _ _)
        simp only [twalkFields]
        rw [ih x (by have := Json.size_member hmem; omega)
          (fun m hm => hf m (IsNode.member hmem hm))]
        exact ihk (fun kv h => hsub kv (List.mem_cons_of_mem _ h)) s'
    exact fields t.props (fun _ h => h) s

theorem localsOf_external (env : Env) (t : Json)
    (h : ∀ m, IsNode m t → m.externalOrPlain env = true) : localsOf env t = [] := by
  unfold localsOf
  apply twalk_id _ _ t (le_refl _)
  intro m hm path s
  have := h m hm
  unfold collectLocalTree
  have hno : (m.hasRef && decide (m.refType env = some RefType.local)) = false := by
    unfold Json.externalOrPlain at this
    cases hh : m.hasRef with
    | false => rfl
    | true =>
      simp only [hh, Bool.not_true, Bool.false_or, Bool.or_eq_true, decide_eq_true_eq] at this
      rcases this with e | e <;> simp [e]
  simp [hno]

theorem refValue_of_refType {env : Env} {t : Json} {rt : RefType} (h : t.refType env = some rt) :
    ∃ val, t.refValue = some val ∧
      (rt = .local ↔ val.data.head? = some '#') := by
  unfold Json.refType at h
  cases hv : t.refValue with
  | none => simp [hv] at h
  | some val =>
    refine ⟨val, rfl, ?_⟩
    simp only [hv] at h
    by_cases h1 : val.data.head? = some '#'
    · simp [h1] at h; simp [h1, h]
    · simp only [h1, if_false] at h
      by_cases h2 : env.isWebUri val = true
      · simp [h2] at h; simp [h1, ← h]
      · simp [h2] at h; simp [h1, ← h]

theorem derefVisit_missing_sim (env : Env) (loaders : Loaders)
    (recur : Val → Options → State → Heap → Except Exn (Res × World)) (fuel : Nat)
    (schema : Val) (hfile : loaders .file = none) (hweb : loaders .web = none)
    (path : List String) (v : Val) (t : Json) (s : State × Options) (H : Heap)
    (hP : t.externalOrPlain env = true) (hI : s.1.history = []) (h : deepEq H v t = true) :
    derefVisit env loaders recur fuel schema path v s H =
      .ok ((missingVisitTree env path t s).1, H,
        (missingVisitTree env path t s).2.map (fun b => ⟨v, b⟩)) := by
  have hs := strOf_getProp h "$ref"
  have hrv := getRefValue_deepEq h
  have hrt := getRefType_deepEq env h
  cases hh : t.hasRef with
  | false =>
    have hsn : strOf (getProp H v "$ref") = none := by
      rw [hs]; unfold Json.hasRef at hh; cases hm : t.strMember "$ref" <;> simp_all
    cases v with
    | undefined => exact absurd rfl (deepEq_ne_undefined h)
    | _ => simp [derefVisit, missingVisitTree, hh, hsn]
  | true =>
    obtain ⟨r, hr⟩ : ∃ r, strOf (getProp H v "$ref") = some r := by
      rw [hs]; unfold Json.hasRef at hh; exact Option.isSome_iff_exists.1 hh
    have hvne : v ≠ .null := by
      intro e; subst e; simp [getProp, strOf] at hr
    have hvne2 := deepEq_ne_undefined h
    unfold Json.externalOrPlain at hP
    simp only [hh, Bool.not_true, Bool.false_or, Bool.or_eq_true, decide_eq_true_eq] at hP
    obtain ⟨rt, hrt', hcase⟩ : ∃ rt, t.refType env = some rt ∧ (rt = .file ∨ rt = .web) := by
      rcases hP with e | e
      · exact ⟨_, e, .inl rfl⟩
      · exact ⟨_, e, .inr rfl⟩
    obtain ⟨val, hval, hloc⟩ := refValue_of_refType hrt'
    have hnl : rt ≠ .local := by rcases hcase with e | e <;> simp [e]
    have hhash : val ≠ "#" := by
      intro e; subst e; exact hnl (hloc.2 rfl)
    have hload : loaders rt = none := by rcases hcase with e | e <;> simp [e, hfile, hweb]
    have step : (match strOf (getProp H v "$ref") with
        | some _ =>
          let refType := getRefType env H v
          let refVal := getRefValue H v
          match addToHistory env s.1 refType refVal with
          | .error e => .error e
          | .ok (false, st1) =>
            let refs := st1.circularRefs ++ [refVal]
            .ok (({ st1 with circular := true, circularRefs := refs,
                             error := some ("circular references found: " ++ showRefs refs) }, s.2),
                 H, some ⟨v, true⟩)
          | .ok (true, st1) =>
            match setCurrent st1 refType refVal with
            | .error e => .error e
            | .ok st2 =>
              match getRefSchema loaders recur refVal refType schema s.2 st2 H with
              | .error e => .error e
              | .ok (newValue, o3, st3, H3) =>
                let st4 := { st3 with history := st3.history.dropLast }
                if newValue = .undefined then
                  let st5 := if refVal ∈ st4.missing then st4
                    else { st4 with missing := st4.missing ++ [refVal] }
                  let st6 := if o3.failOnMissing then
                      { st5 with error := some ("Missing $ref: " ++ showRef refVal) }
                    else st5
                  .ok ((st6, o3), H3, some ⟨v, o3.failOnMissing⟩)
                else if o3.removeIds && hasOwnThrows H3 newValue then .error .typeError
                else
                  let H4 := if o3.removeIds && hasOwn H3 newValue "$id" then
                      delProp H3 newValue "$id"
                    else H3
                  let st5 := { st4 with missing := st4.missing.erase refVal }
                  if o3.mergeAdditionalProperties then
                    match merge fuel (delProp H4 v "$ref") [newValue, v] with
                    | .error e => .error e
                    | .ok (merged, H5) => .ok ((st5, o3), H5, some ⟨merged, false⟩)
                  else .ok ((st5, o3), H4, some ⟨newValue, false⟩)
        | none => .ok (s, H, none)) =
        (.ok ((missingVisitTree env path t s).1, H,
          (missingVisitTree env path t s).2.map (fun b => ⟨v, b⟩)) :
          Except Exn ((State × Options) × Heap × Option Update)) := by
      simp only [hr, hrt, hrv, hrt', hval]
      rcases hcase with e | e
      · subst e
        by_cases hd : getRefFilePath val = ""
        · simp [addToHistory, setCurrent, getRefSchema, hload, hd, hI, missingVisitTree, hh,
            missingStateTree, hrt', hval]
        · simp [addToHistory, setCurrent, getRefSchema, hload, hd, hI, missingVisitTree, hh,
            missingStateTree, hrt', hval]
      · subst e
        have hne : s.1.current ++ (":" ++ val) ≠ "" := by
          intro e
          have := congrArg String.data e
          simp [String.data_append] at this
        simp [addToHistory, setCurrent, getRefSchema, hload, hI, missingVisitTree, hh,
          missingStateTree, hrt', hval, hhash, hne, showRef]
    cases v with
    | undefined => exact absurd rfl hvne2
    | null => exact absurd rfl hvne
    | _ => exact step

theorem missingStateTree_history (env : Env) (t : Json) (s : State × Options) :
    (missingStateTree env t s).history = [] := by
  unfold missingStateTree
  simp only []
  split_ifs <;> rfl

theorem missingStateTree_error (env : Env) (t : Json) (s : State × Options) :
    (missingStateTree env t s).error =
      if s.2.failOnMissing then some ("Missing $ref: " ++ showRef t.refValue) else s.1.error := by
  unfold missingStateTree
  simp only []
  split_ifs <;> rfl

theorem twalk_missing_error (env : Env) : ∀ (n : Nat) (t : Json), t.size ≤ n →
    ∀ (path : List String) (s : State × Options), s.2.failOnMissing = true →
      (twalk (missingVisitTree env) path t s).2 = s.2 ∧
      ((s.1.error.isSome = true ∨ ∃ m, IsNode m t ∧ m.hasRef = true) →
        (twalk (missingVisitTree env) path t s).1.error.isSome = true) := by
  intro n
  induction n with
  | zero => intro t h; have := t.size_pos; omega
  | succ n ih =>
    intro t hsz path s hf
    rw [twalk_eq]
    cases hh : t.hasRef with
    | true =>
      simp [missingVisitTree, hh, hf, missingStateTree_error]
    | false =>
      simp only [missingVisitTree, hh, if_false, reduceCtorEq, Bool.false_eq_true]
      have fields : ∀ (kvs : List (String × Json)), (∀ kv ∈ kvs, kv ∈ t.props) →
          ∀ (s' : State × Options), s'.2.failOnMissing = true →
          (twalkFields (missingVisitTree env) path kvs s').2 = s'.2 ∧
          ((s'.1.error.isSome = true ∨ ∃ k x m, (k, x) ∈ kvs ∧ IsNode m x ∧ m.hasRef = true) →
            (twalkFields (missingVisitTree env) path kvs s').1.error.isSome = true) := by
        intro kvs
        induction kvs with
        | nil =>
          intro _ s' _
          refine ⟨rfl, ?_⟩
          rintro (h | ⟨k, x, m, h, _⟩)
          · exact h
          · cases h
        | cons kv kvs ihk =>
          intro hsub s' hf'
          obtain ⟨k, x⟩ := kv
          have hmem : (k, x) ∈ t.props := hsub _ (List.mem_cons_self _ _)
          obtain ⟨h1, h2⟩ := ih x (by have := Json.size_member hmem; omega) (path ++ [k]) s' hf'
          obtain ⟨h3, h4⟩ := ihk (fun kv h => hsub kv (List.mem_cons_of_mem _ h))
            (twalk (missingVisitTree env) (path ++ [k]) x s') (by rw [h1]; exact hf')
          simp only [twalkFields]
          refine ⟨h3.trans h1, ?_⟩
          rintro (h | ⟨k', x', m, hin, hm, hr⟩)
          · exact h4 (.inl (h2 (.inl h)))
          · rcases List.mem_cons.1 hin with hin | hin
            · cases hin
              exact h4 (.inl (h2 (.inr ⟨m, hm, hr⟩)))
            · exact h4 (.inr ⟨k', x', m, hin, hm, hr⟩)
      obtain ⟨h1, h2⟩ := fields t.props (fun _ h => h) s hf
      refine ⟨h1, ?_⟩
      rintro (h | ⟨m, hm, hr⟩)
      · exact h2 (.inl h)
      · rcases hm.inv with rfl | ⟨k, x, hx, hmx⟩
        · rw [hh] at hr; cases hr
        · exact h2 (.inr ⟨k, x, m, hx, hmx, hr⟩)

theorem walker_missing (env : Env) (loaders : Loaders)
    (recur : Val → Options → State → Heap → Except Exn (Res × World))
    (hfile : loaders .file = none) (hweb : loaders .web = none) (doc : Json) (o : Options)
    (n : Nat) (hwf : doc.wf = true) (hext : doc.all (Json.externalOrPlain env) = true)
    (hn : doc.size ≤ n) (st : State) (hst : st.history = []) (herr : st.error = none)
    (H : Heap) (v : Val) (h : deepEq H v doc = true) :
    walker (derefVisit env loaders recur n v) n [] [] v (st, o) H =
        .ok (v, twalk (missingVisitTree env) [] doc (st, o), H) ∧
      (o.failOnMissing = false →
        (twalk (missingVisitTree env) [] doc (st, o)).1.error = none) := by
  have hP := Json.all_isNode doc.size doc (le_refl _) hext
  have := walker_pure (derefVisit env loaders recur n v) (missingVisitTree env)
    (fun t => t.externalOrPlain env = true)
    (fun s => s.1.history = [] ∧ s.2 = o ∧ (o.failOnMissing = false → s.1.error = none))
    (fun path v' t s H' hp hi hd =>
      derefVisit_missing_sim env loaders recur n v hfile hweb path v' t s H' hp hi.1 hd)
    (by
      intro path t s _ hi
      unfold missingVisitTree
      cases hh : t.hasRef with
      | false => simpa [hh] using hi
      | true =>
        obtain ⟨h1, h2, h3⟩ := hi
        refine ⟨?_, by simp [h2], ?_⟩
        · simp [missingStateTree_history]
        · intro hf
          have hf' : s.2.failOnMissing = false := by rw [h2]; exact hf
          simp [missingStateTree_error, hf', h3 hf])
    n doc hn hwf hP [] [] v (st, o) H ⟨hst, rfl, fun _ => herr⟩ h
    (by intro fr hfr; cases hfr) (by intro p key hp; cases hp)
  exact ⟨this.1, this.2.2.2⟩

/-! ## Lemmas: dag-map -/

theorem DAG.mem_incoming {g : DAG} {u v : String} : u ∈ g.incoming v ↔ (u, v) ∈ g.edges := by
  unfold DAG.incoming
  simp only [List.mem_map, List.mem_filter, decide_eq_true_eq]
  constructor
  · rintro ⟨⟨a, b⟩, ⟨h1, h2⟩, h3⟩
    simp only at h2 h3
    subst h2; subst h3; exact h1
  · intro h; exact ⟨(u, v), ⟨h, rfl⟩, rfl⟩

theorem nodup_subset_length {l l' : List String} (h : l.Nodup) (hs : l ⊆ l') :
    l.length ≤ l'.length :=
  (h.subperm hs).length_le

theorem DAG.visit_spec (g : DAG) (toName : String)
    (hn : ∀ a b, (a, b) ∈ g.edges → a ∈ g.names) :
    ∀ (n : Nat) (v : String) (visited : List String), v ∈ g.names → visited.Nodup →
      visited ⊆ g.names → g.names.length < n + visited.length →
      g.visit toName n v visited = .error .cycle ∨
      ∃ vis, g.visit toName n v visited = .ok vis ∧ visited ⊆ vis ∧ v ∈ vis ∧ vis.Nodup ∧
        vis ⊆ g.names ∧
        ∀ w ∈ vis, w ∉ visited → w ≠ toName ∧ ∀ u ∈ g.incoming w, u ∈ vis := by
  intro n
  induction n with
  | zero =>
    intro v visited _ hnd hsub hlt
    have := nodup_subset_length hnd hsub
    omega
  | succ n ih =>
    intro v visited hv hnd hsub hlt
    unfold DAG.visit
    by_cases hin : v ∈ visited
    · right
      exact ⟨visited, (by simp [hin]), fun _ h => h, hin, hnd, hsub,
        fun w hw hnw => absurd hw hnw⟩
    · simp only [hin, if_false]
      have fold : ∀ (us : List String) (vis : List String), (∀ u ∈ us, u ∈ g.names) →
          vis.Nodup → vis ⊆ g.names → g.names.length < n + vis.length →
          us.foldlM (fun vis u => DAG.visit g toName n u vis) vis = .error .cycle ∨
          ∃ vis', us.foldlM (fun vis u => DAG.visit g toName n u vis) vis = .ok vis' ∧
            vis ⊆ vis' ∧ (∀ u ∈ us, u ∈ vis') ∧ vis'.Nodup ∧ vis' ⊆ g.names ∧
            ∀ w ∈ vis', w ∉ vis → w ≠ toName ∧ ∀ u ∈ g.incoming w, u ∈ vis' := by
        intro us
        induction us with
        | nil =>
          intro vis _ h1 h2 _
          right
          exact ⟨vis, rfl, fun _ h => h, (by intro u hu; cases hu), h1, h2,
            fun w hw hnw => absurd hw hnw⟩
        | cons u us ihu =>
          intro vis hus h1 h2 h3
          rcases ih u vis (hus u (List.mem_cons_self _ _)) h1 h2 h3 with hc | ⟨vis1, e1, s1, m1, n1, b1, c1⟩
          · left
            simp [List.foldlM_cons, hc, bind, Except.bind]
          · have hlen : vis.length ≤ vis1.length := nodup_subset_length h1 s1
            rcases ihu vis1 (fun x hx => hus x (List.mem_cons_of_mem _ hx)) n1 b1 (by omega)
              with hc | ⟨vis2, e2, s2, m2, n2, b2, c2⟩
            · left
              simp [List.foldlM_cons, e1, hc, bind, Except.bind]
            · right
              refine ⟨vis2, (by simp [List.foldlM_cons, e1, e2, bind, Except.bind]),
                fun x hx => s2 (s1 hx), ?_, n2, b2, ?_⟩
              · intro x hx
                rcases List.mem_cons.1 hx with hx | hx
                · subst hx; exact s2 m1
                · exact m2 x hx
              · intro w hw hnw
                by_cases hw1 : w ∈ vis1
                · obtain ⟨a, b⟩ := c1 w hw1 hnw
                  exact ⟨a, fun x hx => s2 (b x hx)⟩
                · exact c2 w hw hw1
      have hinc : ∀ u ∈ g.incoming v, u ∈ g.names := fun u hu => hn u v (DAG.mem_incoming.1 hu)
      have hnd' : (v :: visited).Nodup := List.nodup_cons.2 ⟨hin, hnd⟩
      have hsub' : v :: visited ⊆ g.names := by
        intro x hx
        rcases List.mem_cons.1 hx with hx | hx
        · subst hx; exact hv
        · exact hsub hx
      rcases fold (g.incoming v) (v :: visited) hinc hnd' hsub'
        (by simp only [List.length_cons]; omega) with hc | ⟨vis, e, s, m, nd, b, c⟩
      · left; rw [hc]
      · by_cases hvt : v = toName
        · left; rw [e]; simp [hvt]
        · right
          refine ⟨vis, (by rw [e]; simp [hvt]), fun x hx => s (List.mem_cons_of_mem _ hx),
            s (List.mem_cons_self _ _), nd, b, ?_⟩
          intro w hw hnw
          by_cases hwv : w = v
          · subst hwv; exact ⟨hvt, m⟩
          · exact c w hw (by simp [hwv, hnw])

theorem DAG.visit_reach (g : DAG) (toName fromName : String)
    (hn : ∀ a b, (a, b) ∈ g.edges → a ∈ g.names) (hf : fromName ∈ g.names)
    (hreach : Relation.ReflTransGen g.Edge toName fromName) :
    g.visit toName (g.names.length + 1) fromName [] = .error .cycle := by
  rcases DAG.visit_spec g toName hn (g.names.length + 1) fromName [] hf List.nodup_nil
    (by intro x hx; cases hx) (by simp) with hc | ⟨vis, _, _, m, _, _, c⟩
  · exact hc
  · exfalso
    have key : ∀ x, Relation.ReflTransGen g.Edge x fromName → x ∈ vis := by
      intro x hx
      induction hx using Relation.ReflTransGen.head_induction_on with
      | refl => exact m
      | head hxy _ ih =>
        exact (c _ ih (by simp)).2 _ (DAG.mem_incoming.2 hxy)
    exact (c toName (key toName hreach) (by simp)).1 rfl

theorem DAG.visit_ok (g : DAG) (toName fromName : String)
    (hn : ∀ a b, (a, b) ∈ g.edges → a ∈ g.names) (hf : fromName ∈ g.names) :
    g.visit toName (g.names.length + 1) fromName [] = .error .cycle ∨
      ∃ vis, g.visit toName (g.names.length + 1) fromName [] = .ok vis := by
  rcases DAG.visit_spec g toName hn (g.names.length + 1) fromName [] hf List.nodup_nil
    (by intro x hx; cases hx) (by simp) with hc | ⟨vis, e, _⟩
  · exact .inl hc
  · exact .inr ⟨vis, e⟩

theorem transGen_insert {E : String → String → Prop} {f t : String} {x y : String}
    (h : Relation.TransGen (fun a b => E a b ∨ (a = f ∧ b = t)) x y) :
    Relation.TransGen E x y ∨ (Relation.ReflTransGen E x f ∧ Relation.ReflTransGen E t y) := by
  induction h with
  | single h =>
    rcases h with h | ⟨rfl, rfl⟩
    · exact .inl (.single h)
    · exact .inr ⟨.refl, .refl⟩
  | tail _ hyz ih =>
    rcases ih with ih | ⟨a, b⟩
    · rcases hyz with h | ⟨rfl, rfl⟩
      · exact .inl (.tail ih h)
      · exact .inr ⟨ih.to_reflTransGen, .refl⟩
    · rcases hyz with h | ⟨rfl, rfl⟩
      · exact .inr ⟨a, b.tail h⟩
      · exact .inr ⟨a, .refl⟩

theorem DAG.good_empty : DAG.empty.Good := by
  refine ⟨(by intro a b h; cases h), ?_⟩
  intro x h
  have key : ∀ a b, Relation.TransGen DAG.empty.Edge a b → False := by
    intro a b h
    induction h with
    | single h => cases h
    | tail _ h _ => cases h
  exact key x x h

theorem DAG.addEdge_spec (g : DAG) (hg : g.Good) (f t : String) :
    g.addEdge f t = .error .cycle ∨
      ∃ g', g.addEdge f t = .ok g' ∧ g'.Good ∧ g.edges ⊆ g'.edges ∧
        (f ≠ "" → t ≠ "" → f ≠ t → (f, t) ∈ g'.edges) := by
  unfold DAG.addEdge
  by_cases h0 : f = "" ∨ t = "" ∨ f = t
  · right
    refine ⟨g, by simp [h0], hg, fun _ h => h, ?_⟩
    intro a b c
    rcases h0 with h | h | h <;> contradiction
  · simp only [h0, if_false]
    have hnames : ∀ x, x ∈ g.names → x ∈ ((g.add f).add t).names := by
      intro x hx
      unfold DAG.add
      split_ifs <;> simp_all
    have hedges : ((g.add f).add t).edges = g.edges := by
      unfold DAG.add
      split_ifs <;> rfl
    have hf : f ∈ ((g.add f).add t).names := by
      unfold DAG.add
      split_ifs <;> simp_all
    have ht : t ∈ ((g.add f).add t).names := by
      unfold DAG.add
      split_ifs <;> simp_all
    have hg2 : ((g.add f).add t).Good := by
      refine ⟨?_, ?_⟩
      · intro a b h
        rw [hedges] at h
        exact ⟨hnames _ (hg.ends a b h).1, hnames _ (hg.ends a b h).2⟩
      · intro x h
        apply hg.acyclic x
        have : ((g.add f).add t).Edge = g.Edge := by
          funext a b; unfold DAG.Edge; rw [hedges]
        rw [this] at h; exact h
    by_cases hin : (f, t) ∈ ((g.add f).add t).edges
    · right
      exact ⟨_, (by simp [hin]), hg2, (by rw [hedges]; exact fun _ h => h), fun _ _ _ => hin⟩
    · simp only [hin, if_false]
      rcases DAG.visit_ok ((g.add f).add t) t f (fun a b h => (hg2.ends a b h).1) hf
        with hc | ⟨vis, hv⟩
      · left; rw [hc]
      · right
        refine ⟨_, (by rw [hv]), ?_, ?_, ?_⟩
        · refine ⟨?_, ?_⟩
          · intro a b h
            simp only [List.mem_append, List.mem_singleton, Prod.mk.injEq] at h
            rcases h with h | ⟨rfl, rfl⟩
            · exact hg2.ends a b h
            · exact ⟨hf, ht⟩
          · intro x h
            have hE : DAG.Edge (⟨((g.add f).add t).names,
                ((g.add f).add t).edges ++ [(f, t)]⟩ : DAG) =
                (fun a b => ((g.add f).add t).Edge a b ∨ (a = f ∧ b = t)) := by
              funext a b
              simp [DAG.Edge]
            rw [hE] at h
            rcases transGen_insert h with h | ⟨a, b⟩
            · exact hg2.acyclic x h
            · have := DAG.visit_reach ((g.add f).add t) t f (fun a b h => (hg2.ends a b h).1) hf
                (b.trans a)
              rw [this] at hv
              cases hv
        · intro e he
          show e ∈ ((g.add f).add t).edges ++ [(f, t)]
          rw [hedges]; exact List.mem_append_left _ he
        · intro _ _ _
          show (f, t) ∈ ((g.add f).add t).edges ++ [(f, t)]
          simp

theorem drop_two (s : String) : String.mk (("#/" ++ s).data.drop 2) = s := by
  cases s
  rfl

theorem isPrefixOf_self (l : List Char) : l.isPrefixOf l = true := by
  induction l with
  | nil => rfl
  | cons c l ih => simp [List.isPrefixOf, ih]

theorem findCircular_spec : ∀ (locals : List Local) (g : DAG), g.Good →
    (∃ elem, findCircular g locals = .ok (some elem)) ∨
      (findCircular g locals = .ok none ∧
        ∃ g' : DAG, g'.Good ∧ g.edges ⊆ g'.edges ∧ ∀ e ∈ locals,
          (String.mk (e.to_.data.drop 2) ++ "/").data.isPrefixOf (e.from_ ++ "/").data = false ∧
          (e.from_ ++ "/" ≠ String.mk (e.to_.data.drop 2) ++ "/" →
            (e.from_ ++ "/", String.mk (e.to_.data.drop 2) ++ "/") ∈ g'.edges)) := by
  intro locals
  induction locals with
  | nil =>
    intro g hg
    right
    exact ⟨rfl, g, hg, fun _ h => h, by intro e he; cases he⟩
  | cons e rest ih =>
    intro g hg
    have hfne : e.from_ ++ "/" ≠ "" := by
      intro h
      have := congrArg String.data h
      simp [String.data_append] at this
    have hdne : String.mk (e.to_.data.drop 2) ++ "/" ≠ "" := by
      intro h
      have := congrArg String.data h
      simp [String.data_append] at this
    unfold findCircular
    rcases DAG.addEdge_spec g hg (e.from_ ++ "/") (String.mk (e.to_.data.drop 2) ++ "/")
      with hc | ⟨g1, h1, hg1, hs1, hin1⟩
    · left; exact ⟨e, by simp [hc]⟩
    · simp only [h1]
      by_cases hp : (String.mk (e.to_.data.drop 2) ++ "/").data.isPrefixOf (e.from_ ++ "/").data
          = true
      · left; exact ⟨e, if_pos hp⟩
      · rw [if_neg hp]
        rcases ih g1 hg1 with ⟨elem, h⟩ | ⟨h, g2, hg2, hs2, hall⟩
        · left; exact ⟨elem, h⟩
        · right
          refine ⟨h, g2, hg2, fun x hx => hs2 (hs1 hx), ?_⟩
          intro e' he'
          rcases List.mem_cons.1 he' with rfl | he'
          · exact ⟨Bool.eq_false_iff.2 hp, fun hne => hs2 (hin1 hfne hdne hne)⟩
          · exact hall e' he'

theorem findCircular_of_cycle (env : Env) (doc : Json) (hwf : doc.wf = true)
    (cyc : List (List String)) (hc : isRefCycle doc cyc = true) :
    ∃ elem, findCircular DAG.empty (localsOf env doc) = .ok (some elem) := by
  rcases findCircular_spec (localsOf env doc) DAG.empty DAG.good_empty with h | ⟨_, g, hg, _, hall⟩
  · exact h
  · exfalso
    obtain ⟨ext, he, hm⟩ := twalk_collect env _ doc (le_refl _) hwf [] []
    have hloc : localsOf env doc = ext := by simpa [localsOf] using he
    have hedge : ∀ a b, refersTo doc a b = true →
        g.Edge (joinPath a ++ "/") (joinPath b ++ "/") := by
      intro a b hab
      unfold refersTo at hab
      cases hn : doc.nodeAt a with
      | none => simp [hn] at hab
      | some m =>
        simp only [hn, Bool.and_eq_true, decide_eq_true_eq] at hab
        have hrt : m.refType env = some .local := by
          unfold Json.refType
          rw [hab.2]
          have : ("#/" ++ joinPath b).data.head? = some '#' := by
            cases joinPath b; rfl
          simp [this]
        have hin := hm a m _ hn hab.1 hrt hab.2
        rw [← hloc] at hin
        obtain ⟨h1, h2⟩ := hall _ hin
        simp only [drop_two, List.nil_append] at h1 h2
        by_cases e : joinPath a ++ "/" = joinPath b ++ "/"
        · rw [e, isPrefixOf_self] at h1; cases h1
        · exact h2 e
    have chain : ∀ (l : List (List String)) (a : List String) (hne : l ≠ []),
        chainRefs doc (a :: l) = true →
        Relation.TransGen g.Edge (joinPath a ++ "/") (joinPath (l.getLast hne) ++ "/") := by
      intro l
      induction l with
      | nil => intro a hne; exact absurd rfl hne
      | cons b l ihl =>
        intro a _ hch
        simp only [chainRefs, Bool.and_eq_true] at hch
        cases l with
        | nil => exact .single (hedge a b hch.1)
        | cons c l =>
          have := ihl b (by simp) hch.2
          simp only [List.getLast_cons_cons]
          exact .head (hedge a b hch.1) this
    cases cyc with
    | nil => simp [isRefCycle] at hc
    | cons p r =>
      have := chain (r ++ [p]) p (by simp) hc
      simp only [List.getLast_append_singleton] at this
      exact hg.acyclic _ this

/-! ## Lemmas: `deref` and the static check -/

theorem checkLocalCircular_eq (env : Env) (t : Json) (hwf : t.wf = true) (n : Nat)
    (hn : t.size ≤ n) (H : Heap) (v : Val) (h : deepEq H v t = true) :
    checkLocalCircular env n H v =
      if (localsOf env t).isEmpty then .ok none
      else if (localsOf env t).any (fun elem => decide (elem.to_ = "#")) then
        .ok (some "Circular self reference")
      else
        match findCircular DAG.empty (localsOf env t) with
        | .error e => .error e
        | .ok (some elem) =>
          .ok (some ("Circular self reference from " ++ elem.from_ ++ " to " ++ elem.to_))
        | .ok none => .ok none := by
  unfold checkLocalCircular
  rw [walker_collectLocal env t hwf n hn H v h]

theorem deref_of_static_error (env : Env) (loaders : Loaders) (doc : Json) (o : Options)
    (n : Nat) (msg : String)
    (h : checkLocalCircular env n (alloc doc []).2 (alloc doc []).1 = .ok (some msg)) :
    deref env loaders (n + 1) doc o = .ok (.error msg, (alloc doc []).2) := by
  simp [deref, derefSchema, h]

theorem deref_of_walker (env : Env) (loaders : Loaders) (doc : Json) (o : Options) (n : Nat)
    (v : Val) (s' : State × Options) (H' : Heap)
    (hcheck : checkLocalCircular env n (alloc doc []).2 (alloc doc []).1 = .ok none)
    (hw : walker (derefVisit env loaders (derefSchema env loaders n) n (alloc doc []).1) n [] []
      (alloc doc []).1 (initState env doc o, o) (alloc doc []).2 = .ok (v, s', H')) :
    deref env loaders (n + 1) doc o =
      .ok (match s'.1.error with
        | some msg => .error msg
        | none => .value v, H') := by
  have h1 : (initState env doc o).circular = false := rfl
  have h2 : (initState env doc o).error = none := rfl
  simp only [deref, derefSchema, hcheck, h1, h2, hw, Bool.false_eq_true, if_false]
  cases h : s'.1.error <;> simp [h]

/-! ## Lemmas: the visitor at a local reference -/

theorem getRefValue_of_ref {H : Heap} {a : Nat} {r : String}
    (href : getProp H (.obj a) "$ref" = .str r) (hne : r ≠ "")
    (hvalue : truthy (getProp H (.obj a) "value") = false) :
    getRefValue H (.obj a) = some r := by
  have h1 : truthy (Val.obj a) = true := rfl
  simp only [getRefValue, h1, hvalue, href, strOf, hne, if_true, if_false, Bool.false_eq_true]

theorem getRefType_of_ref (env : Env) {H : Heap} {a : Nat} {r : String}
    (href : getProp H (.obj a) "$ref" = .str r) (hhash : r.data.head? = some '#')
    (hvalue : truthy (getProp H (.obj a) "value") = false) :
    getRefType env H (.obj a) = some .local := by
  have hne : r ≠ "" := by
    intro e; subst e; simp at hhash
  simp [getRefType, getRefValue_of_ref href hne hvalue, hhash]

/-- What the visitor does at a local reference that the history accepts and
    whose target exists: `$id` is deleted from the target if asked, the siblings
    are merged over a copy of it if asked, and the result replaces the node. -/
theorem derefVisit_local (env : Env) (loaders : Loaders)
    (recur : Val → Options → State → Heap → Except Exn (Res × World)) (fuel : Nat)
    (schema : Val) (path : List String) (a : Nat) (s : State × Options) (H : Heap)
    (r : String) (target : Val)
    (hloader : loaders .local = none)
    (href : getProp H (.obj a) "$ref" = .str r) (hhash : r.data.head? = some '#')
    (hne : r ≠ "#") (hvalue : truthy (getProp H (.obj a) "value") = false)
    (hhist : env.toLowerCase (s.1.current ++ (":" ++ r)) ∉ s.1.history)
    (hres : getRefPathValue H schema r = .ok target) (hdef : target ≠ .undefined)
    (hnull : s.2.removeIds = false ∨ hasOwnThrows H target = false) :
    derefVisit env loaders recur fuel schema path (.obj a) s H =
      (if s.2.mergeAdditionalProperties then
        match merge fuel (delProp (if s.2.removeIds && hasOwn H target "$id" then
            delProp H target "$id" else H) (.obj a) "$ref") [target, .obj a] with
        | .error e => .error e
        | .ok (merged, H5) =>
          .ok (({ s.1 with missing := s.1.missing.erase (some r) }, s.2), H5,
            some ⟨merged, false⟩)
      else
        .ok (({ s.1 with missing := s.1.missing.erase (some r) }, s.2),
          (if s.2.removeIds && hasOwn H target "$id" then delProp H target "$id" else H),
          some ⟨target, false⟩)) := by
  have hrne : r ≠ "" := by
    intro e; subst e; simp at hhash
  have hrv := getRefValue_of_ref href hrne hvalue
  have hrt := getRefType_of_ref env href hhash hvalue
  have hdest : s.1.current ++ (":" ++ r) ≠ "" := by
    intro e
    have := congrArg String.data e
    simp [String.data_append] at this
  have hnull' : (s.2.removeIds && hasOwnThrows H target) = false := by
    rcases hnull with h | h
    · simp [h]
    · simp [h]
  have hst : ({ s.1 with history := (s.1.history ++
      [env.toLowerCase (s.1.current ++ (":" ++ r))]).dropLast } : State) = s.1 := by
    simp
  simp only [derefVisit, href, strOf, hrv, hrt, addToHistory, setCurrent, getRefSchema, hloader,
    hres, showRef, hdest, hhist, hne, Except.map, reduceCtorEq, if_false, if_true,
    Option.some.injEq, hdef, hnull', Bool.false_eq_true, hst]
  simp only [List.dropLast_concat]

/-! ## Lemmas: heap updates -/

theorem modifyAt_length (H : Heap) (a : Nat) (g : Obj → Obj) :
    (modifyAt H a g).length = H.length := by
  unfold modifyAt; split <;> simp

theorem modifyAt_get_other (H : Heap) (a c : Nat) (g : Obj → Obj) (h : c ≠ a) :
    (modifyAt H a g)[c]? = H[c]? := by
  unfold modifyAt; split
  · simp [List.getElem?_set, Ne.symm h]
  · rfl

theorem modifyAt_get_same (H : Heap) (a : Nat) (g : Obj → Obj) (o : Obj) (h : H[a]? = some o) :
    (modifyAt H a g)[a]? = some (g o) := by
  unfold modifyAt
  rw [h]
  simp [List.getElem?_set, (List.getElem?_eq_some.1 h).1]

theorem setProp_length (H : Heap) (v : Val) (k : String) (x : Val) :
    (setProp H v k x).length = H.length := by
  unfold setProp; split
  · exact modifyAt_length _ _ _
  · rfl

theorem setProp_get_other (H : Heap) (a c : Nat) (k : String) (x : Val) (h : c ≠ a) :
    (setProp H (.obj a) k x)[c]? = H[c]? :=
  modifyAt_get_other _ _ _ _ h

theorem setProp_get_same (H : Heap) (a : Nat) (k : String) (x : Val) (o : Obj)
    (h : H[a]? = some o) :
    (setProp H (.obj a) k x)[a]? = some { o with props := setKey k x o.props } :=
  modifyAt_get_same _ _ _ _ h

theorem assoc_setKey (k k' : String) (v : Val) : ∀ (ps : List (String × Val)),
    assoc k' (setKey k v ps) = if k = k' then some v else assoc k' ps := by
  intro ps
  induction ps with
  | nil => simp [setKey, assoc]
  | cons p ps ih =>
    obtain ⟨k1, v1⟩ := p
    by_cases e : k1 = k
    · subst e
      by_cases e' : k1 = k' <;> simp [setKey, assoc, e']
    · by_cases e' : k1 = k'
      · subst e'
        simp [setKey, assoc, e, Ne.symm e]
      · simp [setKey, assoc, e, e', ih]

theorem setKey_append_of_not_mem (k : String) (v : Val) : ∀ (ps : List (String × Val)),
    assoc k ps = none → setKey k v ps = ps ++ [(k, v)] := by
  intro ps
  induction ps with
  | nil => intro _; rfl
  | cons p ps ih =>
    intro h
    obtain ⟨k1, v1⟩ := p
    by_cases e : k1 = k
    · simp [assoc, e] at h
    · simp [assoc, e] at h
      simp [setKey, e, ih h]

theorem assoc_none_iff {k : String} : ∀ {ps : List (String × Val)},
    assoc k ps = none ↔ k ∉ ps.map Prod.fst := by
  intro ps
  induction ps with
  | nil => simp [assoc]
  | cons p ps ih =>
    obtain ⟨k1, v1⟩ := p
    by_cases e : k1 = k
    · simp [assoc, e]
    · simp [assoc, e, ih, Ne.symm e]

theorem assoc_mem {k : String} {v : Val} : ∀ {ps : List (String × Val)},
    assoc k ps = some v → (k, v) ∈ ps := by
  intro ps
  induction ps with
  | nil => intro h; cases h
  | cons p ps ih =>
    intro h
    obtain ⟨k1, v1⟩ := p
    by_cases e : k1 = k
    · simp [assoc, e] at h; subst e; subst h; exact List.mem_cons_self _ _
    · simp [assoc, e] at h; exact List.mem_cons_of_mem _ (ih h)

theorem mem_pointers {p : Nat} : ∀ {ps : List (String × Val)},
    p ∈ pointers ps ↔ ∃ k, (k, Val.obj p) ∈ ps := by
  intro ps
  induction ps with
  | nil => simp [pointers]
  | cons q ps ih =>
    obtain ⟨k1, v1⟩ := q
    cases v1 <;> simp [pointers, ih]
    constructor
    · rintro (rfl | ⟨k, h⟩)
      · exact ⟨k1, .inl ⟨rfl, rfl⟩⟩
      · exact ⟨k, .inr h⟩
    · rintro ⟨k, (⟨_, rfl⟩ | h)⟩
      · exact .inl rfl
      · exact .inr ⟨k, h⟩

theorem pointers_setKey {k : String} {v : Val} {p : Nat} : ∀ {ps : List (String × Val)},
    p ∈ pointers (setKey k v ps) → p ∈ pointers ps ∨ v = .obj p := by
  intro ps
  induction ps with
  | nil =>
    intro h
    rcases mem_pointers.1 h with ⟨k', h'⟩
    simp [setKey] at h'
    exact .inr h'.2.symm
  | cons q ps ih =>
    intro h
    obtain ⟨k1, v1⟩ := q
    by_cases e : k1 = k
    · simp only [setKey, e, if_true] at h
      rcases mem_pointers.1 h with ⟨k', h'⟩
      rcases List.mem_cons.1 h' with h' | h'
      · simp at h'; exact .inr h'.2.symm
      · exact .inl (mem_pointers.2 ⟨k', List.mem_cons_of_mem _ h'⟩)
    · simp only [setKey, e, if_false] at h
      rcases mem_pointers.1 h with ⟨k', h'⟩
      rcases List.mem_cons.1 h' with h' | h'
      · exact .inl (mem_pointers.2 ⟨k', by rw [h']; exact List.mem_cons_self _ _⟩)
      · rcases ih (mem_pointers.2 ⟨k', h'⟩) with h'' | h''
        · rcases mem_pointers.1 h'' with ⟨k'', h3⟩
          exact .inl (mem_pointers.2 ⟨k'', List.mem_cons_of_mem _ h3⟩)
        · exact .inr h''

theorem assignMergeValue_length (H : Heap) (d : Nat) (k : String) (v : Val) :
    (assignMergeValue H d k v).length = H.length := by
  unfold assignMergeValue; split
  · exact setProp_length _ _ _ _
  · rfl

theorem assignMergeValue_get_other (H : Heap) (d c : Nat) (k : String) (v : Val) (h : c ≠ d) :
    (assignMergeValue H d k v)[c]? = H[c]? := by
  unfold assignMergeValue; split
  · exact setProp_get_other _ _ _ _ _ h
  · rfl

theorem assignMergeValue_get_same (H : Heap) (d : Nat) (k : String) (v : Val) (o : Obj)
    (h : H[d]? = some o) (hv : v ≠ .undefined) :
    (assignMergeValue H d k v)[d]? = some { o with props := setKey k v o.props } := by
  unfold assignMergeValue
  by_cases e : getProp H (.obj d) k = v
  · have hk : assoc k o.props = some v := by
      simp only [getProp, h] at e
      cases ha : assoc k o.props with
      | none => simp [ha] at e; exact absurd e.symm hv
      | some w => simp [ha] at e; rw [e]
    simp [e, hv, h, setKey_of_assoc _ hk]
  · simp [e, hv, setProp_get_same _ _ _ _ _ h]

/-! ## Lemmas: documents laid out in a range of the heap -/

theorem itemsAt_indexed (H : Heap) : ∀ (xs : List Json) (i lo hi : Nat) (ps : List (String × Val)),
    itemsAt H xs i lo hi ps ↔ fieldsAt H (indexed xs i) lo hi ps := by
  intro xs
  induction xs with
  | nil => intro i lo hi ps; simp [itemsAt, fieldsAt, indexed]
  | cons x xs ih => intro i lo hi ps; simp [itemsAt, fieldsAt, indexed, ih]

theorem treeAt_container {H : Heap} {t : Json} {lo hi : Nat} {v : Val}
    (hc : t.isContainer = true) :
    treeAt H t lo hi v ↔
      v = .obj lo ∧ ∃ ps, H[lo]? = some ⟨t.kind, ps⟩ ∧ fieldsAt H t.props (lo + 1) hi ps := by
  cases t <;> simp [Json.isContainer] at hc <;>
    simp [treeAt, Json.kind, Json.props, itemsAt_indexed]

theorem treeAt_scalar {H : Heap} {t : Json} {lo hi : Nat} {v : Val}
    (hc : t.isContainer = false) :
    treeAt H t lo hi v ↔ lo = hi ∧ deepEq H v t = true := by
  cases t <;> simp [Json.isContainer] at hc <;> cases v <;> simp [treeAt, deepEq]

theorem fieldsAt_nil {H : Heap} {lo hi : Nat} {ps : List (String × Val)} :
    fieldsAt H [] lo hi ps ↔ lo = hi ∧ ps = [] := by
  simp [fieldsAt]

theorem fieldsAt_cons {H : Heap} {k : String} {x : Json} {kvs : List (String × Json)}
    {lo hi : Nat} {ps : List (String × Val)} :
    fieldsAt H ((k, x) :: kvs) lo hi ps ↔
      ∃ v rest mid, ps = (k, v) :: rest ∧ treeAt H x lo mid v ∧ fieldsAt H kvs mid hi rest := by
  simp [fieldsAt]

theorem treeAt_facts : ∀ (n : Nat) (t : Json), t.size ≤ n → ∀ (H : Heap) (lo hi : Nat) (v : Val),
    treeAt H t lo hi v →
      LayoutFacts H lo hi ∧ deepEq H v t = true ∧ (∀ p, v = .obj p → lo ≤ p ∧ p < hi) ∧
      (∀ H' : Heap, (∀ c, lo ≤ c → c < hi → H'[c]? = H[c]?) → treeAt H' t lo hi v) := by
  intro n
  induction n with
  | zero => intro t h; have := t.size_pos; omega
  | succ n ih =>
    intro t hsz H lo hi v h
    have fields : ∀ (kvs : List (String × Json)), (∀ kv ∈ kvs, kv.2.size ≤ n) →
        ∀ (lo hi : Nat) (ps : List (String × Val)), fieldsAt H kvs lo hi ps →
          LayoutFacts H lo hi ∧ List.Forall₂ (Rel H) ps kvs ∧
          (∀ p ∈ pointers ps, lo ≤ p ∧ p < hi) ∧
          (∀ H' : Heap, (∀ c, lo ≤ c → c < hi → H'[c]? = H[c]?) → fieldsAt H' kvs lo hi ps) := by
      intro kvs
      induction kvs with
      | nil =>
        intro _ lo hi ps h
        obtain ⟨rfl, rfl⟩ := fieldsAt_nil.1 h
        exact ⟨⟨le_refl _, by intro c o h1 h2; omega⟩, .nil, (by intro p hp; cases hp),
          fun H' _ => fieldsAt_nil.2 ⟨rfl, rfl⟩⟩
      | cons kv kvs ihk =>
        intro hl lo hi ps h
        obtain ⟨k, x⟩ := kv
        obtain ⟨v, rest, mid, rfl, h1, h2⟩ := fieldsAt_cons.1 h
        obtain ⟨f1, d1, p1, s1⟩ := ih x (hl (k, x) (List.mem_cons_self _ _)) H lo mid v h1
        obtain ⟨f2, d2, p2, s2⟩ := ihk (fun kv h => hl kv (List.mem_cons_of_mem _ h)) mid hi rest h2
        have hle1 := f1.le
        have hle2 := f2.le
        refine ⟨⟨by omega, ?_⟩, .cons ⟨rfl, d1⟩ d2, ?_, ?_⟩
        · intro c o hc1 hc2 ho p hp
          by_cases hcm : c < mid
          · have := f1.closed c o hc1 hcm ho p hp; omega
          · have := f2.closed c o (by omega) hc2 ho p hp; omega
        · intro p hp
          rcases mem_pointers.1 hp with ⟨k', hk'⟩
          rcases List.mem_cons.1 hk' with hk' | hk'
          · simp only [Prod.mk.injEq] at hk'
            have := p1 p hk'.2.symm; omega
          · have := p2 p (mem_pointers.2 ⟨k', hk'⟩); omega
        · intro H' hH'
          exact fieldsAt_cons.2 ⟨v, rest, mid, rfl,
            s1 H' (fun c h1 h2 => hH' c h1 (by omega)),
            s2 H' (fun c h1 h2 => hH' c (by omega) h2)⟩
    cases hc : t.isContainer with
    | false =>
      obtain ⟨rfl, hd⟩ := (treeAt_scalar hc).1 h
      refine ⟨⟨le_refl _, by intro c o h1 h2; omega⟩, hd, ?_, ?_⟩
      · intro p hp
        subst hp
        have := (deepEq_scalar hc hd).1
        simp [isObject] at this
      · intro H' _
        exact (treeAt_scalar hc).2 ⟨rfl, (deepEq_scalar hc hd).2 H'⟩
    | true =>
      obtain ⟨rfl, ps, hH, hf⟩ := (treeAt_container hc).1 h
      obtain ⟨f, d, p, s⟩ := fields t.props (fun kv hkv => by
        have := Json.size_member (show (kv.1, kv.2) ∈ t.props from hkv)
        omega) (lo + 1) hi ps hf
      have hle := f.le
      refine ⟨⟨by omega, ?_⟩, ?_, ?_, ?_⟩
      · intro c o hc1 hc2 ho q hq
        by_cases hcl : c = lo
        · subst hcl
          rw [hH] at ho
          cases ho
          have := p q hq; omega
        · have := f.closed c o (by omega) hc2 ho q hq; omega
      · exact (deepEq_container hc).2 ⟨lo, _, rfl, hH, rfl, d⟩
      · intro q hq; cases hq; omega
      · intro H' hH'
        exact (treeAt_container hc).2 ⟨rfl, ps, by rw [hH' lo (le_refl _) (by omega)]; exact hH,
          s H' (fun c h1 h2 => hH' c (by omega) h2)⟩

theorem fieldsAt_facts {H : Heap} : ∀ (kvs : List (String × Json)) (lo hi : Nat)
    (ps : List (String × Val)), fieldsAt H kvs lo hi ps →
      LayoutFacts H lo hi ∧ List.Forall₂ (Rel H) ps kvs ∧
      (∀ p ∈ pointers ps, lo ≤ p ∧ p < hi) ∧
      (∀ H' : Heap, (∀ c, lo ≤ c → c < hi → H'[c]? = H[c]?) → fieldsAt H' kvs lo hi ps) := by
  intro kvs
  induction kvs with
  | nil =>
    intro lo hi ps h
    obtain ⟨rfl, rfl⟩ := fieldsAt_nil.1 h
    exact ⟨⟨le_refl _, by intro c o h1 h2; omega⟩, .nil, (by intro p hp; cases hp),
      fun H' _ => fieldsAt_nil.2 ⟨rfl, rfl⟩⟩
  | cons kv kvs ihk =>
    intro lo hi ps h
    obtain ⟨k, x⟩ := kv
    obtain ⟨v, rest, mid, rfl, h1, h2⟩ := fieldsAt_cons.1 h
    obtain ⟨f1, d1, p1, s1⟩ := treeAt_facts _ x (le_refl _) H lo mid v h1
    obtain ⟨f2, d2, p2, s2⟩ := ihk mid hi rest h2
    have hle1 := f1.le
    have hle2 := f2.le
    refine ⟨⟨by omega, ?_⟩, .cons ⟨rfl, d1⟩ d2, ?_, ?_⟩
    · intro c o hc1 hc2 ho p hp
      by_cases hcm : c < mid
      · have := f1.closed c o hc1 hcm ho p hp; omega
      · have := f2.closed c o (by omega) hc2 ho p hp; omega
    · intro p hp
      rcases mem_pointers.1 hp with ⟨k', hk'⟩
      rcases List.mem_cons.1 hk' with hk' | hk'
      · simp only [Prod.mk.injEq] at hk'
        have := p1 p hk'.2.symm; omega
      · have := p2 p (mem_pointers.2 ⟨k', hk'⟩); omega
    · intro H' hH'
      exact fieldsAt_cons.2 ⟨v, rest, mid, rfl,
        s1 H' (fun c h1 h2 => hH' c h1 (by omega)),
        s2 H' (fun c h1 h2 => hH' c (by omega) h2)⟩

theorem deepEq_of_agree {H H' : Heap} : ∀ (n : Nat) (t : Json), t.size ≤ n → ∀ (v : Val),
    (∀ c, c < H.length → H'[c]? = H[c]?) → deepEq H v t = true → deepEq H' v t = true := by
  intro n
  induction n with
  | zero => intro t h; have := t.size_pos; omega
  | succ n ih =>
    intro t hsz v hag h
    cases hc : t.isContainer with
    | false => exact (deepEq_scalar hc h).2 _
    | true =>
      obtain ⟨a, o, rfl, hH, hk, hps⟩ := (deepEq_container hc).1 h
      have ha : a < H.length := (List.getElem?_eq_some.1 hH).1
      refine (deepEq_container hc).2 ⟨a, o, rfl, by rw [hag a ha]; exact hH, hk, ?_⟩
      have key : ∀ (ps : List (String × Val)) (l : List (String × Json)),
          (∀ kv ∈ l, kv.2.size ≤ n) → List.Forall₂ (Rel H) ps l →
          List.Forall₂ (Rel H') ps l := by
        intro ps l hl h1
        induction h1 with
        | nil => exact .nil
        | cons r _ ihl =>
          exact .cons ⟨r.1, ih _ (hl _ (List.mem_cons_self _ _)) _ hag r.2⟩
            (ihl (fun kv h => hl kv (List.mem_cons_of_mem _ h)))
      apply key _ _ _ hps
      intro kv hkv
      have := Json.size_member (show (kv.1, kv.2) ∈ t.props from hkv)
      omega

/-! ## Lemmas: lodash `merge` copies a document into a fresh object -/

theorem fieldsAt_snoc {H : Heap} {k : String} {x : Json} {v : Val} :
    ∀ (kvs : List (String × Json)) (lo mid hi : Nat) (ps : List (String × Val)),
      fieldsAt H kvs lo mid ps → treeAt H x mid hi v →
      fieldsAt H (kvs ++ [(k, x)]) lo hi (ps ++ [(k, v)]) := by
  intro kvs
  induction kvs with
  | nil =>
    intro lo mid hi ps h1 h2
    obtain ⟨rfl, rfl⟩ := fieldsAt_nil.1 h1
    exact fieldsAt_cons.2 ⟨v, [], hi, rfl, h2, fieldsAt_nil.2 ⟨rfl, rfl⟩⟩
  | cons kv kvs ih =>
    intro lo mid hi ps h1 h2
    obtain ⟨k', x'⟩ := kv
    obtain ⟨v', rest, m, rfl, h3, h4⟩ := fieldsAt_cons.1 h1
    exact fieldsAt_cons.2 ⟨v', rest ++ [(k, v)], m, rfl, h3, ih m mid hi rest h4 h2⟩

theorem lookup_none_of_forall {sc : Nat} : ∀ (stack : List (Nat × Nat)),
    (∀ p ∈ stack, p.1 ≠ sc) → stack.lookup sc = none := by
  intro stack
  induction stack with
  | nil => intro _; rfl
  | cons p stack ih =>
    intro h
    obtain ⟨a, b⟩ := p
    have h1 : a ≠ sc := h (a, b) (List.mem_cons_self _ _)
    have h2 : (sc == a) = false := by simpa using Ne.symm h1
    simp only [List.lookup, h2]
    exact ih (fun p hp => h p (List.mem_cons_of_mem _ hp))

theorem mergeStep_scalar (rec : List (Nat × Nat) → Nat → Val → Heap → Except Exn Heap)
    (stack : List (Nat × Nat)) (object : Nat) (source : Val) (H : Heap) (key : String)
    (h : isObject (getIn H source key) = false) :
    mergeStep rec stack object source H key =
      .ok (assignMergeValue H object key (getIn H source key)) := by
  unfold mergeStep
  cases hc : getIn H source key <;> simp_all [isObject]

theorem key_ne_proto {t x : Json} {k : String} (h : t.hasProto = false)
    (hx : lookupJ k t.props = some x) : k ≠ "__proto__" := by
  intro e
  subst e
  simp [Json.hasProto, Json.member, hx] at h

theorem arrayLikeLength_of_not_object {H : Heap} {v : Val} (h : isObject v = false) :
    arrayLikeLength H v = none := by
  simp [arrayLikeLength, h]

theorem mergeStep_fresh (rec : List (Nat × Nat) → Nat → Val → Heap → Except Exn Heap)
    (stack : List (Nat × Nat)) (object : Nat) (source : Val) (H : Heap) (key : String)
    (sc : Nat) (oc : Obj) (t : Json)
    (hsrc : getIn H source key = .obj sc) (hstack : stack.lookup sc = none)
    (hoc : H[sc]? = some oc) (hkind : oc.kind = t.kind) (hkp : key ≠ "__proto__")
    (hdst : isObject (getProp H (.obj object) key) = false) :
    mergeStep rec stack object source H key =
      mergeDeep rec stack object key sc none t.kind H := by
  unfold mergeStep
  simp only [hsrc, hstack, hkp, if_false]
  have hno : objAddr (getProp H (.obj object) key) = none ∧
      isArray H (getProp H (.obj object) key) = false := by
    cases hv : getProp H (.obj object) key <;> simp_all [isObject, objAddr, isArray]
  cases t with
  | arr xs =>
    have hk : oc.kind = Kind.array := hkind
    have h1 : isArray H (.obj sc) = true := by simp [isArray, hoc, hk]
    simp [h1, hno.2, arrayLikeLength_of_not_object hdst, Json.kind]
  | _ =>
    have hk : oc.kind = Kind.plain := hkind
    have h1 : isArray H (.obj sc) = false := by simp [isArray, hoc, hk]
    have h2 : isPlain H (.obj sc) = true := by simp [isPlain, hoc, hk]
    simp [h1, h2, hno.1, Json.kind]

theorem getElem?_append_left' {H ext : Heap} {c : Nat} (h : c < H.length) :
    (H ++ ext)[c]? = H[c]? :=
  List.getElem?_append_left h

theorem baseMerge_copy (H0 : Heap) :
    ∀ (n : Nat) (S : Json), S.size ≤ n → S.wf = true → S.isContainer = true →
      S.all (fun m => !m.hasProto) = true →
    ∀ (Hpre : Heap) (stack : List (Nat × Nat)) (sa : Nat),
      deepEq H0 (.obj sa) S = true → H0.length ≤ Hpre.length →
      (∀ c, c < H0.length → Hpre[c]? = H0[c]?) →
      (∀ p ∈ stack, ∀ k y m, (k, y) ∈ S.props → IsNode m y →
        deepEq H0 (.obj p.1) m = false) →
      ∃ H', baseMerge n stack Hpre.length (.obj sa) (Hpre ++ [⟨S.kind, []⟩]) = .ok H' ∧
        (∀ c, c < Hpre.length → H'[c]? = Hpre[c]?) ∧ Hpre.length < H'.length ∧
        treeAt H' S Hpre.length H'.length (.obj Hpre.length) := by
  intro n
  induction n with
  | zero => intro S h; have := S.size_pos; omega
  | succ n ih =>
    intro S hsz hwf hcont hSp Hpre stack sa hde hlen hfro hstack
    rw [Json.all_eq] at hSp
    simp only [Bool.and_eq_true, Bool.not_eq_true'] at hSp
    obtain ⟨a, o, ha, hH0, hk, hps⟩ := (deepEq_container hcont).1 hde
    obtain rfl : a = sa := by cases ha; rfl
    have hsa : a < H0.length := (List.getElem?_eq_some.1 hH0).1
    have hkeys := forall₂_keys hps
    have hnd : (o.props.map Prod.fst).Nodup := by
      rw [hkeys]; exact (Json.wf_props hwf).1
    have hne : (Val.obj a = Val.obj Hpre.length) = False := by
      simp only [Val.obj.injEq, eq_iff_iff, iff_false]; omega
    have hsrc0 : (Hpre ++ [(⟨S.kind, []⟩ : Obj)])[a]? = some o := by
      rw [getElem?_append_left' (by omega), hfro a hsa]; exact hH0
    unfold baseMerge
    simp only [hne, if_false, keysIn, objectKeys, hsrc0]
    have fold : ∀ (suf : List (String × Val)) (kvsuf : List (String × Json))
        (pre : List (String × Val)) (done : List (String × Json)) (H : Heap),
        o.props = pre ++ suf → S.props = done ++ kvsuf → List.Forall₂ (Rel H0) suf kvsuf →
        pre.map Prod.fst = done.map Prod.fst → Hpre.length < H.length →
        (∀ c, c < Hpre.length → H[c]? = Hpre[c]?) →
        (∃ dps, H[Hpre.length]? = some ⟨S.kind, dps⟩ ∧
          fieldsAt H done (Hpre.length + 1) H.length dps) →
        ∃ H', (suf.map Prod.fst).foldlM
            (mergeStep (baseMerge n) stack Hpre.length (.obj a)) H = .ok H' ∧
          Hpre.length < H'.length ∧ (∀ c, c < Hpre.length → H'[c]? = Hpre[c]?) ∧
          ∃ dps, H'[Hpre.length]? = some ⟨S.kind, dps⟩ ∧
            fieldsAt H' S.props (Hpre.length + 1) H'.length dps := by
      intro suf
      induction suf with
      | nil =>
        intro kvsuf pre done H _ h2 h3 _ h5 h6 h7
        cases h3
        simp only [List.append_nil] at h2
        rw [h2]
        exact ⟨H, rfl, h5, h6, h7⟩
      | cons p suf ihs =>
        intro kvsuf pre done H h1 h2 h3 h4 h5 h6 h7
        obtain ⟨dps, hd, hfa⟩ := h7
        cases h3 with
        | @cons _ kv _ kvs r rest =>
          obtain ⟨k, c⟩ := p
          obtain ⟨k', x⟩ := kv
          have hk' : k = k' := r.1
          subst hk'
          have hx : deepEq H0 c x = true := r.2
          have hmem : (k, x) ∈ S.props := by rw [h2]; simp
          have hkp : k ≠ "__proto__" :=
            key_ne_proto hSp.1 (lookupJ_of_mem (by rw [← hkeys]; exact hnd) hmem)
          have hnotin : k ∉ pre.map Prod.fst := by
            rw [h1, List.map_append, List.nodup_append] at hnd
            intro hin
            exact hnd.2.2 hin (by simp)
          have hassoc : assoc k o.props = some c := by
            rw [h1]; exact assoc_append_of_not_mem pre suf hnotin
          have hsrcH : H[a]? = some o := by rw [h6 a (by omega), hfro a hsa]; exact hH0
          have hget : getIn H (.obj a) k = c := by simp [getIn, getProp, hsrcH, hassoc]
          have hdk : dps.map Prod.fst = done.map Prod.fst := forall₂_keys (fieldsAt_facts _ _ _ _ hfa).2.1
          have hdnone : assoc k dps = none := by
            rw [assoc_none_iff, hdk, ← h4]; exact hnotin
          have hgetd : getProp H (.obj Hpre.length) k = .undefined := by
            simp [getProp, hd, hdnone]
          have hxwf := Json.wf_member hwf hmem
          have hxsz : x.size ≤ n := by have := Json.size_member hmem; omega
          -- the heap after this key
          have step : ∃ H1 v, mergeStep (baseMerge n) stack Hpre.length (.obj a) H k = .ok H1 ∧
              H.length ≤ H1.length ∧ (∀ c', c' < H.length → c' ≠ Hpre.length → H1[c']? = H[c']?) ∧
              H1[Hpre.length]? = some ⟨S.kind, dps ++ [(k, v)]⟩ ∧
              treeAt H1 x H.length H1.length v := by
            cases hxc : x.isContainer with
            | false =>
              have hcs := deepEq_scalar hxc hx
              have hcne := deepEq_ne_undefined hx
              refine ⟨assignMergeValue H Hpre.length k c, c, ?_, ?_, ?_, ?_, ?_⟩
              · rw [mergeStep_scalar _ _ _ _ _ _ (by rw [hget]; exact hcs.1), hget]
              · rw [assignMergeValue_length]
              · intro c' _ hc'; exact assignMergeValue_get_other _ _ _ _ _ hc'
              · rw [assignMergeValue_get_same _ _ _ _ _ hd hcne]
                simp [setKey_append_of_not_mem _ _ _ hdnone]
              · rw [assignMergeValue_length]
                exact (treeAt_scalar hxc).2 ⟨rfl, hcs.2 _⟩
            | true =>
              obtain ⟨sc, oc, hc, hoc0, hkc, _⟩ := (deepEq_container hxc).1 hx
              subst hc
              have hsc : sc < H0.length := (List.getElem?_eq_some.1 hoc0).1
              have hocH : H[sc]? = some oc := by rw [h6 sc (by omega), hfro sc hsc]; exact hoc0
              have hlk : stack.lookup sc = none := by
                apply lookup_none_of_forall
                intro p hp e
                have := hstack p hp k x x hmem .here
                rw [e, hx] at this
                cases this
              have hfroH : ∀ c', c' < H0.length → H[c']? = H0[c']? := by
                intro c' hc'; rw [h6 c' (by omega), hfro c' hc']
              obtain ⟨H2, e2, f2, l2, t2⟩ := ih x hxsz hxwf hxc (allFields_mem hSp.2 hmem) H
                ((sc, H.length) :: stack) sc hx
                (by omega) hfroH (by
                  intro p hp k' y m hy hm
                  rcases List.mem_cons.1 hp with hp | hp
                  · subst hp
                    cases hdm : deepEq H0 (Val.obj sc) m with
                    | false => rfl
                    | true =>
                      have e := deepEq_functional x.size x (le_refl _) H0 _ m hx hdm
                      have h1 := hm.size_le
                      have h2 := Json.size_member hy
                      rw [e] at h2
                      omega
                  · exact hstack p hp k x m hmem (IsNode.member hy hm))
              have hd2 : H2[Hpre.length]? = some ⟨S.kind, dps⟩ := by
                rw [f2 _ h5]; exact hd
              refine ⟨assignMergeValue H2 Hpre.length k (.obj H.length), .obj H.length,
                ?_, ?_, ?_, ?_, ?_⟩
              · rw [mergeStep_fresh _ _ _ _ _ _ sc oc x (by rw [hget]) hlk hocH hkc hkp
                  (by rw [hgetd]; rfl)]
                simp only [mergeDeep, e2, Except.map]
              · rw [assignMergeValue_length]; omega
              · intro c' h1' h2'
                rw [assignMergeValue_get_other _ _ _ _ _ h2', f2 c' h1']
              · rw [assignMergeValue_get_same _ _ _ _ _ hd2 (by simp)]
                simp [setKey_append_of_not_mem _ _ _ hdnone]
              · rw [assignMergeValue_length]
                apply (treeAt_facts _ x (le_refl _) H2 _ _ _ t2).2.2.2
                intro c' h1' _
                exact assignMergeValue_get_other _ _ _ _ _ (by omega)
          obtain ⟨H1, v, e1, l1, f1, d1, t1⟩ := step
          have hfa1 : fieldsAt H1 (done ++ [(k, x)]) (Hpre.length + 1) H1.length
              (dps ++ [(k, v)]) := by
            apply fieldsAt_snoc _ _ H.length _ _ _ t1
            apply (fieldsAt_facts _ _ _ _ hfa).2.2.2
            intro c' h1' h2'
            exact f1 c' h2' (by omega)
          obtain ⟨H', e', l', f', d'⟩ := ihs kvs (pre ++ [(k, c)]) (done ++ [(k, x)]) H1
            (by simp [h1]) (by simp [h2]) rest (by simp [h4]) (by omega)
            (by
              intro c' hc'
              rw [f1 c' (by omega) (by omega), h6 c' hc'])
            ⟨_, d1, hfa1⟩
          exact ⟨H', by simp [List.foldlM_cons, e1, e', bind, Except.bind], l', f', d'⟩
    obtain ⟨H', e', l', f', dps, d', fa'⟩ := fold o.props S.props [] [] (Hpre ++ [⟨S.kind, []⟩])
      rfl rfl hps rfl (by simp) (fun c hc => getElem?_append_left' hc)
      ⟨[], by simp, fieldsAt_nil.2 ⟨by simp, rfl⟩⟩
    exact ⟨H', e', f', l', (treeAt_container hcont).2 ⟨rfl, dps, d', fa'⟩⟩

/-! ## Lemmas: what a recursive merge may touch -/

theorem assignMergeValue_cases (H : Heap) (d : Nat) (k : String) (v : Val) (c : Nat) (o' : Obj)
    (h : (assignMergeValue H d k v)[c]? = some o') :
    H[c]? = some o' ∨
      (c = d ∧ ∃ o, H[d]? = some o ∧ o' = { o with props := setKey k v o.props }) := by
  unfold assignMergeValue at h
  split at h
  · by_cases e : c = d
    · subst e
      cases ho : H[c]? with
      | none =>
        simp [setProp, modifyAt, ho] at h
      | some o =>
        rw [setProp_get_same _ _ _ _ _ ho] at h
        cases h
        exact .inr ⟨rfl, o, rfl, rfl⟩
    · rw [setProp_get_other _ _ _ _ _ e] at h
      exact .inl h
  · exact .inl h

theorem assignMergeValue_closed {lo hi Lc : Nat} {H : Heap} (d : Nat) (k : String) (v : Val)
    (hc : ClosedA lo hi Lc H) (hv : ∀ p, v = .obj p → inA lo hi Lc p) :
    ClosedA lo hi Lc (assignMergeValue H d k v) := by
  intro c o' hin ho' p hp
  rcases assignMergeValue_cases H d k v c o' ho' with h | ⟨rfl, o, ho, rfl⟩
  · exact hc c o' hin h p hp
  · rcases pointers_setKey hp with h | h
    · exact hc c o hin ho p h
    · exact hv p h

theorem closedA_append {lo hi Lc : Nat} {H : Heap} (kind : Kind) (hc : ClosedA lo hi Lc H) :
    ClosedA lo hi Lc (H ++ [{ kind := kind, props := [] }]) := by
  intro c o hin ho p hp
  by_cases hlt : c < H.length
  · rw [getElem?_append_left' hlt] at ho
    exact hc c o hin ho p hp
  · by_cases he : c = H.length
    · subst he
      simp at ho
      subst ho
      simp [pointers] at hp
    · have : (H ++ [({ kind := kind, props := [] } : Obj)])[c]? = none := by
        apply List.getElem?_eq_none
        simp; omega
      rw [this] at ho; cases ho

theorem lookup_mem {sc d : Nat} : ∀ (stack : List (Nat × Nat)),
    stack.lookup sc = some d → (sc, d) ∈ stack := by
  intro stack
  induction stack with
  | nil => intro h; cases h
  | cons p stack ih =>
    intro h
    obtain ⟨a, b⟩ := p
    by_cases e : sc = a
    · subst e
      simp [List.lookup] at h
      subst h
      exact List.mem_cons_self _ _
    · have h2 : (sc == a) = false := by simpa using e
      simp only [List.lookup, h2] at h
      exact List.mem_cons_of_mem _ (ih h)

theorem arrayLikeLength_congr {H H' : Heap} {c : Nat} (h : H'[c]? = H[c]?) :
    arrayLikeLength H' (.obj c) = arrayLikeLength H (.obj c) := by
  simp only [arrayLikeLength, getProp, h]

theorem assignMergeValue_arrayLike (H : Heap) (d : Nat) (k : String) (v : Val) (c : Nat)
    (hk : k ≠ "length") :
    arrayLikeLength (assignMergeValue H d k v) (.obj c) = arrayLikeLength H (.obj c) := by
  by_cases e : c = d
  · subst e
    unfold assignMergeValue
    split
    · cases ho : H[c]? with
      | none => simp [setProp, modifyAt, ho]
      | some o =>
        simp only [arrayLikeLength, getProp, setProp_get_same _ _ _ _ _ ho, ho, assoc_setKey, hk,
          if_false]
    · rfl
  · exact arrayLikeLength_congr (assignMergeValue_get_other _ _ _ _ _ e)

theorem noLen_assign {lo hi Lc : Nat} {H : Heap} (d : Nat) (k : String) (v : Val)
    (h : NoLen lo hi Lc H) (hk : k ≠ "length") : NoLen lo hi Lc (assignMergeValue H d k v) := by
  intro c hc
  rw [assignMergeValue_arrayLike _ _ _ _ _ hk]
  exact h c hc

theorem noLen_append {lo hi Lc : Nat} {H : Heap} (kind : Kind) (h : NoLen lo hi Lc H) :
    NoLen lo hi Lc (H ++ [{ kind := kind, props := [] }]) := by
  intro c hc
  by_cases hlt : c < H.length
  · rw [arrayLikeLength_congr (getElem?_append_left' hlt)]
    exact h c hc
  · by_cases he : c = H.length
    · subst he
      simp [arrayLikeLength, getProp, assoc]
    · have : (H ++ [({ kind := kind, props := [] } : Obj)])[c]? = none := by
        apply List.getElem?_eq_none
        simp; omega
      simp [arrayLikeLength, getProp, this]

theorem noLen_getProp {lo hi Lc : Nat} {H : Heap} (hcl : ClosedA lo hi Lc H)
    (hn : NoLen lo hi Lc H) {dst : Nat} (hdst : inA lo hi Lc dst) (k : String) :
    arrayLikeLength H (getProp H (.obj dst) k) = none := by
  cases hv : getProp H (.obj dst) k with
  | obj oa =>
    apply hn
    cases hd1 : H[dst]? with
    | none => simp [getProp, hd1] at hv
    | some od =>
      simp only [getProp, hd1] at hv
      cases has : assoc k od.props with
      | none => simp [has] at hv
      | some w =>
        simp only [has, Option.getD_some] at hv
        subst hv
        exact hcl dst od hdst hd1 oa (mem_pointers.2 ⟨k, assoc_mem has⟩)
  | _ => simp [arrayLikeLength, isObject]

theorem key_ne_length {t x : Json} {k : String} (h : t.hasLength = false)
    (hx : lookupJ k t.props = some x) : k ≠ "length" := by
  intro e
  subst e
  simp [Json.hasLength, Json.member, hx] at h

theorem mergeStep_deep (rec : List (Nat × Nat) → Nat → Val → Heap → Except Exn Heap)
    (stack : List (Nat × Nat)) (object : Nat) (source : Val) (H : Heap) (key : String)
    (sc : Nat) (oc : Obj) (t : Json)
    (hsrc : getIn H source key = .obj sc) (hstack : stack.lookup sc = none)
    (hoc : H[sc]? = some oc) (hkind : oc.kind = t.kind) (hkp : key ≠ "__proto__")
    (hnal : arrayLikeLength H (getProp H (.obj object) key) = none) :
    ∃ dst, mergeStep rec stack object source H key =
        mergeDeep rec stack object key sc dst t.kind H ∧
      ∀ oa, dst = some oa → getProp H (.obj object) key = .obj oa ∧
        (t.kind = .array → isArray H (.obj oa) = true) := by
  unfold mergeStep
  simp only [hsrc, hstack, hkp, if_false]
  have haddr : ∀ oa, objAddr (getProp H (.obj object) key) = some oa →
      getProp H (.obj object) key = .obj oa := by
    intro oa h
    cases hv : getProp H (.obj object) key <;> simp_all [objAddr]
  cases t with
  | arr xs =>
    have hk : oc.kind = Kind.array := hkind
    have h1 : isArray H (.obj sc) = true := by simp [isArray, hoc, hk]
    refine ⟨(if isArray H (getProp H (Val.obj object) key) = true then
        objAddr (getProp H (Val.obj object) key) else none),
      (by
        simp only [h1, if_true, Json.kind, hnal]
        split <;> rfl), ?_⟩
    intro oa h
    split at h
    · rename_i hia
      have := haddr oa h
      exact ⟨this, fun _ => by rw [← this]; exact hia⟩
    · cases h
  | _ =>
    have hk : oc.kind = Kind.plain := hkind
    have h1 : isArray H (.obj sc) = false := by simp [isArray, hoc, hk]
    have h2 : isPlain H (.obj sc) = true := by simp [isPlain, hoc, hk]
    exact ⟨objAddr (getProp H (Val.obj object) key),
      (by simp only [h1, h2, if_true, Json.kind, Bool.false_eq_true, if_false]),
      fun oa h => ⟨haddr oa h, fun hh => by simp [Json.kind] at hh⟩⟩

theorem baseMerge_frame (H0 : Heap) (lo hi Lc : Nat) (hlo : H0.length ≤ lo)
    (hL : H0.length ≤ Lc) :
    ∀ (n : Nat) (S : Json), S.size ≤ n → S.isContainer = true →
      S.all (fun m => !m.hasLength) = true → S.all (fun m => !m.hasProto) = true →
    ∀ (H : Heap) (stack : List (Nat × Nat)) (dst sa : Nat),
      deepEq H0 (.obj sa) S = true → (∀ c, c < H0.length → H[c]? = H0[c]?) →
      Lc ≤ H.length → ClosedA lo hi Lc H → NoLen lo hi Lc H → inA lo hi Lc dst →
      (∀ p ∈ stack, inA lo hi Lc p.2) →
      ∃ H', baseMerge n stack dst (.obj sa) H = .ok H' ∧ H.length ≤ H'.length ∧
        (∀ c, ¬ inA lo hi Lc c → H'[c]? = H[c]?) ∧ ClosedA lo hi Lc H' ∧
        NoLen lo hi Lc H' := by
  intro n
  induction n with
  | zero => intro S h; have := S.size_pos; omega
  | succ n ih =>
    intro S hsz hcont hSall hSp H stack dst sa hde hfro hLc hcl hnl hdst hstack
    rw [Json.all_eq] at hSall hSp
    simp only [Bool.and_eq_true, Bool.not_eq_true'] at hSall hSp
    obtain ⟨a, o, ha, hH0, hk, hps⟩ := (deepEq_container hcont).1 hde
    obtain rfl : a = sa := by cases ha; rfl
    have hsa : a < H0.length := (List.getElem?_eq_some.1 hH0).1
    have hdge : H0.length ≤ dst := by
      rcases hdst with h | h <;> omega
    have hne : (Val.obj a = Val.obj dst) = False := by
      simp only [Val.obj.injEq, eq_iff_iff, iff_false]; omega
    have hnotA : ∀ c, c < H0.length → ¬ inA lo hi Lc c := by
      intro c hc h
      rcases h with h | h <;> omega
    have hsrc0 : H[a]? = some o := by rw [hfro a hsa]; exact hH0
    unfold baseMerge
    simp only [hne, if_false, keysIn, objectKeys, hsrc0]
    have fold : ∀ (keys : List String), (∀ k ∈ keys, k ∈ o.props.map Prod.fst) →
        ∀ (H1 : Heap), (∀ c, c < H0.length → H1[c]? = H0[c]?) → Lc ≤ H1.length →
          ClosedA lo hi Lc H1 → NoLen lo hi Lc H1 →
          ∃ H', keys.foldlM (mergeStep (baseMerge n) stack dst (.obj a)) H1 = .ok H' ∧
            H1.length ≤ H'.length ∧ (∀ c, ¬ inA lo hi Lc c → H'[c]? = H1[c]?) ∧
            ClosedA lo hi Lc H' ∧ NoLen lo hi Lc H' := by
      intro keys
      induction keys with
      | nil =>
        intro _ H1 _ _ h3 h4
        exact ⟨H1, rfl, le_refl _, fun _ _ => rfl, h3, h4⟩
      | cons k keys ihk =>
        intro hkeys H1 h1 h2 h3 h4
        have hsrc1 : H1[a]? = some o := by rw [h1 a hsa]; exact hH0
        have step : ∃ H2, mergeStep (baseMerge n) stack dst (.obj a) H1 k = .ok H2 ∧
            H1.length ≤ H2.length ∧ (∀ c, ¬ inA lo hi Lc c → H2[c]? = H1[c]?) ∧
            ClosedA lo hi Lc H2 ∧ NoLen lo hi Lc H2 := by
          rcases lookup_rel hps k with ⟨x, c, hx1, hx2, hx3⟩ | ⟨_, hx2⟩
          · have hget : getIn H1 (.obj a) k = c := by simp [getIn, getProp, hsrc1, hx2]
            have hmem : (k, x) ∈ S.props := mem_of_lookupJ hx1
            have hkl : k ≠ "length" := key_ne_length hSall.1 hx1
            have hkp : k ≠ "__proto__" := key_ne_proto hSp.1 hx1
            have hxall : x.all (fun m => !m.hasLength) = true := allFields_mem hSall.2 hmem
            have hxp : x.all (fun m => !m.hasProto) = true := allFields_mem hSp.2 hmem
            cases hxc : x.isContainer with
            | false =>
              have hcs := deepEq_scalar hxc hx3
              refine ⟨assignMergeValue H1 dst k c, ?_, ?_, ?_, ?_, noLen_assign _ _ _ h4 hkl⟩
              · rw [mergeStep_scalar _ _ _ _ _ _ (by rw [hget]; exact hcs.1), hget]
              · rw [assignMergeValue_length]
              · intro c' hc'
                apply assignMergeValue_get_other
                intro e; subst e; exact hc' hdst
              · apply assignMergeValue_closed _ _ _ h3
                intro p hp
                have := hcs.1
                rw [hp] at this
                cases this
            | true =>
              obtain ⟨sc, oc, hc, hoc0, hkc, _⟩ := (deepEq_container hxc).1 hx3
              subst hc
              have hsc : sc < H0.length := (List.getElem?_eq_some.1 hoc0).1
              have hoc1 : H1[sc]? = some oc := by rw [h1 sc hsc]; exact hoc0
              have hxsz : x.size ≤ n := by have := Json.size_member hmem; omega
              cases hlk : stack.lookup sc with
              | some stacked =>
                refine ⟨assignMergeValue H1 dst k (.obj stacked), ?_, ?_, ?_, ?_,
                  noLen_assign _ _ _ h4 hkl⟩
                · unfold mergeStep; simp only [hget, hlk, hkp, if_false]
                · rw [assignMergeValue_length]
                · intro c' hc'
                  apply assignMergeValue_get_other
                  intro e; subst e; exact hc' hdst
                · apply assignMergeValue_closed _ _ _ h3
                  intro p hp
                  cases hp
                  exact hstack _ (lookup_mem _ hlk)
              | none =>
                obtain ⟨dsto, e1, hdo⟩ := mergeStep_deep (baseMerge n) stack dst (.obj a) H1 k sc oc
                  x hget hlk hoc1 hkc hkp (noLen_getProp h3 h4 hdst k)
                rw [e1]
                cases dsto with
                | some oa =>
                  have hoa : inA lo hi Lc oa := by
                    have hg := (hdo oa rfl).1
                    cases hd1 : H1[dst]? with
                    | none => simp [getProp, hd1] at hg
                    | some od =>
                      simp only [getProp, hd1] at hg
                      cases has : assoc k od.props with
                      | none => simp [has] at hg
                      | some w =>
                        simp only [has, Option.getD_some] at hg
                        subst hg
                        exact h3 dst od hdst hd1 oa (mem_pointers.2 ⟨k, assoc_mem has⟩)
                  obtain ⟨H2, e2, l2, f2, c2, n2⟩ := ih x hxsz hxc hxall hxp H1 ((sc, oa) :: stack) oa sc
                    hx3 h1 h2 h3 h4 hoa (by
                      intro p hp
                      rcases List.mem_cons.1 hp with hp | hp
                      · subst hp; exact hoa
                      · exact hstack p hp)
                  refine ⟨assignMergeValue H2 dst k (.obj oa), ?_, ?_, ?_, ?_,
                    noLen_assign _ _ _ n2 hkl⟩
                  · simp only [mergeDeep, e2, Except.map]
                  · rw [assignMergeValue_length]; exact l2
                  · intro c' hc'
                    rw [assignMergeValue_get_other _ _ _ _ _ (by intro e; subst e; exact hc' hdst)]
                    exact f2 c' hc'
                  · apply assignMergeValue_closed _ _ _ c2
                    intro p hp; cases hp; exact hoa
                | none =>
                  have hfresh : inA lo hi Lc H1.length := .inr h2
                  obtain ⟨H2, e2, l2, f2, c2, n2⟩ := ih x hxsz hxc hxall hxp
                    (H1 ++ [{ kind := x.kind, props := [] }]) ((sc, H1.length) :: stack) H1.length
                    sc hx3
                    (by
                      intro c' hc'
                      rw [getElem?_append_left' (by omega)]
                      exact h1 c' hc')
                    (by simp; omega) (closedA_append _ h3) (noLen_append _ h4) hfresh (by
                      intro p hp
                      rcases List.mem_cons.1 hp with hp | hp
                      · subst hp; exact hfresh
                      · exact hstack p hp)
                  refine ⟨assignMergeValue H2 dst k (.obj H1.length), ?_, ?_, ?_, ?_,
                    noLen_assign _ _ _ n2 hkl⟩
                  · simp only [mergeDeep, e2, Except.map]
                  · rw [assignMergeValue_length]
                    simp at l2; omega
                  · intro c' hc'
                    rw [assignMergeValue_get_other _ _ _ _ _ (by intro e; subst e; exact hc' hdst),
                      f2 c' hc']
                    apply getElem?_append_left'
                    by_contra hge
                    exact hc' (.inr (by omega))
                  · apply assignMergeValue_closed _ _ _ c2
                    intro p hp; cases hp; exact hfresh
          · exfalso
            exact (assoc_none_iff.1 hx2) (hkeys k (List.mem_cons_self _ _))
        obtain ⟨H2, e2, l2, f2, c2, n2⟩ := step
        obtain ⟨H3, e3, l3, f3, c3, n3⟩ := ihk
          (fun k' hk' => hkeys k' (List.mem_cons_of_mem _ hk')) H2
          (by
            intro c hc
            rw [f2 c (hnotA c hc)]; exact h1 c hc)
          (by omega) c2 n2
        refine ⟨H3, by simp [List.foldlM_cons, e2, e3, bind, Except.bind], by omega, ?_, c3, n3⟩
        intro c hc
        rw [f3 c hc, f2 c hc]
    exact fold _ (fun _ h => h) H hfro hLc hcl hnl

/-! ## Lemmas: the members of a merged object -/

theorem lookupO_setKeyO (k k' : String) (v : Option Json) :
    ∀ (l : List (String × Option Json)),
      lookupO k' (setKeyO k v l) = if k = k' then some v else lookupO k' l := by
  intro l
  induction l with
  | nil => simp [setKeyO, lookupO]
  | cons p l ih =>
    obtain ⟨k1, v1⟩ := p
    by_cases e : k1 = k
    · subst e
      by_cases e' : k1 = k' <;> simp [setKeyO, lookupO, e']
    · by_cases e' : k1 = k'
      · subst e'
        simp [setKeyO, lookupO, e, Ne.symm e]
      · simp [setKeyO, lookupO, e, e', ih]

theorem keys_setKeyO (k : String) (v : Option Json) : ∀ (l : List (String × Option Json)),
    (setKeyO k v l).map Prod.fst =
      if k ∈ l.map Prod.fst then l.map Prod.fst else l.map Prod.fst ++ [k] := by
  intro l
  induction l with
  | nil => simp [setKeyO]
  | cons p l ih =>
    obtain ⟨k1, v1⟩ := p
    by_cases e : k1 = k
    · subst e; simp [setKeyO]
    · have e' : ¬ k = k1 := fun h => e h.symm
      simp only [setKeyO, e, if_false, List.map_cons, ih, List.mem_cons, e', false_or]
      split <;> simp

theorem keys_setKey (k : String) (v : Val) : ∀ (l : List (String × Val)),
    (setKey k v l).map Prod.fst =
      if k ∈ l.map Prod.fst then l.map Prod.fst else l.map Prod.fst ++ [k] := by
  intro l
  induction l with
  | nil => simp [setKey]
  | cons p l ih =>
    obtain ⟨k1, v1⟩ := p
    by_cases e : k1 = k
    · subst e; simp [setKey]
    · have e' : ¬ k = k1 := fun h => e h.symm
      simp only [setKey, e, if_false, List.map_cons, ih, List.mem_cons, e', false_or]
      split <;> simp

theorem lookupO_none_iff {k : String} : ∀ {l : List (String × Option Json)},
    lookupO k l = none ↔ k ∉ l.map Prod.fst := by
  intro l
  induction l with
  | nil => simp [lookupO]
  | cons p l ih =>
    obtain ⟨k1, v1⟩ := p
    by_cases e : k1 = k
    · simp [lookupO, e]
    · simp [lookupO, e, ih, Ne.symm e]

theorem lookupJ_none_iff {k : String} : ∀ {l : List (String × Json)},
    lookupJ k l = none ↔ k ∉ l.map Prod.fst := by
  intro l
  induction l with
  | nil => simp [lookupJ]
  | cons p l ih =>
    obtain ⟨k1, v1⟩ := p
    by_cases e : k1 = k
    · simp [lookupJ, e]
    · simp [lookupJ, e, ih, Ne.symm e]

theorem mergeTop_snoc (tkvs done : List (String × Json)) (k : String) (y : Json) :
    mergeTop tkvs (done ++ [(k, y)]) =
      setKeyO k (combine (lookupO k (mergeTop tkvs done)) y) (mergeTop tkvs done) := by
  simp [mergeTop, List.foldl_append]

theorem lookupO_map_some (k : String) : ∀ (tkvs : List (String × Json)),
    lookupO k (tkvs.map (fun kv => (kv.1, some kv.2))) = (lookupJ k tkvs).map some := by
  intro tkvs
  induction tkvs with
  | nil => rfl
  | cons p l ih =>
    obtain ⟨k1, v1⟩ := p
    by_cases e : k1 = k <;> simp [lookupO, lookupJ, e, ih]

theorem lookupO_mergeTop_of_not_mem (tkvs : List (String × Json)) (k : String) :
    ∀ (done : List (String × Json)), k ∉ done.map Prod.fst →
      lookupO k (mergeTop tkvs done) = (lookupJ k tkvs).map some := by
  intro done
  induction done using List.reverseRecOn with
  | nil => intro _; exact lookupO_map_some k tkvs
  | append_singleton done kv ih =>
    intro h
    obtain ⟨k1, y⟩ := kv
    simp only [List.map_append, List.map_cons, List.map_nil, List.mem_append, List.mem_singleton,
      not_or] at h
    rw [mergeTop_snoc, lookupO_setKeyO]
    have : ¬ k1 = k := fun e => h.2 e.symm
    simp [this, ih h.1]

theorem lookupO_mergeTop_of_mem (tkvs : List (String × Json)) (k : String) (y : Json) :
    ∀ (nkvs : List (String × Json)), (nkvs.map Prod.fst).Nodup → (k, y) ∈ nkvs →
      lookupO k (mergeTop tkvs nkvs) = some (combine ((lookupJ k tkvs).map some) y) := by
  intro nkvs
  induction nkvs using List.reverseRecOn with
  | nil => intro _ h; cases h
  | append_singleton done kv ih =>
    intro hnd h
    obtain ⟨k1, y1⟩ := kv
    rw [List.map_append, List.nodup_append] at hnd
    rw [mergeTop_snoc, lookupO_setKeyO]
    rcases List.mem_append.1 h with h | h
    · have hk : k ∈ done.map Prod.fst := List.mem_map_of_mem Prod.fst h
      have : ¬ k1 = k := by
        intro e; subst e
        exact hnd.2.2 hk (by simp)
      simp [this, ih hnd.1 h]
    · simp only [List.mem_singleton, Prod.mk.injEq] at h
      obtain ⟨rfl, rfl⟩ := h
      have hk : k ∉ done.map Prod.fst := fun hk => hnd.2.2 hk (by simp)
      simp [lookupO_mergeTop_of_not_mem tkvs k done hk]

theorem keys_mergeTop (tkvs : List (String × Json)) :
    ∀ (nkvs : List (String × Json)) (k : String),
      k ∈ (mergeTop tkvs nkvs).map Prod.fst ↔ (k ∈ tkvs.map Prod.fst ∨ k ∈ nkvs.map Prod.fst) := by
  intro nkvs
  induction nkvs using List.reverseRecOn with
  | nil => intro k; simp [mergeTop, Function.comp]
  | append_singleton done kv ih =>
    intro k
    obtain ⟨k1, y1⟩ := kv
    rw [mergeTop_snoc, keys_setKeyO]
    split
    · rename_i hin
      rw [ih k1] at hin
      rw [ih k]
      simp only [List.map_append, List.map_cons, List.map_nil, List.mem_append,
        List.mem_singleton]
      constructor
      · rintro (h | h)
        · exact .inl h
        · exact .inr (.inl h)
      · rintro (h | h | h)
        · exact .inl h
        · exact .inr h
        · subst h; exact hin
    · simp only [List.mem_append, List.mem_singleton, ih k, List.map_append, List.map_cons,
        List.map_nil]
      tauto

/-! ## Lemmas: merging the node into the copy of the target -/

theorem treeAt_stable {H H' : Heap} {t : Json} {lo hi : Nat} {v : Val}
    (h : treeAt H t lo hi v) (hag : ∀ c, lo ≤ c → c < hi → H'[c]? = H[c]?) :
    treeAt H' t lo hi v :=
  (treeAt_facts _ t (le_refl _) H lo hi v h).2.2.2 H' hag

theorem fieldsAt_intervals {H : Heap} : ∀ (kvs : List (String × Json)) (lo hi : Nat)
    (ps : List (String × Val)), fieldsAt H kvs lo hi ps →
      ∃ iv : String → Nat × Nat, (∀ k, lo ≤ (iv k).1 ∧ (iv k).2 ≤ hi) ∧
        (∀ k k', k ≠ k' → (iv k).2 ≤ (iv k').1 ∨ (iv k').2 ≤ (iv k).1) ∧
        (∀ k x, lookupJ k kvs = some x →
          ∃ v, assoc k ps = some v ∧ treeAt H x (iv k).1 (iv k).2 v) := by
  intro kvs
  induction kvs with
  | nil =>
    intro lo hi ps h
    obtain ⟨rfl, rfl⟩ := fieldsAt_nil.1 h
    exact ⟨fun _ => (lo, lo), fun _ => ⟨le_refl _, le_refl _⟩, fun _ _ _ => .inl (le_refl _),
      by intro k x hx; simp [lookupJ] at hx⟩
  | cons kv kvs ih =>
    intro lo hi ps h
    obtain ⟨k0, x0⟩ := kv
    obtain ⟨v0, rest, mid, rfl, ht, hr⟩ := fieldsAt_cons.1 h
    obtain ⟨iv, hb, hpw, hlk⟩ := ih mid hi rest hr
    have h1 : lo ≤ mid := (treeAt_facts _ x0 (le_refl _) H lo mid v0 ht).1.le
    have h2 : mid ≤ hi := (fieldsAt_facts _ _ _ _ hr).1.le
    refine ⟨fun k => if k = k0 then (lo, mid) else iv k, ?_, ?_, ?_⟩
    · intro k
      by_cases e : k = k0
      · simp [e]; omega
      · have := hb k; simp [e]; omega
    · intro k k' hne
      by_cases e : k = k0
      · have e' : ¬ k' = k0 := fun e' => hne (e.trans e'.symm)
        have := hb k'
        simp [e, e']; omega
      · by_cases e' : k' = k0
        · have := hb k
          simp [e, e']; omega
        · simpa [e, e'] using hpw k k' hne
    · intro k x hx
      by_cases e : k0 = k
      · subst e
        simp only [lookupJ, if_true, Option.some.injEq] at hx
        subst hx
        exact ⟨v0, by simp [assoc], by simpa using ht⟩
      · have e' : ¬ k = k0 := fun h => e h.symm
        simp only [lookupJ, e, if_false] at hx
        obtain ⟨v, hv, htv⟩ := hlk k x hx
        exact ⟨v, by simp [assoc, e, hv], by simpa [e'] using htv⟩

theorem arrayLikeLength_of_rel {H : Heap} {a : Nat} {o : Obj} {t : Json}
    (ho : H[a]? = some o) (hps : List.Forall₂ (Rel H) o.props t.props)
    (ht : t.arrayLike = false) : arrayLikeLength H (.obj a) = none := by
  rcases lookup_rel hps "length" with ⟨x, c, hx, hc, hd⟩ | ⟨_, hc⟩
  · have hg : getProp H (.obj a) "length" = c := by simp [getProp, ho, hc]
    simp only [arrayLikeLength, isObject, if_true, hg]
    cases c with
    | num n =>
      cases x <;> simp [deepEq] at hd
      subst hd
      simp only [Json.arrayLike, Json.member, hx, Bool.and_eq_false_imp, decide_eq_true_eq,
        decide_eq_false_iff_not] at ht
      have : ¬ (0 ≤ n ∧ n ≤ 9007199254740991) := fun h => ht h.1 h.2
      simp [this]
    | _ => rfl
  · simp [arrayLikeLength, getProp, ho, hc]

theorem treeAt_noLen : ∀ (n : Nat) (t : Json), t.size ≤ n →
    t.all (fun m => !m.arrayLike) = true → ∀ (H : Heap) (lo hi : Nat) (v : Val),
    treeAt H t lo hi v → ∀ c, lo ≤ c → c < hi → arrayLikeLength H (.obj c) = none := by
  intro n
  induction n with
  | zero => intro t h; have := t.size_pos; omega
  | succ n ih =>
    intro t hsz hall H lo hi v h c hc1 hc2
    rw [Json.all_eq] at hall
    simp only [Bool.and_eq_true, Bool.not_eq_true'] at hall
    cases hcont : t.isContainer with
    | false =>
      have := ((treeAt_scalar hcont).1 h).1
      omega
    | true =>
      obtain ⟨_, ps, hps, hfa⟩ := (treeAt_container hcont).1 h
      have fields : ∀ (kvs : List (String × Json)),
          (∀ kv ∈ kvs, kv.2.size ≤ n ∧ kv.2.all (fun m => !m.arrayLike) = true) →
          ∀ (lo hi : Nat) (ps : List (String × Val)), fieldsAt H kvs lo hi ps →
            ∀ c, lo ≤ c → c < hi → arrayLikeLength H (.obj c) = none := by
        intro kvs
        induction kvs with
        | nil =>
          intro _ lo hi ps hf c h1 h2
          have := (fieldsAt_nil.1 hf).1
          omega
        | cons kv kvs ihk =>
          intro hkv lo hi ps hf c h1 h2
          obtain ⟨k, x⟩ := kv
          obtain ⟨w, rest, mid, _, htx, hr⟩ := fieldsAt_cons.1 hf
          by_cases hm : c < mid
          · exact ih x (hkv _ (List.mem_cons_self _ _)).1 (hkv _ (List.mem_cons_self _ _)).2 H lo
              mid w htx c h1 hm
          · exact ihk (fun kv' h' => hkv kv' (List.mem_cons_of_mem _ h')) mid hi rest hr c
              (by omega) h2
      by_cases e : c = lo
      · subst e
        exact arrayLikeLength_of_rel hps (fieldsAt_facts _ _ _ _ hfa).2.1 hall.1
      · refine fields t.props ?_ (lo + 1) hi ps hfa c (by omega) hc2
        intro kv hkv
        have hm : (kv.1, kv.2) ∈ t.props := hkv
        exact ⟨by have := Json.size_member hm; omega, allFields_mem hall.2 hm⟩

theorem mergeInv_assign {H0 H H2 : Heap} {spec : List (String × Option Json)}
    (k : String) (v : Val) (e : Option Json)
    (dps : List (String × Val)) (iv : String → Nat × Nat)
    (hL : H0.length < H.length)
    (hkeys : dps.map Prod.fst = spec.map Prod.fst)
    (hb : ∀ k, H0.length < (iv k).1 ∧ (iv k).2 ≤ H.length)
    (hpw : ∀ k k', k ≠ k' → (iv k).2 ≤ (iv k').1 ∨ (iv k').2 ≤ (iv k).1)
    (hlk : ∀ k x, lookupO k spec = some (some x) →
      ∃ v, assoc k dps = some v ∧ treeAt H x (iv k).1 (iv k).2 v)
    (hlen : H.length ≤ H2.length)
    (hcell2 : H2[H0.length]? = some ⟨.plain, dps⟩)
    (hfro2 : ∀ c, c < H0.length → H2[c]? = H0[c]?)
    (hstab : ∀ k1, k1 ≠ k → ∀ c, (iv k1).1 ≤ c → c < (iv k1).2 → H2[c]? = H[c]?)
    (hv : v ≠ .undefined)
    (hnew : ∀ x, e = some x → ∃ lo hi, treeAt H2 x lo hi v ∧ H0.length < lo ∧ hi ≤ H2.length ∧
      ∀ k1, k1 ≠ k → (iv k1).2 ≤ lo ∨ hi ≤ (iv k1).1) :
    MergeInv H0 (setKeyO k e spec) (assignMergeValue H2 H0.length k v) := by
  have hkeys' : (setKey k v dps).map Prod.fst = (setKeyO k e spec).map Prod.fst := by
    rw [keys_setKey, keys_setKeyO, hkeys]
  have hother : ∀ k1 x, k1 ≠ k → lookupO k1 spec = some (some x) → ∀ (lo hi : Nat),
      (iv k1).1 = lo → (iv k1).2 = hi →
      ∃ v1, assoc k1 (setKey k v dps) = some v1 ∧
        treeAt (assignMergeValue H2 H0.length k v) x lo hi v1 := by
    intro k1 x hne hx lo hi hlo hhi
    obtain ⟨v1, hv1, ht1⟩ := hlk k1 x hx
    refine ⟨v1, by rw [assoc_setKey]; simp [Ne.symm hne, hv1], ?_⟩
    rw [← hlo, ← hhi]
    apply treeAt_stable ht1
    intro c h1 h2
    have := hb k1
    rw [assignMergeValue_get_other _ _ _ _ _ (by omega)]
    exact hstab k1 hne c h1 h2
  refine ⟨by rw [assignMergeValue_length]; omega, ?_, ?_⟩
  · intro c hc
    rw [assignMergeValue_get_other _ _ _ _ _ (by omega)]
    exact hfro2 c hc
  cases e with
  | none =>
    refine ⟨setKey k v dps, iv, by rw [assignMergeValue_get_same _ _ _ _ _ hcell2 hv], hkeys',
      ?_, hpw, ?_⟩
    · intro k1; have := hb k1; rw [assignMergeValue_length]; omega
    · intro k1 x hx
      rw [lookupO_setKeyO] at hx
      by_cases e1 : k = k1
      · simp [e1] at hx
      · simp only [e1, if_false] at hx
        exact hother k1 x (fun h => e1 h.symm) hx _ _ rfl rfl
  | some y =>
    obtain ⟨lo, hi, ht, hlo, hhi, hdis⟩ := hnew y rfl
    refine ⟨setKey k v dps, fun k1 => if k1 = k then (lo, hi) else iv k1,
      by rw [assignMergeValue_get_same _ _ _ _ _ hcell2 hv], hkeys', ?_, ?_, ?_⟩
    · intro k1
      rw [assignMergeValue_length]
      by_cases e1 : k1 = k
      · simp [e1]; omega
      · have := hb k1; simp [e1]; omega
    · intro k1 k2 hne
      by_cases e1 : k1 = k
      · have e2 : ¬ k2 = k := fun e2 => hne (e1.trans e2.symm)
        have := hdis k2 e2
        simp [e1, e2]; omega
      · by_cases e2 : k2 = k
        · have := hdis k1 e1
          simp [e1, e2]; omega
        · simpa [e1, e2] using hpw k1 k2 hne
    · intro k1 x hx
      rw [lookupO_setKeyO] at hx
      by_cases e1 : k = k1
      · subst e1
        simp only [if_true, Option.some.injEq] at hx
        subst hx
        refine ⟨v, by rw [assoc_setKey]; simp, ?_⟩
        simp only [if_true]
        apply treeAt_stable ht
        intro c h1 h2
        exact assignMergeValue_get_other _ _ _ _ _ (by omega)
      · simp only [e1, if_false] at hx
        have e1' : ¬ k1 = k := fun h => e1 h.symm
        simpa [e1'] using hother k1 x e1' hx _ _ rfl rfl

theorem combine_some {old : Option (Option Json)} {y x : Json} (h : combine old y = some x) :
    x = y := by
  unfold combine at h
  split at h
  · cases h; rfl
  · split at h
    · cases h; rfl
    · cases h
    · split at h
      · cases h; rfl
      · split at h
        · cases h; rfl
        · cases h

theorem Json.kind_cases (t : Json) : t.kind = .array ∨ t.kind = .plain := by
  cases t <;> simp [Json.kind]

/-- One key of the node merged into the copy of the target. -/
theorem mergeTop_step (H0 : Heap) (n : Nat) (spec : List (String × Option Json)) (H : Heap)
    (na : Nat) (o : Obj) (k : String) (c : Val) (y : Json)
    (hna : H0[na]? = some o) (hassoc : assoc k o.props = some c)
    (hy : deepEq H0 c y = true) (hysz : y.size ≤ n) (hywf : y.wf = true)
    (hold : lookupO k spec ≠ some none)
    (hkp : k ≠ "__proto__") (hyp : y.all (fun m => !m.hasProto) = true)
    (hyl : y.all (fun m => !m.hasLength) = true)
    (hxl : ∀ x, lookupO k spec = some (some x) → x.all (fun m => !m.arrayLike) = true)
    (hinv : MergeInv H0 spec H) :
    ∃ H', mergeStep (baseMerge n) [] H0.length (.obj na) H k = .ok H' ∧
      MergeInv H0 (setKeyO k (combine (lookupO k spec) y) spec) H' := by
  obtain ⟨hL, hfro, dps, iv, hcell, hkeys, hb, hpw, hlk⟩ := hinv
  have hnalt : na < H0.length := (List.getElem?_eq_some.1 hna).1
  have hsrcH : H[na]? = some o := by rw [hfro na hnalt]; exact hna
  have hget : getIn H (.obj na) k = c := by simp [getIn, getProp, hsrcH, hassoc]
  cases hyc : y.isContainer with
  | false =>
    have hcs := deepEq_scalar hyc hy
    have hcomb : combine (lookupO k spec) y = some y := by simp [combine, hyc]
    refine ⟨assignMergeValue H H0.length k c, ?_, ?_⟩
    · rw [mergeStep_scalar _ _ _ _ _ _ (by rw [hget]; exact hcs.1), hget]
    · rw [hcomb]
      refine mergeInv_assign k c (some y) dps iv hL hkeys hb hpw hlk (le_refl _) hcell hfro
        (fun _ _ _ _ _ => rfl) (deepEq_ne_undefined hy) ?_
      intro x hx
      cases hx
      exact ⟨H.length, H.length, (treeAt_scalar hyc).2 ⟨rfl, hcs.2 _⟩, hL, le_refl _,
        fun k1 _ => .inl (hb k1).2⟩
  | true =>
    obtain ⟨sc, oc, hc, hoc0, hkc, _⟩ := (deepEq_container hyc).1 hy
    subst hc
    have hsc : sc < H0.length := (List.getElem?_eq_some.1 hoc0).1
    have hocH : H[sc]? = some oc := by rw [hfro sc hsc]; exact hoc0
    have hnal : arrayLikeLength H (getProp H (.obj H0.length) k) = none := by
      cases hl : lookupO k spec with
      | none =>
        have hni : assoc k dps = none := by
          rw [assoc_none_iff, hkeys]; exact lookupO_none_iff.1 hl
        simp [getProp, hcell, hni, arrayLikeLength, isObject]
      | some e =>
        cases e with
        | none => exact absurd hl hold
        | some x =>
          obtain ⟨v, hv, ht⟩ := hlk k x hl
          have hg : getProp H (.obj H0.length) k = v := by simp [getProp, hcell, hv]
          rw [hg]
          cases hxc : x.isContainer with
          | false =>
            exact arrayLikeLength_of_not_object (deepEq_scalar hxc ((treeAt_scalar hxc).1 ht).2).1
          | true =>
            obtain ⟨rfl, ps, hps, _⟩ := (treeAt_container hxc).1 ht
            have hb' := (treeAt_facts _ x (le_refl _) H _ _ _ ht).2.2.1 _ rfl
            exact treeAt_noLen _ x (le_refl _) (hxl x hl) H _ _ _ ht _ (le_refl _) hb'.2
    obtain ⟨dst, hms, hdst⟩ := mergeStep_deep (baseMerge n) [] H0.length (.obj na) H k sc oc y
      (by rw [hget]) rfl hocH hkc hkp hnal
    cases dst with
    | none =>
      obtain ⟨H2, e2, f2, l2, t2⟩ := baseMerge_copy H0 n y hysz hywf hyc hyp H [(sc, H.length)] sc
        hy
        (by omega) hfro (by
          intro p hp k' y' m hy' hm
          obtain rfl : p = (sc, H.length) := by simpa using hp
          cases hdm : deepEq H0 (Val.obj sc) m with
          | false => rfl
          | true =>
            have e := deepEq_functional y.size y (le_refl _) H0 _ m hy hdm
            have h1 := hm.size_le
            have h2 := Json.size_member hy'
            rw [e] at h2
            omega)
      refine ⟨assignMergeValue H2 H0.length k (.obj H.length), ?_, ?_⟩
      · rw [hms]; simp only [mergeDeep, e2, Except.map]
      · refine mergeInv_assign k (.obj H.length) _ dps iv hL hkeys hb hpw hlk (by omega)
          (by rw [f2 _ hL]; exact hcell) (fun c hc => by rw [f2 c (by omega)]; exact hfro c hc)
          (fun k1 _ c _ h2 => f2 c (by have := hb k1; omega)) (by simp) ?_
        intro x hx
        obtain rfl := combine_some hx
        exact ⟨H.length, H2.length, t2, hL, le_refl _, fun k1 _ => .inl (hb k1).2⟩
    | some oa =>
      obtain ⟨hgp, hArr⟩ := hdst oa rfl
      have hdv : assoc k dps = some (.obj oa) := by
        simp only [getProp, hcell] at hgp
        cases ha : assoc k dps with
        | none => simp [ha] at hgp
        | some w => simp [ha] at hgp; rw [hgp]
      have hin : k ∈ spec.map Prod.fst := by
        rw [← hkeys]
        by_contra hni
        rw [← assoc_none_iff, hdv] at hni
        cases hni
      obtain ⟨x, hx⟩ : ∃ x, lookupO k spec = some (some x) := by
        cases hl : lookupO k spec with
        | none => exact absurd hin (lookupO_none_iff.1 hl)
        | some e =>
          cases e with
          | none => exact absurd hl hold
          | some x => exact ⟨x, rfl⟩
      obtain ⟨v, hv, ht⟩ := hlk k x hx
      obtain rfl : v = .obj oa := by rw [hdv] at hv; cases hv; rfl
      have hfacts := treeAt_facts _ x (le_refl _) H _ _ _ ht
      have hxc : x.isContainer = true := by
        rw [← deepEq_isObject hfacts.2.1]; rfl
      obtain ⟨hoa, ps, hps, _⟩ := (treeAt_container hxc).1 ht
      have hoa' : oa = (iv k).1 := by cases hoa; rfl
      have hrange := hfacts.2.2.1 oa rfl
      have hcomb : combine (lookupO k spec) y = none := by
        have hnot : ¬ (y.kind = Kind.array ∧ x.kind = Kind.plain) := by
          rintro ⟨h1, h2⟩
          have := hArr h1
          rw [hoa'] at this
          simp [isArray, hps, h2] at this
        simp [combine, hx, hyc, hxc, hnot]
      have hbk := hb k
      obtain ⟨H2, e2, l2, f2, _⟩ := baseMerge_frame H0 (iv k).1 (iv k).2 H.length (by omega)
        (by omega) n y hysz hyc hyl hyp H [(sc, oa)] oa sc hy hfro (le_refl _)
        (by
          intro c' o' hin' ho' p hp
          rcases hin' with hin' | hin'
          · exact .inl (hfacts.1.closed c' o' hin'.1 hin'.2 ho' p hp)
          · have : H[c']? = none := List.getElem?_eq_none (by omega)
            rw [this] at ho'; cases ho')
        (by
          intro c' hin'
          rcases hin' with hin' | hin'
          · exact treeAt_noLen _ x (le_refl _) (hxl x hx) H _ _ _ ht c' hin'.1 hin'.2
          · have : H[c']? = none := List.getElem?_eq_none (by omega)
            simp [arrayLikeLength, getProp, this])
        (.inl hrange)
        (by intro p hp; obtain rfl : p = (sc, oa) := by simpa using hp
            exact .inl hrange)
      have hout : ∀ c', c' < H.length → ¬ ((iv k).1 ≤ c' ∧ c' < (iv k).2) → H2[c']? = H[c']? := by
        intro c' h1 h2
        apply f2
        rintro (h | h)
        · exact h2 h
        · omega
      refine ⟨assignMergeValue H2 H0.length k (.obj oa), ?_, ?_⟩
      · rw [hms]; simp only [mergeDeep, e2, Except.map]
      · rw [hcomb]
        refine mergeInv_assign k (.obj oa) none dps iv hL hkeys hb hpw hlk l2
          (by rw [hout _ hL (by omega)]; exact hcell)
          (fun c' hc' => by rw [hout c' (by omega) (by omega)]; exact hfro c' hc')
          (fun k1 hk1 c' h1 h2 => hout c' (by have := hb k1; omega) (by
            have := hpw k1 k hk1
            omega))
          (by simp) (by intro x' hx'; cases hx')

theorem key_ne_proto_of_mem {t x : Json} {k : String} (h : t.hasProto = false)
    (hm : (k, x) ∈ t.props) : k ≠ "__proto__" := by
  intro e
  subst e
  have hn : lookupJ "__proto__" t.props = none := by
    simpa [Json.hasProto, Json.member] using h
  exact lookupJ_none_iff.1 hn (List.mem_map_of_mem Prod.fst hm)

/-- The node merged key by key into the copy of the target. -/
theorem mergeTop_fold (H0 : Heap) (n : Nat) (tkvs nkvs : List (String × Json)) (na : Nat)
    (o : Obj) (hna : H0[na]? = some o) (hnd : (o.props.map Prod.fst).Nodup)
    (hsz : ∀ kv ∈ nkvs, kv.2.size ≤ n) (hwf : ∀ kv ∈ nkvs, kv.2.wf = true)
    (htl : allFields (fun m => !m.arrayLike) tkvs = true)
    (hnl : allFields (fun m => !m.hasLength) nkvs = true)
    (hnp : (Json.obj nkvs).all (fun m => !m.hasProto) = true) :
    ∀ (suf : List (String × Val)) (kvsuf : List (String × Json))
      (pre : List (String × Val)) (done : List (String × Json)) (H : Heap),
      o.props = pre ++ suf → nkvs = done ++ kvsuf → List.Forall₂ (Rel H0) suf kvsuf →
      pre.map Prod.fst = done.map Prod.fst → MergeInv H0 (mergeTop tkvs done) H →
      ∃ H', (suf.map Prod.fst).foldlM (mergeStep (baseMerge n) [] H0.length (.obj na)) H
          = .ok H' ∧ MergeInv H0 (mergeTop tkvs nkvs) H' := by
  intro suf
  induction suf with
  | nil =>
    intro kvsuf pre done H _ h2 h3 _ h5
    cases h3
    simp only [List.append_nil] at h2
    rw [h2]
    exact ⟨H, rfl, h5⟩
  | cons p suf ihs =>
    intro kvsuf pre done H h1 h2 h3 h4 h5
    cases h3 with
    | @cons _ kv _ kvs r rest =>
      obtain ⟨k, c⟩ := p
      obtain ⟨k', y⟩ := kv
      have hk' : k = k' := r.1
      subst hk'
      have hy : deepEq H0 c y = true := r.2
      have hmem : (k, y) ∈ nkvs := by rw [h2]; simp
      have hnotin : k ∉ pre.map Prod.fst := by
        rw [h1, List.map_append, List.nodup_append] at hnd
        intro hin
        exact hnd.2.2 hin (by simp)
      have hassoc : assoc k o.props = some c := by
        rw [h1]; exact assoc_append_of_not_mem pre suf hnotin
      have hold : lookupO k (mergeTop tkvs done) ≠ some none := by
        rw [lookupO_mergeTop_of_not_mem tkvs k done (by rw [← h4]; exact hnotin)]
        cases lookupJ k tkvs <;> simp
      have hlook := lookupO_mergeTop_of_not_mem tkvs k done (by rw [← h4]; exact hnotin)
      have hnp' := hnp
      rw [Json.all_eq] at hnp'
      simp only [Bool.and_eq_true, Bool.not_eq_true'] at hnp'
      have hkp : k ≠ "__proto__" := key_ne_proto_of_mem (t := .obj nkvs) hnp'.1 hmem
      obtain ⟨H1, e1, inv1⟩ := mergeTop_step H0 n (mergeTop tkvs done) H na o k c y hna hassoc hy
        (hsz _ hmem) (hwf _ hmem) hold hkp (allFields_mem hnp'.2 hmem) (allFields_mem hnl hmem)
        (by
          intro x hx
          rw [hlook] at hx
          cases hl : lookupJ k tkvs with
          | none => simp [hl] at hx
          | some x' =>
            simp [hl] at hx
            subst hx
            exact allFields_mem htl (mem_of_lookupJ hl))
        h5
      rw [← mergeTop_snoc] at inv1
      obtain ⟨H', e', inv'⟩ := ihs kvs (pre ++ [(k, c)]) (done ++ [(k, y)]) H1
        (by simp [h1]) (by simp [h2]) rest (by simp [h4]) inv1
      exact ⟨H', by simp [List.foldlM_cons, e1, e', bind, Except.bind], inv'⟩

/-- The heap after `merge({}, target, node)` for two mappings. -/
theorem merge_inv (H0 : Heap) (fuel : Nat) (tv nv : Val) (tkvs nkvs : List (String × Json))
    (ht : deepEq H0 tv (.obj tkvs) = true) (hn : deepEq H0 nv (.obj nkvs) = true)
    (htwf : (Json.obj tkvs).wf = true) (hnwf : (Json.obj nkvs).wf = true)
    (htsz : (Json.obj tkvs).size ≤ fuel) (hnsz : (Json.obj nkvs).size ≤ fuel)
    (htl : allFields (fun m => !m.arrayLike) tkvs = true)
    (hnl : allFields (fun m => !m.hasLength) nkvs = true)
    (htp : (Json.obj tkvs).all (fun m => !m.hasProto) = true)
    (hnp : (Json.obj nkvs).all (fun m => !m.hasProto) = true) :
    ∃ H', merge fuel H0 [tv, nv] = .ok (.obj H0.length, H') ∧
      MergeInv H0 (mergeTop tkvs nkvs) H' := by
  obtain ⟨ta, ot, rfl, -, -, -⟩ := (deepEq_container (t := .obj tkvs) rfl).1 ht
  obtain ⟨na, o, rfl, hna, hko, hps⟩ := (deepEq_container (t := .obj nkvs) rfl).1 hn
  have hnalt : na < H0.length := (List.getElem?_eq_some.1 hna).1
  -- the target is copied
  obtain ⟨H1, e1, f1, l1, t1⟩ := baseMerge_copy H0 fuel (.obj tkvs) htsz htwf rfl htp H0 [] ta ht
    (le_refl _) (fun _ _ => rfl) (by intro p hp; cases hp)
  obtain ⟨_, dps, hd, hfa⟩ := (treeAt_container (t := .obj tkvs) rfl).1 t1
  obtain ⟨iv, hb, hpw, hlk⟩ := fieldsAt_intervals _ _ _ _ hfa
  have inv1 : MergeInv H0 (mergeTop tkvs []) H1 := by
    refine ⟨l1, f1, dps, iv, hd, ?_, ?_, hpw, ?_⟩
    · rw [forall₂_keys (fieldsAt_facts _ _ _ _ hfa).2.1]
      simp [mergeTop, Json.props, Function.comp]
    · intro k; have := hb k; omega
    · intro k x hx
      rw [show mergeTop tkvs [] = tkvs.map (fun kv => (kv.1, some kv.2)) from rfl,
        lookupO_map_some] at hx
      cases hl : lookupJ k tkvs with
      | none => simp [hl] at hx
      | some x' =>
        simp [hl] at hx
        subst hx
        exact hlk k x' hl
  -- the node is merged in
  obtain ⟨n, rfl⟩ : ∃ n, fuel = n + 1 := by
    have := (Json.obj nkvs).size_pos
    exact ⟨fuel - 1, by omega⟩
  have hkeys := forall₂_keys hps
  have hnd : (o.props.map Prod.fst).Nodup := by
    rw [hkeys]; exact (Json.wf_props hnwf).1
  obtain ⟨H2, e2, inv2⟩ := mergeTop_fold H0 n tkvs nkvs na o hna hnd
    (fun kv hkv => by
      have := Json.size_member (t := .obj nkvs) (k := kv.1) (x := kv.2) hkv
      omega)
    (fun kv hkv => Json.wf_member (t := .obj nkvs) (k := kv.1) (x := kv.2) hnwf hkv) htl hnl
    hnp o.props nkvs [] [] H1 rfl rfl hps rfl inv1
  refine ⟨H2, ?_, inv2⟩
  have hne : (Val.obj na = Val.obj H0.length) = False := by
    simp only [Val.obj.injEq, eq_iff_iff, iff_false]; omega
  have hsrc1 : H1[na]? = some o := by rw [f1 na hnalt]; exact hna
  have e1' : baseMerge (n + 1) [] H0.length (.obj ta)
      (H0 ++ [({ kind := .plain, props := [] } : Obj)]) = .ok H1 := e1
  have e2' : baseMerge (n + 1) [] H0.length (.obj na) H1 = .ok H2 := by
    rw [baseMerge]
    simp only [hne, if_false, keysIn, objectKeys, hsrc1]
    exact e2
  simp [merge, truthy, List.foldlM_cons, e1', e2', bind, Except.bind, Except.map, pure,
    Except.pure]

/-! ## Lemmas: the visitor at a local reference with `mergeAdditionalProperties` -/

theorem delProp_length (H : Heap) (v : Val) (k : String) : (delProp H v k).length = H.length := by
  unfold delProp
  split
  · exact modifyAt_length _ _ _
  · rfl

theorem preMerge_length (o : Options) (H : Heap) (target node : Val) :
    (preMerge o H target node).length = H.length := by
  unfold preMerge
  rw [delProp_length]
  split
  · exact delProp_length _ _ _
  · rfl

theorem mergeInv_members {H0 H' : Heap} {spec : List (String × Option Json)}
    (h : MergeInv H0 spec H') :
    (∀ k, hasOwn H' (.obj H0.length) k = true ↔ k ∈ spec.map Prod.fst) ∧
    (∀ k x, lookupO k spec = some (some x) →
      deepEq H' (getProp H' (.obj H0.length) k) x = true) := by
  obtain ⟨_, _, dps, iv, hcell, hkeys, _, _, hlk⟩ := h
  constructor
  · intro k
    rw [← hkeys]
    simp only [hasOwn, hcell]
    cases ha : assoc k dps with
    | none => simpa using assoc_none_iff.1 ha
    | some v =>
      simp only [Option.isSome_some, true_iff]
      by_contra hni
      rw [← assoc_none_iff, ha] at hni
      cases hni
  · intro k x hx
    obtain ⟨v, hv, ht⟩ := hlk k x hx
    have : getProp H' (.obj H0.length) k = v := by simp [getProp, hcell, hv]
    rw [this]
    exact (treeAt_facts _ x (le_refl _) H' _ _ _ ht).2.1

theorem combine_of_siblingWins {old : Option Json} {y : Json} (h : siblingWins old y = true) :
    combine (old.map some) y = some y := by
  unfold siblingWins at h
  unfold combine
  cases hy : y.isContainer with
  | false => simp
  | true =>
    simp only [hy, Bool.not_true, Bool.false_or] at h
    cases old with
    | none => simp
    | some x =>
      cases hx : x.isContainer with
      | false => simp [hx]
      | true =>
        simp only [hx, Bool.not_true, Bool.false_or, Bool.and_eq_true, decide_eq_true_eq] at h
        simp [hx, h.1, h.2]

/-- The members of `merge({}, target, node)` in terms of the two documents. -/
theorem mergeTop_members (tkvs nkvs : List (String × Json))
    (hnd : (nkvs.map Prod.fst).Nodup) :
    (∀ k, k ∈ (mergeTop tkvs nkvs).map Prod.fst ↔
      ((lookupJ k tkvs).isSome = true ∨ (lookupJ k nkvs).isSome = true)) ∧
    (∀ k x, lookupJ k nkvs = none → lookupJ k tkvs = some x →
      lookupO k (mergeTop tkvs nkvs) = some (some x)) ∧
    (∀ k y, lookupJ k nkvs = some y → siblingWins (lookupJ k tkvs) y = true →
      lookupO k (mergeTop tkvs nkvs) = some (some y)) := by
  have hsome : ∀ (k : String) (l : List (String × Json)),
      (lookupJ k l).isSome = true ↔ k ∈ l.map Prod.fst := by
    intro k l
    cases hl : lookupJ k l with
    | none => simpa using lookupJ_none_iff.1 hl
    | some v =>
      simp only [Option.isSome_some, true_iff]
      by_contra hni
      rw [← lookupJ_none_iff, hl] at hni
      cases hni
  refine ⟨?_, ?_, ?_⟩
  · intro k
    rw [keys_mergeTop, hsome, hsome]
  · intro k x h1 h2
    rw [lookupO_mergeTop_of_not_mem tkvs k nkvs (lookupJ_none_iff.1 h1), h2]
    rfl
  · intro k y h1 h2
    rw [lookupO_mergeTop_of_mem tkvs k y nkvs hnd (mem_of_lookupJ h1), combine_of_siblingWins h2]

/-- What the visitor does at a node with a string `$ref` whose reference the
    history accepts and for which `getRefSchema` returns a value: the entry of
    the history is popped, `$id` is deleted from the value if asked, the siblings
    are merged over a copy of it if asked, and the result replaces the node. -/
theorem derefVisit_resolved (env : Env) (loaders : Loaders)
    (recur : Val → Options → State → Heap → Except Exn (Res × World)) (fuel : Nat)
    (schema : Val) (path : List String) (node : Val) (s : State × Options) (H : Heap)
    (r0 : String) (st1 st2 : State) (target : Val) (o3 : Options) (st3 : State) (H3 : Heap)
    (href : getProp H node "$ref" = .str r0)
    (hadd : addToHistory env s.1 (getRefType env H node) (getRefValue H node) = .ok (true, st1))
    (hcur : setCurrent st1 (getRefType env H node) (getRefValue H node) = .ok st2)
    (hres : getRefSchema loaders recur (getRefValue H node) (getRefType env H node) schema s.2
      st2 H = .ok (target, o3, st3, H3))
    (hdef : target ≠ .undefined)
    (hnull : o3.removeIds = false ∨ hasOwnThrows H3 target = false) :
    derefVisit env loaders recur fuel schema path node s H =
      (if o3.mergeAdditionalProperties then
        match merge fuel (preMerge o3 H3 target node) [target, node] with
        | .error e => .error e
        | .ok (merged, H5) =>
          .ok (({ st3 with history := st3.history.dropLast,
                           missing := st3.missing.erase (getRefValue H node) }, o3), H5,
            some ⟨merged, false⟩)
      else
        .ok (({ st3 with history := st3.history.dropLast,
                         missing := st3.missing.erase (getRefValue H node) }, o3),
          (if o3.removeIds && hasOwn H3 target "$id" then delProp H3 target "$id" else H3),
          some ⟨target, false⟩)) := by
  have hnull' : (o3.removeIds && hasOwnThrows H3 target) = false := by
    rcases hnull with h | h
    · simp [h]
    · simp [h]
  cases node with
  | obj a =>
    simp only [derefVisit, href, strOf, hadd, hcur, hres, hdef, hnull', if_false,
      Bool.false_eq_true, preMerge]
  | _ => simp [getProp] at href

/-- The visitor at a reference node with `mergeAdditionalProperties`, when the
    reference is accepted and resolved to a mapping: the node is replaced by a
    fresh object, the merge of the target and of the node. -/
theorem derefVisit_merge (env : Env) (loaders : Loaders)
    (recur : Val → Options → State → Heap → Except Exn (Res × World)) (fuel : Nat)
    (schema : Val) (path : List String) (node : Val) (s : State × Options) (H : Heap)
    (r0 : String) (st1 st2 : State) (target : Val) (o3 : Options) (st3 : State) (H3 : Heap)
    (tkvs nkvs : List (String × Json))
    (href : getProp H node "$ref" = .str r0)
    (hadd : addToHistory env s.1 (getRefType env H node) (getRefValue H node) = .ok (true, st1))
    (hcur : setCurrent st1 (getRefType env H node) (getRefValue H node) = .ok st2)
    (hres : getRefSchema loaders recur (getRefValue H node) (getRefType env H node) schema s.2
      st2 H = .ok (target, o3, st3, H3))
    (hm : o3.mergeAdditionalProperties = true)
    (ht : deepEq (preMerge o3 H3 target node) target (.obj tkvs) = true)
    (hn : deepEq (preMerge o3 H3 target node) node (.obj nkvs) = true)
    (htwf : (Json.obj tkvs).wf = true) (hnwf : (Json.obj nkvs).wf = true)
    (htsz : (Json.obj tkvs).size ≤ fuel) (hnsz : (Json.obj nkvs).size ≤ fuel)
    (htl : allFields (fun m => !m.arrayLike) tkvs = true)
    (hnl : allFields (fun m => !m.hasLength) nkvs = true)
    (htp : (Json.obj tkvs).all (fun m => !m.hasProto) = true)
    (hnp : (Json.obj nkvs).all (fun m => !m.hasProto) = true)
    (hown : o3.removeIds = true → hasOwn H3 target "hasOwnProperty" = false) :
    ∃ st' H', derefVisit env loaders recur fuel schema path node s H =
        .ok ((st', o3), H', some ⟨.obj H3.length, false⟩) ∧
      MergeInv (preMerge o3 H3 target node) (mergeTop tkvs nkvs) H' := by
  have hdef : target ≠ .undefined := deepEq_ne_undefined ht
  have hnull : o3.removeIds = false ∨ hasOwnThrows H3 target = false := by
    cases hr : o3.removeIds with
    | false => exact .inl rfl
    | true =>
      refine .inr ?_
      have hn0 : target ≠ .null := by
        intro e; subst e; simp [deepEq] at ht
      simp [hasOwnThrows, hn0, hown hr]
  obtain ⟨H', e, inv⟩ := merge_inv _ fuel target node tkvs nkvs ht hn htwf hnwf htsz hnsz htl hnl
    htp hnp
  rw [preMerge_length] at e
  refine ⟨{ st3 with history := st3.history.dropLast,
                     missing := st3.missing.erase (getRefValue H node) }, H', ?_, inv⟩
  rw [derefVisit_resolved env loaders recur fuel schema path node s H r0 st1 st2 target o3 st3 H3
    href hadd hcur hres hdef hnull]
  simp only [hm, if_true, e]
/-! ## Lemmas: deleting `$id` -/

theorem assoc_delKey_self {k : String} : ∀ {ps : List (String × Val)},
    (ps.map Prod.fst).Nodup → assoc k (delKey k ps) = none := by
  intro ps
  induction ps with
  | nil => intro _; rfl
  | cons p ps ih =>
    intro hnd
    obtain ⟨k1, v1⟩ := p
    simp only [List.map_cons, List.nodup_cons] at hnd
    by_cases e : k1 = k
    · subst e
      simp only [delKey, if_true]
      exact assoc_none_iff.2 hnd.1
    · simp [delKey, assoc, e, ih hnd.2]

theorem assoc_delKey_other {k k' : String} (h : k ≠ k') : ∀ (ps : List (String × Val)),
    assoc k (delKey k' ps) = assoc k ps := by
  intro ps
  induction ps with
  | nil => rfl
  | cons p ps ih =>
    obtain ⟨k1, v1⟩ := p
    by_cases e : k1 = k'
    · subst e
      have : ¬ k1 = k := fun e => h e.symm
      simp [delKey, assoc, this]
    · by_cases e' : k1 = k
      · subst e'
        simp [delKey, assoc, h]
      · simp [delKey, assoc, e, e', ih]

theorem hasOwn_delProp_other {k k' : String} (h : k ≠ k') (H : Heap) (v v' : Val) :
    hasOwn (delProp H v' k') v k = hasOwn H v k := by
  cases v with
  | obj a =>
    cases v' with
    | obj b =>
      simp only [hasOwn, delProp]
      by_cases e : a = b
      · subst e
        cases ho : H[a]? with
        | none => simp [modifyAt, ho]
        | some o =>
          rw [modifyAt_get_same _ _ _ _ ho]
          simp [assoc_delKey_other h]
      · rw [modifyAt_get_other _ _ _ _ e]
    | _ => rfl
  | _ => rfl

theorem hasOwn_delProp_self {k : String} (H : Heap) (a : Nat) (o : Obj) (ho : H[a]? = some o)
    (hnd : (o.props.map Prod.fst).Nodup) :
    hasOwn (delProp H (.obj a) k) (.obj a) k = false := by
  simp only [hasOwn, delProp]
  rw [modifyAt_get_same _ _ _ _ ho]
  simp [assoc_delKey_self hnd]

theorem lookupJ_none_of_hasOwn {H : Heap} {v : Val} {kvs : List (String × Json)} {k : String}
    (h : deepEq H v (.obj kvs) = true) (hk : hasOwn H v k = false) : lookupJ k kvs = none := by
  obtain ⟨a, o, rfl, ho, _, hps⟩ := (deepEq_container (t := .obj kvs) rfl).1 h
  rcases lookup_rel hps k with ⟨x, c, _, hc, _⟩ | ⟨h1, _⟩
  · simp [hasOwn, ho, hc] at hk
  · exact h1

/-! ## Lemmas: the layout of the cloned document -/

theorem allocItemsAt_indexed (H : Heap) : ∀ (xs : List Json) (i lo hi : Nat)
    (ps : List (String × Val)),
    allocItemsAt H xs i lo hi ps ↔ allocFieldsAt H (indexed xs i) lo hi ps := by
  intro xs
  induction xs with
  | nil => intro i lo hi ps; simp [allocItemsAt, allocFieldsAt, indexed]
  | cons x xs ih => intro i lo hi ps; simp [allocItemsAt, allocFieldsAt, indexed, ih]

theorem allocAt_container {H : Heap} {t : Json} {lo hi : Nat} {v : Val}
    (hc : t.isContainer = true) :
    allocAt H t lo hi v ↔
      ∃ top ps, hi = top + 1 ∧ v = .obj top ∧ H[top]? = some ⟨t.kind, ps⟩ ∧
        allocFieldsAt H t.props lo top ps := by
  cases t <;> simp [Json.isContainer] at hc <;>
    simp [allocAt, Json.kind, Json.props, allocItemsAt_indexed]

theorem allocAt_scalar {H : Heap} {t : Json} {lo hi : Nat} {v : Val}
    (hc : t.isContainer = false) :
    allocAt H t lo hi v ↔ lo = hi ∧ deepEq H v t = true := by
  cases t <;> simp [Json.isContainer] at hc <;> cases v <;> simp [allocAt, deepEq]

theorem allocFieldsAt_nil {H : Heap} {lo hi : Nat} {ps : List (String × Val)} :
    allocFieldsAt H [] lo hi ps ↔ lo = hi ∧ ps = [] := by
  simp [allocFieldsAt]

theorem allocFieldsAt_cons {H : Heap} {k : String} {x : Json} {kvs : List (String × Json)}
    {lo hi : Nat} {ps : List (String × Val)} :
    allocFieldsAt H ((k, x) :: kvs) lo hi ps ↔
      ∃ v rest mid, ps = (k, v) :: rest ∧ allocAt H x lo mid v ∧
        allocFieldsAt H kvs mid hi rest := by
  simp [allocFieldsAt]

theorem allocAt_facts : ∀ (n : Nat) (t : Json), t.size ≤ n → ∀ (H : Heap) (lo hi : Nat) (v : Val),
    allocAt H t lo hi v →
      lo ≤ hi ∧ deepEq H v t = true ∧
      (∀ H' : Heap, (∀ c, lo ≤ c → c < hi → H'[c]? = H[c]?) → allocAt H' t lo hi v) := by
  intro n
  induction n with
  | zero => intro t h; have := t.size_pos; omega
  | succ n ih =>
    intro t hsz H lo hi v h
    have fields : ∀ (kvs : List (String × Json)), (∀ kv ∈ kvs, kv.2.size ≤ n) →
        ∀ (lo hi : Nat) (ps : List (String × Val)), allocFieldsAt H kvs lo hi ps →
          lo ≤ hi ∧ List.Forall₂ (Rel H) ps kvs ∧
          (∀ H' : Heap, (∀ c, lo ≤ c → c < hi → H'[c]? = H[c]?) →
            allocFieldsAt H' kvs lo hi ps) := by
      intro kvs
      induction kvs with
      | nil =>
        intro _ lo hi ps h
        obtain ⟨rfl, rfl⟩ := allocFieldsAt_nil.1 h
        exact ⟨le_refl _, .nil, fun H' _ => allocFieldsAt_nil.2 ⟨rfl, rfl⟩⟩
      | cons kv kvs ihk =>
        intro hl lo hi ps h
        obtain ⟨k, x⟩ := kv
        obtain ⟨v, rest, mid, rfl, h1, h2⟩ := allocFieldsAt_cons.1 h
        obtain ⟨l1, d1, s1⟩ := ih x (hl (k, x) (List.mem_cons_self _ _)) H lo mid v h1
        obtain ⟨l2, d2, s2⟩ := ihk (fun kv h => hl kv (List.mem_cons_of_mem _ h)) mid hi rest h2
        refine ⟨by omega, .cons ⟨rfl, d1⟩ d2, ?_⟩
        intro H' hH'
        exact allocFieldsAt_cons.2 ⟨v, rest, mid, rfl,
          s1 H' (fun c h1 h2 => hH' c h1 (by omega)),
          s2 H' (fun c h1 h2 => hH' c (by omega) h2)⟩
    cases hc : t.isContainer with
    | false =>
      obtain ⟨rfl, hd⟩ := (allocAt_scalar hc).1 h
      exact ⟨le_refl _, hd, fun H' _ => (allocAt_scalar hc).2 ⟨rfl, (deepEq_scalar hc hd).2 H'⟩⟩
    | true =>
      obtain ⟨top, ps, rfl, rfl, hH, hf⟩ := (allocAt_container hc).1 h
      obtain ⟨l, d, s⟩ := fields t.props (fun kv hkv => by
        have := Json.size_member (show (kv.1, kv.2) ∈ t.props from hkv)
        omega) lo top ps hf
      refine ⟨by omega, ?_, ?_⟩
      · exact (deepEq_container hc).2 ⟨top, _, rfl, hH, rfl, d⟩
      · intro H' hH'
        exact (allocAt_container hc).2 ⟨top, ps, rfl, rfl,
          by rw [hH' top (by omega) (by omega)]; exact hH,
          s H' (fun c h1 h2 => hH' c h1 (by omega))⟩

theorem allocFieldsAt_facts {H : Heap} : ∀ (kvs : List (String × Json)) (lo hi : Nat)
    (ps : List (String × Val)), allocFieldsAt H kvs lo hi ps →
      lo ≤ hi ∧ List.Forall₂ (Rel H) ps kvs ∧
      (∀ H' : Heap, (∀ c, lo ≤ c → c < hi → H'[c]? = H[c]?) →
        allocFieldsAt H' kvs lo hi ps) := by
  intro kvs
  induction kvs with
  | nil =>
    intro lo hi ps h
    obtain ⟨rfl, rfl⟩ := allocFieldsAt_nil.1 h
    exact ⟨le_refl _, .nil, fun H' _ => allocFieldsAt_nil.2 ⟨rfl, rfl⟩⟩
  | cons kv kvs ihk =>
    intro lo hi ps h
    obtain ⟨k, x⟩ := kv
    obtain ⟨v, rest, mid, rfl, h1, h2⟩ := allocFieldsAt_cons.1 h
    obtain ⟨l1, d1, s1⟩ := allocAt_facts _ x (le_refl _) H lo mid v h1
    obtain ⟨l2, d2, s2⟩ := ihk mid hi rest h2
    refine ⟨by omega, .cons ⟨rfl, d1⟩ d2, ?_⟩
    intro H' hH'
    exact allocFieldsAt_cons.2 ⟨v, rest, mid, rfl,
      s1 H' (fun c h1 h2 => hH' c h1 (by omega)),
      s2 H' (fun c h1 h2 => hH' c (by omega) h2)⟩

theorem allocItems_indexed : ∀ (xs : List Json) (i : Nat) (H : Heap),
    allocItems xs i H = allocFields (indexed xs i) H := by
  intro xs
  induction xs with
  | nil => intro i H; rfl
  | cons x xs ih => intro i H; simp [allocItems, allocFields, indexed, ih]

theorem alloc_container {t : Json} (hc : t.isContainer = true) (H : Heap) :
    alloc t H = (.obj (allocFields t.props H).2.length,
      (allocFields t.props H).2 ++ [{ kind := t.kind, props := (allocFields t.props H).1 }]) := by
  cases t <;> simp [Json.isContainer] at hc <;>
    simp [alloc, Json.props, Json.kind, allocItems_indexed]

/-- The clone of a document is laid out in the cells that `alloc` appends. -/
theorem alloc_layout : ∀ (n : Nat) (t : Json), t.size ≤ n → ∀ (H : Heap),
    (∃ ext, (alloc t H).2 = H ++ ext) ∧
      allocAt (alloc t H).2 t H.length (alloc t H).2.length (alloc t H).1 := by
  intro n
  induction n with
  | zero => intro t h; have := t.size_pos; omega
  | succ n ih =>
    intro t hsz H
    have fields : ∀ (kvs : List (String × Json)), (∀ kv ∈ kvs, kv.2.size ≤ n) → ∀ H,
        (∃ ext, (allocFields kvs H).2 = H ++ ext) ∧
          allocFieldsAt (allocFields kvs H).2 kvs H.length (allocFields kvs H).2.length
            (allocFields kvs H).1 := by
      intro kvs
      induction kvs with
      | nil =>
        intro _ H
        exact ⟨⟨[], by simp [allocFields]⟩, allocFieldsAt_nil.2 ⟨by simp [allocFields], rfl⟩⟩
      | cons kv kvs ihk =>
        intro hl H
        obtain ⟨k, x⟩ := kv
        obtain ⟨⟨e1, h1⟩, d1⟩ := ih x (hl (k, x) (List.mem_cons_self _ _)) H
        obtain ⟨⟨e2, h2⟩, d2⟩ := ihk (fun kv h => hl kv (List.mem_cons_of_mem _ h)) (alloc x H).2
        refine ⟨⟨e1 ++ e2, by simp only [allocFields, h2]; rw [h1, List.append_assoc]⟩, ?_⟩
        simp only [allocFields]
        refine allocFieldsAt_cons.2 ⟨_, _, (alloc x H).2.length, rfl, ?_, d2⟩
        apply (allocAt_facts _ x (le_refl _) _ _ _ _ d1).2.2
        intro c _ hc2
        rw [h2]
        exact getElem?_append_left' hc2
    cases hc : t.isContainer with
    | false =>
      have e : alloc t H = ((alloc t []).1, H) := by
        cases t <;> simp [Json.isContainer] at hc <;> simp [alloc]
      rw [e]
      refine ⟨⟨[], by simp⟩, (allocAt_scalar hc).2 ⟨rfl, ?_⟩⟩
      exact (deepEq_scalar hc (deepEq_alloc t)).2 H
    | true =>
      obtain ⟨⟨e, he⟩, d⟩ := fields t.props (fun kv hkv => by
        have := Json.size_member (show (kv.1, kv.2) ∈ t.props from hkv)
        omega) H
      rw [alloc_container hc]
      refine ⟨⟨e ++ [{ kind := t.kind, props := (allocFields t.props H).1 }], by simp [he]⟩, ?_⟩
      refine (allocAt_container hc).2 ⟨(allocFields t.props H).2.length,
        (allocFields t.props H).1, by simp, rfl, by simp, ?_⟩
      apply (allocFieldsAt_facts _ _ _ _ d).2.2
      intro c _ hc2
      exact getElem?_append_left' hc2

/-! ## Lemmas: the heap during the walk -/

theorem between_refl (H0 : Heap) (root : Val) : Between H0 root H0 := by
  refine ⟨rfl, fun c o0 h => ⟨o0, h, rfl, ?_⟩⟩
  generalize o0.props = ps
  induction ps with
  | nil => exact .nil
  | cons p ps ih => exact .cons ⟨rfl, .inl rfl⟩ ih

theorem between_resolved (H0 : Heap) (root : Val) : Between H0 root (resolved H0 root) := by
  refine ⟨by simp [resolved], fun c o0 h => ⟨fixCell H0 root o0, by simp [resolved, h], rfl, ?_⟩⟩
  simp only [fixCell]
  generalize o0.props = ps
  induction ps with
  | nil => exact .nil
  | cons p ps ih => exact .cons ⟨rfl, .inr rfl⟩ ih

theorem fixed_assoc {H0 : Heap} {root : Val} {ps ps0 : List (String × Val)}
    (h : List.Forall₂ (Fixed H0 root) ps ps0) (k : String) :
    (assoc k ps = none ∧ assoc k ps0 = none) ∨
      ∃ w w0, assoc k ps = some w ∧ assoc k ps0 = some w0 ∧ (w = w0 ∨ w = fixVal H0 root w0) := by
  induction h with
  | nil => exact .inl ⟨rfl, rfl⟩
  | @cons p p0 ps ps0 r _ ih =>
    obtain ⟨k1, w1⟩ := p
    obtain ⟨k0, w0⟩ := p0
    obtain ⟨rfl, hw⟩ : k1 = k0 ∧ (w1 = w0 ∨ w1 = fixVal H0 root w0) := r
    by_cases e : k1 = k
    · exact .inr ⟨w1, w0, by simp [assoc, e], by simp [assoc, e], hw⟩
    · simpa [assoc, e] using ih

theorem fixVal_undefined (H0 : Heap) (root : Val) : fixVal H0 root .undefined = .undefined := by
  simp [fixVal, getProp, strOf]

theorem between_getProp {H0 H : Heap} {root : Val} (h : Between H0 root H) (v : Val)
    (k : String) :
    getProp H v k = getProp H0 v k ∨ getProp H v k = fixVal H0 root (getProp H0 v k) := by
  cases v with
  | obj c =>
    cases h0 : H0[c]? with
    | none =>
      have : H[c]? = none := by
        apply List.getElem?_eq_none
        rw [h.1]
        by_contra hlt
        have := List.getElem?_eq_getElem (l := H0) (show c < H0.length by omega)
        rw [h0] at this; cases this
      left; simp [getProp, h0, this]
    | some o0 =>
      obtain ⟨o, ho, _, hf⟩ := h.2 c o0 h0
      rcases fixed_assoc hf k with ⟨h1, h2⟩ | ⟨w, w0, h1, h2, h3⟩
      · left; simp [getProp, h0, ho, h1, h2]
      · rcases h3 with h3 | h3
        · left; simp [getProp, h0, ho, h1, h2, h3]
        · right; simp [getProp, h0, ho, h1, h2, h3]
  | _ => left; rfl

theorem fixVal_plain {H0 : Heap} {root : Val} {w : Val} {x : Json}
    (h : deepEq H0 w x = true) (hx : x.hasRef = false) : fixVal H0 root w = w := by
  have : strOf (getProp H0 w "$ref") = none := by
    rw [strOf_getProp h]
    unfold Json.hasRef at hx
    cases hm : x.strMember "$ref" <;> simp_all
  simp [fixVal, this]

theorem between_getProp_plain {H0 H : Heap} {root : Val} (h : Between H0 root H) (v : Val)
    (k : String) (x : Json) (hd : deepEq H0 (getProp H0 v k) x = true) (hx : x.hasRef = false) :
    getProp H v k = getProp H0 v k := by
  rcases between_getProp h v k with e | e
  · exact e
  · rw [e, fixVal_plain hd hx]

theorem fixed_plain {H0 : Heap} {root : Val} :
    ∀ {ps ps0 : List (String × Val)} {kvs : List (String × Json)},
      List.Forall₂ (Fixed H0 root) ps ps0 → List.Forall₂ (Rel H0) ps0 kvs →
      (∀ kv ∈ kvs, kv.2.hasRef = false) → ps = ps0 := by
  intro ps ps0 kvs h
  induction h generalizing kvs with
  | nil => intro _ _; rfl
  | @cons p p0 ps ps0 r _ ih =>
    intro h2 h3
    cases h2 with
    | @cons _ kv _ kvs r2 rest =>
      obtain ⟨k1, w1⟩ := p
      obtain ⟨k0, w0⟩ := p0
      obtain ⟨rfl, hw⟩ : k1 = k0 ∧ (w1 = w0 ∨ w1 = fixVal H0 root w0) := r
      have hfix : fixVal H0 root w0 = w0 :=
        fixVal_plain r2.2 (h3 kv (List.mem_cons_self _ _))
      have : w1 = w0 := by
        rcases hw with hw | hw
        · exact hw
        · rw [hw, hfix]
      rw [this, ih rest (fun kv h => h3 kv (List.mem_cons_of_mem _ h))]

/-- A part of the document without reference nodes is never touched. -/
theorem between_deepEq_free {H0 H : Heap} {root : Val} (h : Between H0 root H) :
    ∀ (n : Nat) (t : Json), t.size ≤ n → t.all (fun x => !x.hasRef) = true → ∀ (v : Val),
      deepEq H0 v t = true → deepEq H v t = true := by
  intro n
  induction n with
  | zero => intro t h; have := t.size_pos; omega
  | succ n ih =>
    intro t hsz hall v hd
    cases hc : t.isContainer with
    | false => exact (deepEq_scalar hc hd).2 _
    | true =>
      obtain ⟨a, o0, rfl, h0, hk, hps⟩ := (deepEq_container hc).1 hd
      obtain ⟨o, ho, hkind, hf⟩ := h.2 a o0 h0
      rw [Json.all_eq] at hall
      simp only [Bool.and_eq_true] at hall
      have hfree : ∀ kv ∈ t.props, kv.2.hasRef = false := by
        intro kv hkv
        have := allFields_mem hall.2 (show (kv.1, kv.2) ∈ t.props from hkv)
        rw [Json.all_eq] at this
        simp only [Bool.and_eq_true, Bool.not_eq_true'] at this
        exact this.1
      have hpeq : o.props = o0.props := fixed_plain hf hps hfree
      refine (deepEq_container hc).2 ⟨a, o, rfl, ho, by rw [hkind, hk], ?_⟩
      rw [hpeq]
      have key : ∀ (ps : List (String × Val)) (l : List (String × Json)),
          (∀ kv ∈ l, kv ∈ t.props) → List.Forall₂ (Rel H0) ps l →
          List.Forall₂ (Rel H) ps l := by
        intro ps l hl h1
        induction h1 with
        | nil => exact .nil
        | @cons p kv ps l r _ ihl =>
          have hmem : (kv.1, kv.2) ∈ t.props := hl kv (List.mem_cons_self _ _)
          exact .cons ⟨r.1, ih kv.2 (by have := Json.size_member hmem; omega)
            (allFields_mem hall.2 hmem) _ r.2⟩ (ihl (fun kv h => hl kv (List.mem_cons_of_mem _ h)))
      exact key _ _ (fun _ h => h) hps

/-! ## Lemmas: resolving a reference during the walk -/

theorem fixed_setKey {H0 : Heap} {root : Val} {k : String} {w0 : Val} :
    ∀ {ps ps0 : List (String × Val)}, List.Forall₂ (Fixed H0 root) ps ps0 →
      assoc k ps0 = some w0 →
      List.Forall₂ (Fixed H0 root) (setKey k (fixVal H0 root w0) ps) ps0 := by
  intro ps ps0 h
  induction h with
  | nil => intro h; simp [assoc] at h
  | @cons p p0 ps ps0 r rest ih =>
    intro hk
    obtain ⟨k1, w1⟩ := p
    obtain ⟨k0, w0'⟩ := p0
    obtain ⟨rfl, hw⟩ : k1 = k0 ∧ (w1 = w0' ∨ w1 = fixVal H0 root w0') := r
    by_cases e : k1 = k
    · simp only [assoc, e, if_true, Option.some.injEq] at hk
      subst hk
      simp only [setKey, e, if_true]
      exact .cons ⟨rfl, .inr rfl⟩ rest
    · simp only [assoc, e, if_false] at hk
      simp only [setKey, e, if_false]
      exact .cons ⟨rfl, hw⟩ (ih hk)

theorem between_setProp {H0 H : Heap} {root : Val} (h : Between H0 root H) (c : Nat) (o0 : Obj)
    (k : String) (w0 : Val) (h0 : H0[c]? = some o0) (hk : assoc k o0.props = some w0) :
    Between H0 root (setProp H (.obj c) k (fixVal H0 root w0)) := by
  refine ⟨by rw [setProp_length]; exact h.1, ?_⟩
  intro c' o0' h0'
  by_cases e : c' = c
  · subst e
    rw [h0] at h0'
    cases h0'
    obtain ⟨o, ho, hkind, hf⟩ := h.2 c' o0 h0
    exact ⟨_, setProp_get_same _ _ _ _ _ ho, hkind, fixed_setKey hf hk⟩
  · rw [setProp_get_other _ _ _ _ _ e]
    exact h.2 c' o0' h0'

theorem Json.plainPath_hasRef {t : Json} {ks : List String} (h : t.plainPath ks = true) :
    t.hasRef = false := by
  cases ks with
  | nil => simpa [Json.plainPath] using h
  | cons k ks =>
    simp only [Json.plainPath, Bool.and_eq_true, Bool.not_eq_true'] at h
    exact h.1

theorem Json.isContainer_of_member {t : Json} {k : String} {x : Json}
    (h : t.member k = some x) : t.isContainer = true := by
  cases t <;> simp [Json.member, Json.props, lookupJ] at h <;> rfl

/-- A path that meets no reference node leads to the same cell during the walk
    as in the clone. -/
theorem between_resolve {H0 H : Heap} {root : Val} (h : Between H0 root H) :
    ∀ (ks : List String) (t : Json) (w : Val) (tt : Json), deepEq H0 w t = true →
      t.plainPath ks = true → t.nodeAt ks = some tt →
      ∃ tv, ks.foldlM (index H) w = .ok tv ∧ ks.foldlM (index H0) w = .ok tv ∧
        deepEq H0 tv tt = true := by
  intro ks
  induction ks with
  | nil =>
    intro t w tt hd _ hn
    simp only [Json.nodeAt, Option.some.injEq] at hn
    subst hn
    exact ⟨w, rfl, rfl, hd⟩
  | cons k ks ih =>
    intro t w tt hd hp hn
    simp only [Json.plainPath, Bool.and_eq_true, Bool.not_eq_true'] at hp
    cases hm : t.member k with
    | none => simp [hm] at hp
    | some x =>
      simp only [hm] at hp
      simp only [Json.nodeAt, hm] at hn
      have hxr := Json.plainPath_hasRef hp.2
      rcases getProp_cases hd k with ⟨x', h1, h2⟩ | ⟨h1, _⟩
      · rw [hm] at h1
        cases h1
        have hobj : isObject w = true := by
          rw [deepEq_isObject hd]; exact Json.isContainer_of_member hm
        have hg := between_getProp_plain h w k x h2 hxr
        obtain ⟨tv, e1, e2, e3⟩ := ih x (getProp H0 w k) tt h2 hp.2 hn
        refine ⟨tv, ?_, ?_, e3⟩
        · cases w <;> simp [isObject] at hobj
          simp only [List.foldlM_cons, index, bind, Except.bind, hg]
          exact e1
        · cases w <;> simp [isObject] at hobj
          simp only [List.foldlM_cons, index, bind, Except.bind]
          exact e2
      · rw [hm] at h1; cases h1

theorem Json.soleRef_eq {m : Json} {r : String} (h : m.soleRef = some r) :
    m = .obj [("$ref", .str r)] := by
  unfold Json.soleRef at h
  split at h
  · rename_i k r'
    split at h
    · rename_i hk
      cases h
      rw [hk]
    · cases h
  · cases h

/-- What `refOK` says of a reference node. -/
theorem Json.refOK_ref {doc m : Json} (h : doc.refOK m = true) (hr : m.hasRef = true) :
    ∃ r tt, m = .obj [("$ref", .str r)] ∧ r.data.head? = some '#' ∧ r ≠ "#" ∧
      doc.nodeAt (refPathKeys r) = some tt ∧ doc.plainPath (refPathKeys r) = true ∧
      tt.all (fun x => !x.hasRef) = true := by
  unfold Json.refOK at h
  simp only [hr, Bool.not_true, Bool.false_or] at h
  cases hs : m.soleRef with
  | none => simp [hs] at h
  | some r =>
    simp only [hs, Bool.and_eq_true, decide_eq_true_eq] at h
    cases hn : doc.nodeAt (refPathKeys r) with
    | none => simp [hn] at h
    | some tt =>
      simp only [hn, Bool.and_eq_true] at h
      exact ⟨r, tt, Json.soleRef_eq hs, h.1.1, h.1.2, hn, h.2.1, h.2.2⟩

theorem refCell_props {H : Heap} {a : Nat} {r : String}
    (h : deepEq H (.obj a) (.obj [("$ref", .str r)]) = true) :
    H[a]? = some ⟨.plain, [("$ref", .str r)]⟩ := by
  obtain ⟨a', o, ha, ho, hk, hps⟩ :=
    (deepEq_container (t := .obj [("$ref", .str r)]) rfl).1 h
  cases ha
  obtain ⟨kind, ps⟩ := o
  simp only [Json.props] at hps
  cases hps with
  | @cons p _ ps' _ r1 rest =>
    cases rest
    obtain ⟨k, w⟩ := p
    have hk1 : k = "$ref" := r1.1
    have hw : deepEq H w (.str r) = true := r1.2
    have : w = .str r := by
      cases w <;> simp [deepEq] at hw
      rw [hw]
    subst hk1
    subst this
    have hkind : kind = Kind.plain := hk
    rw [ho, hkind]

/-- The visitor at a reference node of the document, with default options: the
    node is replaced by its target in the clone. -/
theorem derefVisit_ref (env : Env) (loaders : Loaders)
    (recur : Val → Options → State → Heap → Except Exn (Res × World)) (fuel : Nat)
    (doc : Json) (H0 H : Heap) (root : Val) (path : List String) (a : Nat) (s : State)
    (o : Options) (r : String) (tt : Json)
    (hloader : loaders .local = none) (hm : o.mergeAdditionalProperties = false)
    (hids : o.removeIds = false) (hmiss : s.missing = []) (hhist : s.history = [])
    (hroot : deepEq H0 root doc = true) (hb : Between H0 root H)
    (hcell : H[a]? = H0[a]?)
    (hnode : deepEq H0 (.obj a) (.obj [("$ref", .str r)]) = true)
    (hhash : r.data.head? = some '#') (hne : r ≠ "#")
    (htarget : doc.nodeAt (refPathKeys r) = some tt)
    (hplain : doc.plainPath (refPathKeys r) = true) :
    derefVisit env loaders recur fuel root path (.obj a) (s, o) H =
        .ok ((s, o), H, some ⟨fixVal H0 root (.obj a), false⟩) ∧
      getRefPathValue H0 root r = .ok (fixVal H0 root (.obj a)) ∧
      deepEq H0 (fixVal H0 root (.obj a)) tt = true := by
  have hc0 := refCell_props hnode
  have hc : H[a]? = some ⟨.plain, [("$ref", .str r)]⟩ := by rw [hcell]; exact hc0
  obtain ⟨tv, e1, e2, e3⟩ := between_resolve hb (refPathKeys r) doc root tt hroot hplain htarget
  have hfix : fixVal H0 root (.obj a) = tv := by
    have e2' : getRefPathValue H0 root r = .ok tv := e2
    simp [fixVal, getProp, hc0, assoc, strOf, e2']
  rw [hfix]
  refine ⟨?_, e2, e3⟩
  have href : getProp H (.obj a) "$ref" = .str r := by simp [getProp, hc, assoc]
  have hvalue : truthy (getProp H (.obj a) "value") = false := by
    simp [getProp, hc, assoc, truthy]
  rw [derefVisit_local env loaders recur fuel root path a (s, o) H r tv hloader href hhash hne
    hvalue (by simp [hhist]) e1 (deepEq_ne_undefined e3) (.inl hids)]
  simp only [hm, hids, Bool.false_eq_true, Bool.false_and, if_false]
  have hs : ({ s with missing := s.missing.erase (some r) } : State) = s := by
    cases s
    simp_all
  rw [hs]

/-! ## Lemmas: the ancestors of the node that is visited -/

theorem chain_last {H0 : Heap} {parents : List Frame} {path : List String} {v : Val}
    (h : Chain H0 parents path v) (p : Frame) (key : String)
    (hp : parents.getLast? = some p) (hk : path.getLast? = some key) :
    ∃ a, p = ⟨.obj a, .obj a⟩ ∧ strOf (getProp H0 (.obj a) "$ref") = none ∧
      getProp H0 (.obj a) key = v := by
  cases h with
  | nil => simp at hp
  | snoc ps ks a k v hc hr hg =>
    simp at hp hk
    subst hp; subst hk
    exact ⟨a, rfl, hr, hg⟩

theorem follow_append (H : Heap) (v : Val) (ks : List String) (k : String) :
    follow H v (ks ++ [k]) = getProp H (follow H v ks) k := by
  simp [follow, List.foldl_append]

theorem follow_undefined (H : Heap) : ∀ (ks : List String), follow H .undefined ks = .undefined := by
  intro ks
  induction ks with
  | nil => rfl
  | cons k ks ih => simpa [follow, getProp] using ih

theorem fixVal_of_not_ref {H0 : Heap} {root : Val} {w : Val}
    (h : strOf (getProp H0 w "$ref") = none) : fixVal H0 root w = w := by
  simp [fixVal, h]

/-- During the walk every ancestor still leads to the node that is visited, or
    to the value `w` that has taken its place. -/
theorem chain_follow {H0 H : Heap} {root : Val} (hb : Between H0 root H) :
    ∀ {parents : List Frame} {path : List String} {v : Val}, Chain H0 parents path v →
      ∀ w, (∀ p key, parents.getLast? = some p → path.getLast? = some key →
        getProp H p.node_ key = w) →
      ∀ fr ∈ parents, ∃ ks, ks ≠ [] ∧ follow H fr.node_ ks = w := by
  intro parents path v h
  induction h with
  | nil => intro w _ fr hfr; cases hfr
  | snoc ps ks a k v hc hr hg ih =>
    intro w hw fr hfr
    have hlast : getProp H (.obj a) k = w :=
      hw ⟨.obj a, .obj a⟩ k (by simp) (by simp)
    rcases List.mem_append.1 hfr with hfr | hfr
    · obtain ⟨ks1, hne, hf⟩ := ih (.obj a) (by
        intro p key hp hk
        obtain ⟨a', rfl, _, hg'⟩ := chain_last hc p key hp hk
        rcases between_getProp hb (.obj a') key with e | e
        · rw [e]; exact hg'
        · rw [e, hg']; exact fixVal_of_not_ref hr) fr hfr
      exact ⟨ks1 ++ [k], by simp, by rw [follow_append, hf]; exact hlast⟩
    · simp only [List.mem_singleton] at hfr
      subst hfr
      exact ⟨[k], by simp, by simpa [follow] using hlast⟩

theorem Json.nodeAt_size_le : ∀ (ks : List String) (m m' : Json), m.nodeAt ks = some m' →
    m'.size ≤ m.size := by
  intro ks
  induction ks with
  | nil => intro m m' h; simp [Json.nodeAt] at h; subst h; exact le_refl _
  | cons k ks ih =>
    intro m m' h
    cases hm : m.member k with
    | none => simp [Json.nodeAt, hm] at h
    | some x =>
      simp only [Json.nodeAt, hm] at h
      have := ih x m' h
      have := Json.size_member (mem_of_lookupJ hm)
      omega

theorem Json.nodeAt_size_lt {ks : List String} {m m' : Json} (h : m.nodeAt ks = some m')
    (hne : ks ≠ []) : m'.size < m.size := by
  cases ks with
  | nil => exact absurd rfl hne
  | cons k ks =>
    cases hm : m.member k with
    | none => simp [Json.nodeAt, hm] at h
    | some x =>
      simp only [Json.nodeAt, hm] at h
      have := Json.nodeAt_size_le ks x m' h
      have := Json.size_member (mem_of_lookupJ hm)
      omega

theorem follow_deepEq {H : Heap} : ∀ (ks : List String) (v : Val) (m : Json) (w : Val)
    (tw : Json), deepEq H v m = true → follow H v ks = w → deepEq H w tw = true →
      m.nodeAt ks = some tw := by
  intro ks
  induction ks with
  | nil =>
    intro v m w tw hd hf hw
    simp only [follow, List.foldl_nil] at hf
    subst hf
    rw [deepEq_functional _ m (le_refl _) H v tw hd hw]
    rfl
  | cons k ks ih =>
    intro v m w tw hd hf hw
    rcases getProp_cases hd k with ⟨x, h1, h2⟩ | ⟨_, h2⟩
    · simp only [Json.nodeAt, h1]
      exact ih (getProp H v k) x w tw h2 hf hw
    · have : follow H v (k :: ks) = .undefined := by
        simp only [follow, List.foldl_cons, h2]
        exact follow_undefined H ks
      rw [this] at hf
      subst hf
      exact absurd rfl (deepEq_ne_undefined hw)

/-- A value that leads to a value with the document `tw` is not itself a
    document as small as `tw`. -/
theorem not_deepEq_of_follow {H : Heap} {v w : Val} {ks : List String} {tw m : Json}
    (hf : follow H v ks = w) (hne : ks ≠ []) (hw : deepEq H w tw = true)
    (hsz : m.size ≤ tw.size) : deepEq H v m = false := by
  cases hd : deepEq H v m with
  | false => rfl
  | true =>
    have := Json.nodeAt_size_lt (follow_deepEq ks v m w tw hd hf hw) hne
    omega

/-- The visitor at a node that is not a reference node. -/
theorem derefVisit_plain (env : Env) (loaders : Loaders)
    (recur : Val → Options → State → Heap → Except Exn (Res × World)) (fuel : Nat)
    (schema : Val) (path : List String) (v : Val) (t : Json) (s : State × Options) (H : Heap)
    (hP : t.hasRef = false) (h : deepEq H v t = true) :
    derefVisit env loaders recur fuel schema path v s H = .ok (s, H, none) := by
  have hsn : strOf (getProp H v "$ref") = none := by
    rw [strOf_getProp h]; unfold Json.hasRef at hP; cases hm : t.strMember "$ref" <;> simp_all
  cases v with
  | undefined => exact absurd rfl (deepEq_ne_undefined h)
  | _ => simp [derefVisit, hsn]

/-- The walk over the members of a node in which the visitor changes nothing. -/
theorem walker_children_pure {σ : Type} (cb : Visitor σ) (P : Json → Prop)
    (hsim : ∀ path v t s H, P t → deepEq H v t = true → cb path v s H = .ok (s, H, none))
    (n : Nat) (t : Json) (hc : t.isContainer = true) (hsz : t.size ≤ n + 1)
    (hwf : t.wf = true) (hP : ∀ m, IsNode m t → P m)
    (path : List String) (parents : List Frame) (a : Nat) (s : σ) (H : Heap)
    (hd : deepEq H (.obj a) t = true)
    (hpar : ∀ fr ∈ parents, ∀ k x m, (k, x) ∈ t.props → IsNode m x →
      deepEq H fr.node_ m = false)
    (hlast : ∀ p, parents.getLast? = some p → p.node = .obj a) :
    (objectKeys H (.obj a)).foldlM (fun (acc : σ × Heap) key =>
        ((walker cb n (path ++ [key]) parents (getProp acc.2 (.obj a) key) acc.1 acc.2).map
          Prod.snd : Except Exn (σ × Heap))) (s, H) = .ok (s, H) := by
  obtain ⟨a', o, ha, hH, hk, hps⟩ := (deepEq_container hc).1 hd
  cases ha
  have hkeys := forall₂_keys hps
  have hnd : (o.props.map Prod.fst).Nodup := by
    rw [hkeys]; exact (Json.wf_props hwf).1
  simp only [objectKeys, hH]
  have fold : ∀ (suf : List (String × Val)) (kvs : List (String × Json))
      (pre : List (String × Val)),
      o.props = pre ++ suf → List.Forall₂ (Rel H) suf kvs → (∀ kv ∈ kvs, kv ∈ t.props) →
      (suf.map Prod.fst).foldlM (fun (acc : σ × Heap) key =>
        ((walker cb n (path ++ [key]) parents (getProp acc.2 (Val.obj a) key) acc.1 acc.2).map
          Prod.snd : Except Exn (σ × Heap))) (s, H) = .ok (s, H) := by
    intro suf
    induction suf with
    | nil => intro kvs pre _ _ _; rfl
    | cons p suf ihs =>
      intro kvs pre h1 h2 h3
      cases h2 with
      | @cons _ kv _ kvs r rest =>
        obtain ⟨k, c⟩ := p
        obtain ⟨k', x⟩ := kv
        have hk' : k = k' := r.1
        subst hk'
        have hx : deepEq H c x = true := r.2
        have hmem : (k, x) ∈ t.props := h3 _ (List.mem_cons_self _ _)
        have hnotin : k ∉ pre.map Prod.fst := by
          rw [h1, List.map_append, List.nodup_append] at hnd
          intro hin
          exact hnd.2.2 hin (by simp)
        have hassoc : assoc k o.props = some c := by
          rw [h1]; exact assoc_append_of_not_mem pre suf hnotin
        have hget : getProp H (Val.obj a) k = c := by
          simp [getProp, hH, hassoc]
        have hxsz : x.size ≤ n := by have := Json.size_member hmem; omega
        have hstep := walker_pure cb (fun _ _ s => (s, none)) P (fun _ => True)
          (fun path v t s H hp _ hd => by simpa using hsim path v t s H hp hd)
          (fun _ _ _ _ _ => trivial) n x hxsz (Json.wf_member hwf hmem)
          (fun m hm => hP m (IsNode.member hmem hm)) (path ++ [k]) parents c s H trivial hx
          (fun fr hfr m hm => hpar fr hfr k x m hmem hm)
          (by
            intro p key hp hkey'
            simp at hkey'
            subst hkey'
            rw [hlast p hp]
            exact setProp_same hH hassoc)
        have htw : twalk (fun (_ : List String) (_ : Json) (s : σ) => (s, (none : Option Bool)))
            (path ++ [k]) x s = s :=
          twalk_id _ _ x (le_refl _) (fun _ _ _ _ => rfl) _ _
        rw [htw] at hstep
        simp only [List.map_cons, List.foldlM_cons, hget, hstep.1, Except.map, bind,
          Except.bind]
        exact ihs kvs (pre ++ [(k, c)]) (by simp [h1]) rest
          (fun kv h => h3 kv (List.mem_cons_of_mem _ h))
  exact fold o.props t.props [] rfl hps (fun _ h => h)

/-! ## Lemmas: the walk that substitutes the targets -/

theorem resolved_get (H0 : Heap) (root : Val) (c : Nat) :
    (resolved H0 root)[c]? = (H0[c]?).map (fixCell H0 root) := by
  simp [resolved, List.getElem?_map]

theorem setKey_append_mid (k : String) (x w : Val) : ∀ (pre suf : List (String × Val)),
    k ∉ pre.map Prod.fst → setKey k x (pre ++ (k, w) :: suf) = pre ++ (k, x) :: suf := by
  intro pre
  induction pre with
  | nil => intro suf _; simp [setKey]
  | cons p pre ih =>
    intro suf h
    obtain ⟨k', v'⟩ := p
    simp only [List.map_cons, List.mem_cons, not_or] at h
    have : ¬ k' = k := fun e => h.1 e.symm
    simp [setKey, this, ih suf h.2]

theorem setProp_of_getProp {H : Heap} {a : Nat} {k : String} {v : Val}
    (h : getProp H (.obj a) k = v) (hv : v ≠ .undefined) : setProp H (.obj a) k v = H := by
  cases ho : H[a]? with
  | none => simp [getProp, ho] at h; exact absurd h.symm hv
  | some o =>
    cases ha : assoc k o.props with
    | none => simp [getProp, ho, ha] at h; exact absurd h.symm hv
    | some w =>
      simp [getProp, ho, ha] at h
      subst h
      exact setProp_same ho ha

theorem getProp_setProp {H : Heap} {a : Nat} {o : Obj} (k : String) (x : Val)
    (h : H[a]? = some o) : getProp (setProp H (.obj a) k x) (.obj a) k = x := by
  simp [getProp, setProp_get_same _ _ _ _ _ h, assoc_setKey]

theorem Json.nodeAt_wf : ∀ (ks : List String) (m m' : Json), m.wf = true →
    m.nodeAt ks = some m' → m'.wf = true := by
  intro ks
  induction ks with
  | nil => intro m m' hw h; simp [Json.nodeAt] at h; subst h; exact hw
  | cons k ks ih =>
    intro m m' hw h
    cases hm : m.member k with
    | none => simp [Json.nodeAt, hm] at h
    | some x =>
      simp only [Json.nodeAt, hm] at h
      exact ih x m' (Json.wf_member hw (mem_of_lookupJ hm)) h

theorem walkOut_nil (H0 : Heap) (root : Val) (v : Val) (Hm : Heap) :
    walkOut H0 root [] [] v Hm = Hm := rfl

theorem walkOut_snoc (H0 : Heap) (root : Val) (parents : List Frame) (path : List String)
    (fr : Frame) (k : String) (v : Val) (Hm : Heap) :
    walkOut H0 root (parents ++ [fr]) (path ++ [k]) v Hm =
      setProp Hm fr.node k (fixVal H0 root v) := by
  simp [walkOut]

/-- The heap that `walker` returns when the visited node stays in place. -/
theorem walkOut_same {H0 H Hm : Heap} {root : Val} {lo hi : Nat} {v : Val}
    {parents : List Frame} {path : List String} {s : State}
    (hpre : WalkPre H0 root lo hi v parents path s H)
    (hframe : ∀ c, ¬ (lo ≤ c ∧ c < hi) → Hm[c]? = H[c]?)
    (hfix : fixVal H0 root v = v) (hv : v ≠ .undefined) :
    walkOut H0 root parents path v Hm = Hm := by
  unfold walkOut
  cases hp : parents.getLast? with
  | none => rfl
  | some p =>
    cases hk : path.getLast? with
    | none => rfl
    | some key =>
      simp only []
      obtain ⟨a, rfl, _, _⟩ := chain_last hpre.chain p key hp hk
      obtain ⟨a', ha', hge⟩ := hpre.above _ (List.mem_of_getLast?_eq_some hp)
      simp only [Val.obj.injEq] at ha'
      subst ha'
      have hl := hpre.link _ key hp hk
      have hcell : Hm[a]? = H[a]? := hframe a (by omega)
      rw [hfix]
      apply setProp_of_getProp _ hv
      simp only [getProp, hcell]
      simpa [getProp] using hl

theorem getProp_some {H : Heap} {a : Nat} {k : String} {v : Val}
    (h : getProp H (.obj a) k = v) (hv : v ≠ .undefined) :
    ∃ o, H[a]? = some o ∧ assoc k o.props = some v := by
  cases ho : H[a]? with
  | none => simp [getProp, ho] at h; exact absurd h.symm hv
  | some o =>
    cases ha : assoc k o.props with
    | none => simp [getProp, ho, ha] at h; exact absurd h.symm hv
    | some w =>
      simp [getProp, ho, ha] at h
      exact ⟨o, rfl, by rw [ha, h]⟩

/-- The heap that `walker` returns is again a heap of the walk. -/
theorem between_walkOut {H0 H Hm : Heap} {root : Val} {lo hi : Nat} {v : Val}
    {parents : List Frame} {path : List String} {s : State}
    (hpre : WalkPre H0 root lo hi v parents path s H) (hv : v ≠ .undefined)
    (hb : Between H0 root Hm) : Between H0 root (walkOut H0 root parents path v Hm) := by
  unfold walkOut
  cases hp : parents.getLast? with
  | none => exact hb
  | some p =>
    cases hk : path.getLast? with
    | none => exact hb
    | some key =>
      simp only []
      obtain ⟨a, rfl, _, hg⟩ := chain_last hpre.chain p key hp hk
      obtain ⟨o0, h0, hk0⟩ := getProp_some hg hv
      exact between_setProp hb a o0 key v h0 hk0

theorem above_any {parents : List Frame} {hi top : Nat}
    (h : ∀ fr ∈ parents, ∃ a, fr.node_ = .obj a ∧ hi ≤ a) (ht : top < hi) :
    parents.any (fun f => decide (f.node_ = Val.obj top)) = false := by
  rw [List.any_eq_false]
  intro fr hfr
  obtain ⟨a, ha, hge⟩ := h fr hfr
  simp only [decide_eq_true_eq, ha, Val.obj.injEq]
  omega

/-- The walk at a scalar of the document. -/
theorem walker_subst_scalar (env : Env) (loaders : Loaders)
    (recur : Val → Options → State → Heap → Except Exn (Res × World)) (mf : Nat)
    (o : Options) (H0 : Heap) (root : Val) (n : Nat) (t : Json)
    (hc : t.isContainer = false) (lo hi : Nat) (v : Val) (hat : allocAt H0 t lo hi v)
    (path : List String) (parents : List Frame) (s : State) (H : Heap)
    (hpre : WalkPre H0 root lo hi v parents path s H) :
    walker (derefVisit env loaders recur mf root) (n + 1) path parents v (s, o) H =
        .ok (fixVal H0 root v, (s, o), walkOut H0 root parents path v H) ∧
      WalkPost H0 root lo hi H H := by
  obtain ⟨rfl, hd0⟩ := (allocAt_scalar hc).1 hat
  have hd : deepEq H v t = true := (deepEq_scalar hc hd0).2 H
  have hobj : isObject v = false := (deepEq_scalar hc hd0).1
  have href : t.hasRef = false := by
    cases t <;> simp [Json.isContainer] at hc <;>
      simp [Json.hasRef, Json.strMember, Json.member, Json.props, lookupJ]
  have hfix : fixVal H0 root v = v := fixVal_plain hd0 href
  have hcb := derefVisit_plain env loaders recur mf root path v t (s, o) H href hd
  have hout := walkOut_same hpre (fun _ _ => rfl) hfix (deepEq_ne_undefined hd0)
  refine ⟨?_, ⟨fun c h1 h2 => by omega, fun _ _ => rfl, hpre.between⟩⟩
  rw [walker, hfix, hout]
  simp [hcb, hobj, updateParent]

/-- The walk at a reference node of the document: the parent gets the target,
    and the walk through the target changes nothing. -/
theorem walker_subst_ref (env : Env) (loaders : Loaders)
    (recur : Val → Options → State → Heap → Except Exn (Res × World)) (mf : Nat)
    (doc : Json) (o : Options) (H0 : Heap) (root : Val)
    (hloader : loaders .local = none) (hm : o.mergeAdditionalProperties = false)
    (hids : o.removeIds = false) (hroot : deepEq H0 root doc = true) (hwf : doc.wf = true)
    (n : Nat) (hn : doc.size ≤ n) (r : String) (tt : Json)
    (hhash : r.data.head? = some '#') (hne : r ≠ "#")
    (htarget : doc.nodeAt (refPathKeys r) = some tt)
    (hplain : doc.plainPath (refPathKeys r) = true)
    (hfree : tt.all (fun x => !x.hasRef) = true)
    (lo hi : Nat) (v : Val) (hat : allocAt H0 (.obj [("$ref", .str r)]) lo hi v)
    (path : List String) (parents : List Frame) (s : State) (H : Heap)
    (hpre : WalkPre H0 root lo hi v parents path s H) :
    walker (derefVisit env loaders recur mf root) (n + 1) path parents v (s, o) H =
        .ok (fixVal H0 root v, (s, o), walkOut H0 root parents path v H) ∧
      WalkPost H0 root lo hi H H := by
  have hd0 : deepEq H0 v (.obj [("$ref", .str r)]) = true :=
    (allocAt_facts _ _ (le_refl _) _ _ _ _ hat).2.1
  obtain ⟨top, ps, rfl, rfl, h0top, hfa⟩ :=
    (allocAt_container (t := .obj [("$ref", .str r)]) rfl).1 hat
  simp only [Json.props] at hfa
  obtain ⟨w, rest, mid, rfl, hw, hrest⟩ := allocFieldsAt_cons.1 hfa
  obtain ⟨hlm, _⟩ := (allocAt_scalar (t := .str r) rfl).1 hw
  obtain ⟨hmt, _⟩ := allocFieldsAt_nil.1 hrest
  have hlo : lo = top := by omega
  have hc0 := refCell_props hd0
  have hcellH : H[top]? = H0[top]? := hpre.agree top (by omega) (by omega)
  have hcH : H[top]? = some ⟨.plain, [("$ref", .str r)]⟩ := by rw [hcellH]; exact hc0
  obtain ⟨hcb, _, hdt⟩ := derefVisit_ref env loaders recur mf doc H0 H root path top s o r tt
    hloader hm hids hpre.missing hpre.history hroot hpre.between hcellH hd0 hhash hne htarget
    hplain
  have hP : ∀ m, IsNode m tt → m.hasRef = false := by
    intro m hmn
    simpa using Json.all_isNode _ tt (le_refl _) hfree m hmn
  have hpost : WalkPost H0 root lo (top + 1) H H := by
    refine ⟨?_, fun _ _ => rfl, hpre.between⟩
    intro c h1 h2
    have : c = top := by omega
    subst this
    rw [hcH, resolved_get, hc0]
    simp [fixCell, fixVal, getProp, strOf]
  refine ⟨?_, hpost⟩
  obtain ⟨tv, htv⟩ : ∃ tv, tv = fixVal H0 root (.obj top) := ⟨_, rfl⟩
  rw [← htv] at hcb hdt ⊢
  have hcirc := @above_any _ _ top hpre.above (by omega)
  have hb2 : Between H0 root (walkOut H0 root parents path (.obj top) H) :=
    between_walkOut hpre (by simp) hpre.between
  have hH2 : updateParent H (some ⟨tv, false⟩) parents path =
      walkOut H0 root parents path (.obj top) H := by
    unfold walkOut updateParent
    rw [← htv]
    cases parents.getLast? <;> cases path.getLast? <;> rfl
  have hneq : tv ≠ .obj top := by
    intro e
    rw [e] at hdt
    have := deepEq_functional _ _ (le_refl _) H0 _ _ hd0 hdt
    have h1 := hP tt .here
    rw [← this] at h1
    simp [Json.hasRef, Json.strMember, Json.member, Json.props, lookupJ, Json.asStr] at h1
  rw [walker]
  simp only [hcb, hH2, hcirc, Bool.and_false, Bool.not_false, Bool.and_true, Bool.true_and]
  cases hobj : isObject tv with
  | false => simp
  | true =>
    obtain ⟨b, rfl⟩ : ∃ b, tv = .obj b := by
      cases tv <;> simp [isObject] at hobj
      exact ⟨_, rfl⟩
    have hdt2 : deepEq (walkOut H0 root parents path (.obj top) H) (.obj b) tt = true :=
      between_deepEq_free hb2 _ tt (le_refl _) hfree _ hdt
    have hcont : tt.isContainer = true := by rw [← deepEq_isObject hdt]; rfl
    have htsz : tt.size ≤ doc.size := Json.nodeAt_size_le _ _ _ htarget
    -- the ancestors lead to the target now
    have hlink2 : ∀ p key, parents.getLast? = some p → path.getLast? = some key →
        getProp (walkOut H0 root parents path (.obj top) H) p.node_ key = .obj b := by
      intro p key hp hk
      obtain ⟨a, rfl, _, hg⟩ := chain_last hpre.chain p key hp hk
      obtain ⟨o0, h0, _⟩ := getProp_some hg (by simp)
      obtain ⟨oH, hoH, _, _⟩ := hpre.between.2 a o0 h0
      simp only [walkOut, hp, hk, ← htv]
      exact getProp_setProp key _ hoH
    have hfol := chain_follow hb2 hpre.chain (.obj b) hlink2
    have hcell2 : (walkOut H0 root parents path (.obj top) H)[top]? =
        some ⟨.plain, [("$ref", .str r)]⟩ := by
      rw [← hcH]
      unfold walkOut
      cases hp : parents.getLast? with
      | none => rfl
      | some p =>
        cases hk : path.getLast? with
        | none => rfl
        | some key =>
          simp only []
          obtain ⟨a, rfl, _, _⟩ := chain_last hpre.chain p key hp hk
          obtain ⟨a', ha', hge⟩ := hpre.above _ (List.mem_of_getLast?_eq_some hp)
          simp only [Val.obj.injEq] at ha'
          subst ha'
          exact setProp_get_other _ _ _ _ _ (by omega)
    have hfold := walker_children_pure (derefVisit env loaders recur mf root)
      (fun m => m.hasRef = false)
      (fun path v t s H hp hd => derefVisit_plain env loaders recur mf root path v t s H hp hd)
      n tt hcont (by omega) (Json.nodeAt_wf _ _ _ hwf htarget) hP path
      (parents ++ [⟨.obj top, .obj b⟩]) b (s, o) (walkOut H0 root parents path (.obj top) H)
      hdt2
      (by
        intro fr hfr k x m hx hmn
        have hmsz : m.size ≤ tt.size := by
          have h1 := hmn.size_le
          have h2 := Json.size_member hx
          omega
        rcases List.mem_append.1 hfr with hfr | hfr
        · obtain ⟨ks, hks, hf⟩ := hfol fr hfr
          exact not_deepEq_of_follow hf hks hdt2 hmsz
        · simp only [List.mem_singleton] at hfr
          subst hfr
          cases hdm : deepEq (walkOut H0 root parents path (.obj top) H) (Val.obj top) m with
          | false => rfl
          | true =>
            have h1 := strOf_getProp hdm "$ref"
            have h2 := hP m (IsNode.member hx hmn)
            simp only [getProp, hcell2, assoc, if_true, Option.getD_some, strOf] at h1
            unfold Json.hasRef at h2
            rw [← h1] at h2
            simp at h2)
      (by intro p hp; simp at hp; subst hp; rfl)
    have hdec : (decide (Val.obj b = Val.obj top)) = false := by simpa using hneq
    simp only [hdec, Bool.and_false, Bool.false_eq_true, if_false, if_true, hfold]

theorem updateParent_none (H : Heap) (parents : List Frame) (path : List String) :
    updateParent H none parents path = H := rfl

/-- The walk of `derefSchema` over a node of the clone, with default options:
    every pointer to a reference node below it is replaced by the pointer to its
    target, and nothing else changes. -/
theorem walker_subst (env : Env) (loaders : Loaders)
    (recur : Val → Options → State → Heap → Except Exn (Res × World)) (mf : Nat)
    (doc : Json) (o : Options) (H0 : Heap) (root : Val)
    (hloader : loaders .local = none) (hm : o.mergeAdditionalProperties = false)
    (hids : o.removeIds = false) (hroot : deepEq H0 root doc = true) (hwf : doc.wf = true) :
    ∀ (n : Nat) (t : Json), t.size + doc.size ≤ n → (∀ m, IsNode m t → doc.refOK m = true) →
      t.wf = true → ∀ (lo hi : Nat) (v : Val), allocAt H0 t lo hi v →
      ∀ (path : List String) (parents : List Frame) (s : State) (H : Heap),
        WalkPre H0 root lo hi v parents path s H →
        ∃ Hm, walker (derefVisit env loaders recur mf root) n path parents v (s, o) H =
            .ok (fixVal H0 root v, (s, o), walkOut H0 root parents path v Hm) ∧
          WalkPost H0 root lo hi H Hm := by
  intro n
  induction n with
  | zero => intro t h; have := t.size_pos; omega
  | succ n ih =>
    intro t hsz hok hwft lo hi v hat path parents s H hpre
    have hdsz : doc.size ≤ n := by have := t.size_pos; omega
    cases href : t.hasRef with
    | true =>
      obtain ⟨r, tt, rfl, hhash, hne, htarget, hplain, hfree⟩ := Json.refOK_ref (hok t .here) href
      exact ⟨H, walker_subst_ref env loaders recur mf doc o H0 root hloader hm hids hroot hwf n
        hdsz r tt hhash hne htarget hplain hfree lo hi v hat path parents s H hpre⟩
    | false =>
      cases hc : t.isContainer with
      | false =>
        exact ⟨H, walker_subst_scalar env loaders recur mf o H0 root n t hc lo hi v hat path
          parents s H hpre⟩
      | true =>
        obtain ⟨_, hd0, hstab⟩ := allocAt_facts _ t (le_refl _) H0 lo hi v hat
        obtain ⟨top, ps0, rfl, rfl, h0top, hfa⟩ := (allocAt_container hc).1 hat
        obtain ⟨hlt, hps0, _⟩ := allocFieldsAt_facts _ _ _ _ hfa
        have hHtop : H[top]? = some ⟨t.kind, ps0⟩ := by
          rw [hpre.agree top hlt (by omega)]; exact h0top
        have hdH : deepEq H (.obj top) t = true :=
          (allocAt_facts _ t (le_refl _) H lo (top + 1) _ (hstab H hpre.agree)).2.1
        have hfix : fixVal H0 root (.obj top) = .obj top := fixVal_plain hd0 href
        have hcb := derefVisit_plain env loaders recur mf root path (.obj top) t (s, o) H href hdH
        have hcirc := @above_any _ _ top hpre.above (by omega)
        have hnd : (ps0.map Prod.fst).Nodup := by
          rw [forall₂_keys hps0]; exact (Json.wf_props hwft).1
        have href0 : strOf (getProp H0 (.obj top) "$ref") = none := by
          rw [strOf_getProp hd0]
          unfold Json.hasRef at href
          cases hm' : t.strMember "$ref" <;> simp_all
        have fold : ∀ (suf : List (String × Val)) (kvsuf : List (String × Json))
            (pre : List (String × Val)) (mid : Nat) (Hc : Heap),
            ps0 = pre ++ suf → (∀ kv ∈ kvsuf, kv ∈ t.props) →
            allocFieldsAt H0 kvsuf mid top suf → lo ≤ mid → Between H0 root Hc →
            (∀ c, lo ≤ c → c < mid → Hc[c]? = (resolved H0 root)[c]?) →
            (∀ c, mid ≤ c → c < top → Hc[c]? = H0[c]?) →
            (∀ c, ¬ (lo ≤ c ∧ c < top + 1) → Hc[c]? = H[c]?) →
            Hc[top]? = some ⟨t.kind, pre.map (fun p => (p.1, fixVal H0 root p.2)) ++ suf⟩ →
            ∃ Hm, (suf.map Prod.fst).foldlM (fun (acc : (State × Options) × Heap) key =>
                ((walker (derefVisit env loaders recur mf root) n (path ++ [key])
                  (parents ++ [⟨Val.obj top, Val.obj top⟩]) (getProp acc.2 (Val.obj top) key)
                  acc.1 acc.2).map Prod.snd : Except Exn ((State × Options) × Heap)))
                ((s, o), Hc) = .ok ((s, o), Hm) ∧
              Between H0 root Hm ∧
              (∀ c, lo ≤ c → c < top → Hm[c]? = (resolved H0 root)[c]?) ∧
              (∀ c, ¬ (lo ≤ c ∧ c < top + 1) → Hm[c]? = H[c]?) ∧
              Hm[top]? = some ⟨t.kind, ps0.map (fun p => (p.1, fixVal H0 root p.2))⟩ := by
          intro suf
          induction suf with
          | nil =>
            intro kvsuf pre mid Hc h1 _ h3 _ h5 h6 _ h8 h9
            cases kvsuf with
            | nil =>
              obtain ⟨rfl, _⟩ := allocFieldsAt_nil.1 h3
              simp only [List.append_nil] at h1 h9
              subst h1
              exact ⟨Hc, rfl, h5, h6, h8, h9⟩
            | cons kv kvs =>
              obtain ⟨k, x⟩ := kv
              obtain ⟨_, _, _, hcontra, _, _⟩ := allocFieldsAt_cons.1 h3
              cases hcontra
          | cons p suf ihs =>
            intro kvsuf pre mid Hc h1 h2 h3 h4 h5 h6 h7 h8 h9
            cases kvsuf with
            | nil =>
              obtain ⟨_, hcontra⟩ := allocFieldsAt_nil.1 h3
              cases hcontra
            | cons kv kvs =>
              obtain ⟨k, x⟩ := kv
              obtain ⟨w, rest, mid', heq, hx, hrest⟩ := allocFieldsAt_cons.1 h3
              cases heq
              obtain ⟨hlex, hdx, _⟩ := allocAt_facts _ x (le_refl _) H0 mid mid' w hx
              have hle' : mid' ≤ top := (allocFieldsAt_facts _ _ _ _ hrest).1
              have hmem : (k, x) ∈ t.props := h2 _ (List.mem_cons_self _ _)
              have hnotin : k ∉ pre.map Prod.fst := by
                rw [h1, List.map_append, List.nodup_append] at hnd
                intro hin
                exact hnd.2.2 hin (by simp)
              have hassoc0 : assoc k ps0 = some w := by
                rw [h1]; exact assoc_append_of_not_mem pre suf hnotin
              have hnotin' : k ∉ (pre.map (fun p => (p.1, fixVal H0 root p.2))).map Prod.fst := by
                simpa [List.map_map, Function.comp] using hnotin
              have hget : getProp Hc (Val.obj top) k = w := by
                simp only [getProp, h9, assoc_append_of_not_mem _ suf hnotin', Option.getD_some]
              have hg0 : getProp H0 (Val.obj top) k = w := by
                simp only [getProp, h0top, hassoc0, Option.getD_some]
              have hxsz : x.size + doc.size ≤ n := by
                have := Json.size_member hmem; omega
              have hprec : WalkPre H0 root mid mid' w (parents ++ [⟨Val.obj top, Val.obj top⟩])
                  (path ++ [k]) s Hc := by
                refine ⟨hpre.missing, hpre.history, h5,
                  fun c hc1 hc2 => h7 c hc1 (by omega), ?_,
                  Chain.snoc parents path top k w hpre.chain href0 hg0, ?_⟩
                · intro fr hfr
                  rcases List.mem_append.1 hfr with hfr | hfr
                  · obtain ⟨a, ha, hge⟩ := hpre.above fr hfr
                    exact ⟨a, ha, by omega⟩
                  · simp only [List.mem_singleton] at hfr
                    subst hfr
                    exact ⟨top, rfl, hle'⟩
                · intro p key hp hk
                  simp at hp hk
                  subst hp; subst hk
                  exact hget
              obtain ⟨Hm1, hw1, post1⟩ := ih x hxsz (fun m hmn => hok m (IsNode.member hmem hmn))
                (Json.wf_member hwft hmem) mid mid' w hx (path ++ [k])
                (parents ++ [⟨Val.obj top, Val.obj top⟩]) s Hc hprec
              rw [walkOut_snoc] at hw1
              have hcell1 : Hm1[top]? = some ⟨t.kind,
                  pre.map (fun p => (p.1, fixVal H0 root p.2)) ++ (k, w) :: suf⟩ := by
                rw [post1.frame top (by omega)]; exact h9
              have hother : ∀ c, c ≠ top →
                  (setProp Hm1 (Val.obj top) k (fixVal H0 root w))[c]? = Hm1[c]? :=
                fun c hc => setProp_get_other _ _ _ _ _ hc
              obtain ⟨Hm, e, r1, r2, r3, r4⟩ := ihs kvs (pre ++ [(k, w)]) mid'
                (setProp Hm1 (Val.obj top) k (fixVal H0 root w))
                (by simp [h1]) (fun kv h => h2 kv (List.mem_cons_of_mem _ h)) hrest (by omega)
                (between_setProp post1.between top ⟨t.kind, ps0⟩ k w h0top hassoc0)
                (by
                  intro c hc1 hc2
                  rw [hother c (by omega)]
                  by_cases hcm : c < mid
                  · rw [post1.frame c (by omega)]; exact h6 c hc1 hcm
                  · exact post1.done c (by omega) hc2)
                (by
                  intro c hc1 hc2
                  rw [hother c (by omega), post1.frame c (by omega)]
                  exact h7 c (by omega) hc2)
                (by
                  intro c hc
                  rw [hother c (by omega), post1.frame c (by omega)]
                  exact h8 c hc)
                (by
                  rw [setProp_get_same _ _ _ _ _ hcell1]
                  simp [setKey_append_mid _ _ _ _ _ hnotin'])
              refine ⟨Hm, ?_, r1, r2, r3, r4⟩
              simp only [List.map_cons, List.foldlM_cons, hget, hw1, Except.map, bind,
                Except.bind]
              exact e
        obtain ⟨Hm, hf, hbm, hdone, hframe, hcellm⟩ := fold ps0 t.props [] lo H rfl
          (fun _ h => h) hfa (le_refl _) hpre.between (fun c h1 h2 => by omega)
          (fun c h1 h2 => hpre.agree c h1 (by omega)) (fun _ _ => rfl) (by simpa using hHtop)
        refine ⟨Hm, ?_, ⟨?_, hframe, hbm⟩⟩
        · rw [walker]
          simp only [hcb, updateParent_none, hcirc, Bool.and_false, Bool.not_false, Bool.and_true,
            Bool.true_and, isObject, if_true, decide_True, objectKeys, hHtop, hf]
          rw [hfix, walkOut_same hpre hframe hfix (by simp)]
        · intro c hc1 hc2
          by_cases hct : c < top
          · exact hdone c hc1 hct
          · have : c = top := by omega
            subst this
            rw [hcellm, resolved_get, h0top]
            rfl

/-! ## Lemmas: the result of the walk, as a document -/

theorem indexed_substItems (doc : Json) : ∀ (xs : List Json) (i : Nat),
    indexed (substItems doc xs) i = (indexed xs i).map (fun kv => (kv.1, Json.subst doc kv.2)) := by
  intro xs
  induction xs with
  | nil => intro i; rfl
  | cons x xs ih => intro i; simp [substItems, indexed, ih]

theorem substFields_eq (doc : Json) : ∀ (kvs : List (String × Json)),
    substFields doc kvs = kvs.map (fun kv => (kv.1, Json.subst doc kv.2)) := by
  intro kvs
  induction kvs with
  | nil => rfl
  | cons kv kvs ih => obtain ⟨k, x⟩ := kv; simp [substFields, ih]

theorem Json.subst_scalar (doc : Json) {t : Json} (hc : t.isContainer = false) :
    Json.subst doc t = t := by
  cases t <;> simp [Json.isContainer] at hc <;> simp [Json.subst]

theorem Json.subst_container (doc : Json) {t : Json} (hc : t.isContainer = true)
    (hr : t.hasRef = false) :
    (Json.subst doc t).isContainer = true ∧ (Json.subst doc t).kind = t.kind ∧
      (Json.subst doc t).props = t.props.map (fun kv => (kv.1, Json.subst doc kv.2)) := by
  cases t with
  | arr xs => simp [Json.subst, Json.isContainer, Json.kind, Json.props, indexed_substItems]
  | obj kvs =>
    unfold Json.hasRef at hr
    cases hs : (Json.obj kvs).strMember "$ref" with
    | some r => simp [hs] at hr
    | none => simp [Json.subst, hs, Json.isContainer, Json.kind, Json.props, substFields_eq]
  | _ => simp [Json.isContainer] at hc

/-- The heap of the end holds, at the value that takes the place of a node of
    the document, the node with its reference nodes replaced. -/
theorem fix_deepEq (doc : Json) (H0 : Heap) (root : Val) (hroot : deepEq H0 root doc = true) :
    ∀ (n : Nat) (t : Json), t.size ≤ n → (∀ m, IsNode m t → doc.refOK m = true) → ∀ (v : Val),
      deepEq H0 v t = true →
      deepEq (resolved H0 root) (fixVal H0 root v) (Json.subst doc t) = true := by
  intro n
  induction n with
  | zero => intro t h; have := t.size_pos; omega
  | succ n ih =>
    intro t hsz hok v hd
    cases href : t.hasRef with
    | true =>
      obtain ⟨r, tt, rfl, hhash, hne, htarget, hplain, hfree⟩ := Json.refOK_ref (hok t .here) href
      obtain ⟨a, _, rfl, _, _, _⟩ :=
        (deepEq_container (t := .obj [("$ref", .str r)]) rfl).1 hd
      have hc0 := refCell_props hd
      obtain ⟨tv, _, e2, e3⟩ :=
        between_resolve (between_refl H0 root) (refPathKeys r) doc root tt hroot hplain htarget
      have hfix : fixVal H0 root (.obj a) = tv := by
        have e2' : getRefPathValue H0 root r = .ok tv := e2
        simp [fixVal, getProp, hc0, assoc, strOf, e2']
      have hsub : Json.subst doc (.obj [("$ref", .str r)]) = tt := by
        simp [Json.subst, Json.strMember, Json.member, Json.props, lookupJ, Json.asStr, htarget]
      rw [hfix, hsub]
      exact between_deepEq_free (between_resolved H0 root) _ tt (le_refl _) hfree tv e3
    | false =>
      rw [fixVal_plain hd href]
      cases hc : t.isContainer with
      | false =>
        rw [Json.subst_scalar doc hc]
        exact (deepEq_scalar hc hd).2 _
      | true =>
        obtain ⟨a, o, rfl, hH, hk, hps⟩ := (deepEq_container hc).1 hd
        obtain ⟨hc', hk', hp'⟩ := Json.subst_container doc hc href
        refine (deepEq_container hc').2 ⟨a, fixCell H0 root o, rfl, ?_, ?_, ?_⟩
        · rw [resolved_get, hH]; rfl
        · rw [hk']; exact hk
        · rw [hp']
          have key : ∀ (ps : List (String × Val)) (l : List (String × Json)),
              (∀ kv ∈ l, kv ∈ t.props) → List.Forall₂ (Rel H0) ps l →
              List.Forall₂ (Rel (resolved H0 root))
                (ps.map (fun p => (p.1, fixVal H0 root p.2)))
                (l.map (fun kv => (kv.1, Json.subst doc kv.2))) := by
            intro ps l hl h
            induction h with
            | nil => exact .nil
            | @cons p kv ps l r _ ihl =>
              refine .cons ⟨r.1, ?_⟩ (ihl (fun kv h => hl kv (List.mem_cons_of_mem _ h)))
              have hmem : (kv.1, kv.2) ∈ t.props := hl kv (List.mem_cons_self _ _)
              have := Json.size_member hmem
              exact ih kv.2 (by omega) (fun m hmn => hok m (IsNode.member hmem hmn)) p.2 r.2
          exact key o.props t.props (fun _ h => h) hps

/-- The walk of `derefSchema` over a whole document with default options, when
    every reference node is as `refOK` says and the static check passes: `deref`
    returns the document with each reference node replaced by its target. -/
theorem deref_subst (env : Env) (loaders : Loaders) (doc : Json) (o : Options) (n : Nat)
    (hloader : loaders .local = none) (hm : o.mergeAdditionalProperties = false)
    (hids : o.removeIds = false) (hwf : doc.wf = true)
    (hok : doc.all (Json.refOK doc) = true) (hn : 2 * doc.size ≤ n)
    (hcheck : checkLocalCircular env n (alloc doc []).2 (alloc doc []).1 = .ok none) :
    returnsDoc (deref env loaders (n + 1) doc o) (Json.subst doc doc) = true := by
  have hroot := deepEq_alloc doc
  have hat := (alloc_layout _ doc (le_refl _) []).2
  have hnodes : ∀ m, IsNode m doc → doc.refOK m = true :=
    fun m hmn => Json.all_isNode _ doc (le_refl _) hok m hmn
  have hpre : WalkPre (alloc doc []).2 (alloc doc []).1 ([] : Heap).length (alloc doc []).2.length
      (alloc doc []).1 [] [] (initState env doc o) (alloc doc []).2 :=
    ⟨rfl, rfl, between_refl _ _, fun _ _ _ => rfl, by simp, Chain.nil _, by simp⟩
  obtain ⟨Hm, hw, post⟩ := walker_subst env loaders (derefSchema env loaders n) n doc o
    (alloc doc []).2 (alloc doc []).1 hloader hm hids hroot hwf n doc (by omega) hnodes hwf _ _ _
    hat [] [] (initState env doc o) (alloc doc []).2 hpre
  rw [walkOut_nil] at hw
  rw [deref_of_walker env loaders doc o n _ _ _ hcheck hw]
  have herr : (initState env doc o).error = none := rfl
  simp only [herr, returnsDoc]
  apply deepEq_of_agree _ _ (le_refl _) _ _
    (fix_deepEq doc _ _ hroot _ doc (le_refl _) hnodes _ hroot)
  intro c hc
  have hlen : (resolved (alloc doc []).2 (alloc doc []).1).length = (alloc doc []).2.length := by
    simp [resolved]
  exact post.done c (Nat.zero_le _) (by omega)

/-! ## Lemmas: documents without references, paths, cyclic results -/

/-- On a document with no reference node, `deref` returns the clone untouched. -/
theorem deref_plain (env : Env) (loaders : Loaders) (doc : Json) (o : Options) (n : Nat)
    (hwf : doc.wf = true) (hfree : ∀ m, IsNode m doc → m.hasRef = false) (hn : doc.size ≤ n) :
    deref env loaders (n + 1) doc o = .ok (.value (alloc doc []).1, (alloc doc []).2) := by
  have hcheck : checkLocalCircular env n (alloc doc []).2 (alloc doc []).1 = .ok none := by
    rw [checkLocalCircular_eq env doc hwf n hn _ _ (deepEq_alloc doc),
      localsOf_external env doc (fun m hm => by simp [Json.externalOrPlain, hfree m hm])]
    rfl
  have hw := (walker_pure (derefVisit env loaders (derefSchema env loaders n) n (alloc doc []).1)
    (fun _ _ s => (s, none)) (fun t => t.hasRef = false) (fun _ => True)
    (fun path v t s H hp _ hd =>
      derefVisit_plain env loaders (derefSchema env loaders n) n _ path v t s H hp hd)
    (fun _ _ _ _ _ => trivial) n doc hn hwf hfree [] [] (alloc doc []).1 (initState env doc o, o)
    (alloc doc []).2 trivial (deepEq_alloc doc) (by intro fr hfr; cases hfr)
    (by intro p key hp; cases hp)).1
  rw [twalk_id _ _ doc (le_refl _) (fun _ _ _ _ => rfl)] at hw
  rw [deref_of_walker env loaders doc o n _ _ _ hcheck hw]
  rfl

theorem intercalate_go_append (s : String) : ∀ (l : List String) (acc : String),
    String.intercalate.go acc s l = acc ++ String.intercalate.go "" s l := by
  intro l
  induction l with
  | nil => intro acc; simp [String.intercalate.go]
  | cons a as ih =>
    intro acc
    simp only [String.intercalate.go]
    rw [ih (acc ++ s ++ a), ih ("" ++ s ++ a)]
    simp [String.append_assoc]

theorem joinPath_cons (k : String) (ks : List String) :
    joinPath (k :: ks) = k ++ String.intercalate.go "" "/" ks := by
  simp only [joinPath, String.intercalate]
  exact intercalate_go_append "/" ks k

theorem isPrefixOf_append_left (l : List Char) : ∀ (a b : List Char),
    (l ++ a).isPrefixOf (l ++ b) = a.isPrefixOf b := by
  induction l with
  | nil => intro a b; rfl
  | cons c l ih => intro a b; simp [List.isPrefixOf, ih]

theorem go_take_isPrefixOf : ∀ (ks : List String) (j : Nat),
    ((String.intercalate.go "" "/" (ks.take j)) ++ "/").data.isPrefixOf
      ((String.intercalate.go "" "/" ks) ++ "/").data = true := by
  intro ks
  induction ks with
  | nil => intro j; simp [String.intercalate.go, isPrefixOf_self]
  | cons a r ih =>
    intro j
    cases j with
    | zero =>
      simp only [List.take_zero, String.intercalate.go]
      rw [intercalate_go_append "/" r]
      simp [String.data_append, List.isPrefixOf]
    | succ j =>
      simp only [List.take_succ_cons, String.intercalate.go]
      rw [intercalate_go_append "/" r, intercalate_go_append "/" (r.take j)]
      simp only [String.data_append, List.append_assoc]
      rw [isPrefixOf_append_left, isPrefixOf_append_left, isPrefixOf_append_left]
      have := ih j
      simpa [String.data_append] using this

/-- The path of a node, with a trailing `/`, has as a prefix the path of each of
    its ancestors and its own, with a trailing `/`. -/
theorem joinPath_take_isPrefixOf (ks : List String) (m : Nat) (hm : 1 ≤ m) :
    ((joinPath (ks.take m)) ++ "/").data.isPrefixOf ((joinPath ks) ++ "/").data = true := by
  cases ks with
  | nil => simp [isPrefixOf_self]
  | cons k r =>
    obtain ⟨j, rfl⟩ : ∃ j, m = j + 1 := ⟨m - 1, by omega⟩
    simp only [List.take_succ_cons, joinPath_cons, String.data_append, List.append_assoc]
    rw [isPrefixOf_append_left]
    have := go_take_isPrefixOf r j
    simpa [String.data_append] using this

theorem isPrefixOf_slash (X : List Char) : ∀ (a b : List Char), '/' ∉ a → '/' ∉ b →
    (a ++ ['/']).isPrefixOf (b ++ '/' :: X) = true → a = b := by
  intro a
  induction a with
  | nil =>
    intro b _ hb h
    cases b with
    | nil => rfl
    | cons d b =>
      simp only [List.nil_append, List.cons_append, List.isPrefixOf, Bool.and_eq_true,
        beq_iff_eq] at h
      exact absurd h.1.symm (by intro e; apply hb; simp [e])
  | cons c a ih =>
    intro b ha hb h
    cases b with
    | nil =>
      simp only [List.nil_append, List.cons_append, List.isPrefixOf, Bool.and_eq_true,
        beq_iff_eq] at h
      exact absurd h.1 (by intro e; apply ha; simp [e])
    | cons d b =>
      simp only [List.cons_append, List.isPrefixOf, Bool.and_eq_true, beq_iff_eq] at h
      rw [h.1, ih b (fun hin => ha (List.mem_cons_of_mem _ hin))
        (fun hin => hb (List.mem_cons_of_mem _ hin)) h.2]

theorem joinPath_slash_data (k : String) (rest : List String) :
    ∃ X, (joinPath (k :: rest) ++ "/").data = k.data ++ '/' :: X := by
  rw [joinPath_cons]
  cases rest with
  | nil => exact ⟨[], by simp [String.intercalate.go, String.data_append]⟩
  | cons a r =>
    refine ⟨a.data ++ (String.intercalate.go "" "/" r).data ++ ['/'], ?_⟩
    simp only [String.intercalate.go]
    rw [intercalate_go_append "/" r]
    simp [String.data_append]

/-- The prefix rule of the static check does not fire for a reference node under
    the key `k` whose target is another key `t`. -/
theorem findCircular_other_key (k t : String) (rest : List String) (hk : '/' ∉ k.data)
    (ht : '/' ∉ t.data) (hne : t ≠ k) :
    findCircular DAG.empty [⟨joinPath (k :: rest), "#/" ++ t⟩] = .ok none := by
  obtain ⟨X, hX⟩ := joinPath_slash_data k rest
  have hpre : (t ++ "/").data.isPrefixOf (joinPath (k :: rest) ++ "/").data = false := by
    cases hp : (t ++ "/").data.isPrefixOf (joinPath (k :: rest) ++ "/").data with
    | false => rfl
    | true =>
      exfalso
      apply hne
      rw [hX] at hp
      have := isPrefixOf_slash X t.data k.data ht hk (by simpa [String.data_append] using hp)
      exact String.ext this
  have hfd : joinPath (k :: rest) ++ "/" ≠ t ++ "/" := by
    intro e
    rw [e, isPrefixOf_self] at hpre
    cases hpre
  have hk0 : joinPath (k :: rest) ++ "/" ≠ "" := by
    intro e
    have := congrArg String.length e
    simp at this
    exact absurd this.2 (by decide)
  have ht0 : t ++ "/" ≠ "" := by
    intro e
    have := congrArg String.length e
    simp at this
    exact absurd this.2 (by decide)
  have hadd : DAG.empty.addEdge (joinPath (k :: rest) ++ "/") (t ++ "/") =
      .ok ⟨[joinPath (k :: rest) ++ "/", t ++ "/"], [(joinPath (k :: rest) ++ "/", t ++ "/")]⟩ := by
    simp [DAG.addEdge, DAG.add, DAG.empty, DAG.visit, DAG.incoming, hfd, hk0, ht0, hfd.symm,
      pure, Except.pure]
  simp only [findCircular, drop_two, hadd, hpre, Bool.false_eq_true, if_false]

theorem refNode_local (env : Env) (s : String) (hs : s.data.head? = some '#') :
    (refNode s).hasRef = true ∧ (refNode s).refType env = some .local ∧
      (refNode s).refValue = some s := by
  have hne : s ≠ "" := by intro e; subst e; simp at hs
  refine ⟨by simp [refNode, Json.hasRef, Json.strMember, Json.member, Json.props, lookupJ,
    Json.asStr], ?_, ?_⟩ <;>
  simp [refNode, Json.refType, Json.refValue, Json.strMember, Json.member, Json.props, lookupJ,
    Json.asStr, Json.truthy, hne, hs]

theorem hash_slash_head (s : String) : ("#/" ++ s).data.head? = some '#' := by
  cases s
  rfl

/-- A value from which some keys lead to an object that other keys lead back to
    is not the clone of any document. -/
theorem deepEq_follow {H : Heap} : ∀ (ks : List String) (v : Val) (t : Json),
    deepEq H v t = true → isObject (follow H v ks) = true →
    ∃ tw, deepEq H (follow H v ks) tw = true := by
  intro ks
  induction ks with
  | nil => intro v t hd _; exact ⟨t, hd⟩
  | cons k ks ih =>
    intro v t hd ho
    rcases getProp_cases hd k with ⟨x, _, h2⟩ | ⟨_, h2⟩
    · exact ih (getProp H v k) x h2 ho
    · exfalso
      have : follow H v (k :: ks) = follow H (getProp H v k) ks := rfl
      rw [this, h2, follow_undefined] at ho
      cases ho

theorem not_tree_of_cyclic (r : Except Exn (Res × Heap)) (ks1 ks2 : List String)
    (h : returnsCyclic r ks1 ks2 = true) (hne : ks2 ≠ []) :
    ∃ v H, r = .ok (.value v, H) ∧ ∀ t, deepEq H v t = false := by
  unfold returnsCyclic at h
  split at h
  · rename_i v H
    refine ⟨v, H, rfl, ?_⟩
    intro t
    simp only [Bool.and_eq_true, decide_eq_true_eq] at h
    cases hd : deepEq H v t with
    | false => rfl
    | true =>
      obtain ⟨tw, htw⟩ := deepEq_follow ks1 v t hd h.1
      have := not_deepEq_of_follow h.2 hne htw (le_refl _)
      rw [htw] at this
      cases this
  · cases h

/-! ## Theorems -/

/-- C1 (code at the failing input): on the chain `a -> #/b`, `b -> #/c` with the
    keys in the order a, b, c, `deref` with default options returns
    `{ a: {$ref:'#/c'}, b: {x:1}, c: {x:1} }`, which still has a `$ref` key. -/
theorem C1_chain_leaves_ref :
    returnsDoc (deref exampleEnv noLoaders 10 chainDoc Options.default)
      (.obj [("a", refNode "#/c"), ("b", .obj [("x", .num 1)]), ("c", .obj [("x", .num 1)])])
      = true := by
  decide!

/-- C3 (code at the failing input): with `failOnMissing` false, `deref` of
    `{ a: {$ref:'#/x/y'} }` throws a `TypeError` instead of returning the document. -/
theorem C3_missing_intermediate_throws :
    deref exampleEnv noLoaders 10 missingIntermediateDoc Options.default
      = .error .typeError := by
  decide!

/-- C4 (code at the failing input): with `failOnMissing` true and the two
    unresolvable references `#/x` then `#/y`, `deref` returns the error of the
    last one, `Missing $ref: #/y`. -/
theorem C4_reports_last_missing :
    returnsError (deref exampleEnv noLoaders 10 twoMissingDoc failOnMissingOptions)
      "Missing $ref: #/y" = true := by
  decide!

/-- C5: a document that contains, at any depth, a reference node `{ $ref: '#' }`
    makes `deref` return the error `Circular self reference`, whatever the options
    and the loaders. -/
theorem C5_root_self_reference (env : Env) (loaders : Loaders) (doc : Json) (o : Options)
    (fuel : Nat) (hwf : doc.wf = true) (hnode : IsNode (refNode "#") doc)
    (hfuel : doc.size < fuel) :
    deref env loaders fuel doc o = .ok (.error "Circular self reference", (alloc doc []).2) := by
  obtain ⟨n, rfl⟩ : ∃ n, fuel = n + 1 := ⟨fuel - 1, by omega⟩
  apply deref_of_static_error
  rw [checkLocalCircular_eq env doc hwf n (by omega) _ _ (deepEq_alloc doc)]
  obtain ⟨rel, hrel⟩ := nodeAt_of_isNode hnode hwf
  obtain ⟨ext, he, hm⟩ := twalk_collect env _ doc (le_refl _) hwf [] []
  have hin := hm rel (refNode "#") "#" hrel rfl rfl rfl
  have hloc : localsOf env doc = ext := by simpa [localsOf] using he
  rw [hloc]
  have h1 : ext.isEmpty = false := by
    cases ext with
    | nil => cases hin
    | cons _ _ => rfl
  have h2 : ext.any (fun elem => decide (elem.to_ = "#")) = true :=
    List.any_eq_true.2 ⟨_, hin, by simp⟩
  simp [h1, h2]

/-- C5 at `{ a: [ { $ref: '#' } ] }` with default options. -/
theorem C5_root_self_reference_witness :
    deref exampleEnv noLoaders 10 selfRefDoc Options.default
      = .ok (.error "Circular self reference", (alloc selfRefDoc []).2) :=
  C5_root_self_reference exampleEnv noLoaders selfRefDoc Options.default 10 (by decide)
    (IsNode.field _ "a" _ (List.mem_cons_self _ _)
      (IsNode.item _ _ (List.mem_cons_self _ _) IsNode.here))
    (by decide)

/-- C10: in a document whose references are all file or web references, with no
    loader registered for `file` and `web`, every reference counts as not found:
    with `failOnMissing` false `deref` returns a document deeply equal to the
    input, and with `failOnMissing` true it returns an `Error` as soon as the
    document has a reference. -/
theorem C10_no_loader_not_found (env : Env) (loaders : Loaders) (doc : Json) (o : Options)
    (fuel : Nat) (hwf : doc.wf = true) (hfile : loaders .file = none)
    (hweb : loaders .web = none) (hext : doc.all (Json.externalOrPlain env) = true)
    (hfuel : doc.size < fuel) :
    (o.failOnMissing = false → returnsDoc (deref env loaders fuel doc o) doc = true) ∧
    (o.failOnMissing = true → (∃ m, IsNode m doc ∧ m.hasRef = true) →
      ∃ msg, deref env loaders fuel doc o = .ok (.error msg, (alloc doc []).2)) := by
  obtain ⟨n, rfl⟩ : ∃ n, fuel = n + 1 := ⟨fuel - 1, by omega⟩
  have hP := Json.all_isNode doc.size doc (le_refl _) hext
  have hcheck : checkLocalCircular env n (alloc doc []).2 (alloc doc []).1 = .ok none := by
    rw [checkLocalCircular_eq env doc hwf n (by omega) _ _ (deepEq_alloc doc),
      localsOf_external env doc hP]
    rfl
  obtain ⟨hw, herr⟩ := walker_missing env loaders (derefSchema env loaders n) hfile hweb doc o n
    hwf hext (by omega) (initState env doc o) rfl rfl _ _ (deepEq_alloc doc)
  constructor
  · intro hf
    rw [deref_of_walker env loaders doc o n _ _ _ hcheck hw, herr hf]
    exact deepEq_alloc doc
  · intro hf hex
    have he := (twalk_missing_error env doc.size doc (le_refl _) [] (initState env doc o, o) hf).2
      (.inr hex)
    obtain ⟨msg, hmsg⟩ := Option.isSome_iff_exists.1 he
    refine ⟨msg, ?_⟩
    rw [deref_of_walker env loaders doc o n _ _ _ hcheck hw, hmsg]

/-- C10 at `{ a: {$ref:'other.json#/x'}, b: [ {$ref:'defs.json'} ] }` with the default
    `loaders: {}`. -/
theorem C10_no_loader_not_found_witness :
    (Options.default.failOnMissing = false →
      returnsDoc (deref exampleEnv noLoaders 10 fileRefsDoc Options.default) fileRefsDoc = true) ∧
    (Options.default.failOnMissing = true → (∃ m, IsNode m fileRefsDoc ∧ m.hasRef = true) →
      ∃ msg, deref exampleEnv noLoaders 10 fileRefsDoc Options.default
        = .ok (.error msg, (alloc fileRefsDoc []).2)) :=
  C10_no_loader_not_found exampleEnv noLoaders fileRefsDoc Options.default 10 (by decide) rfl rfl
    (by decide) (by decide)

/-- C6: when the document holds local reference nodes at paths `p1 .. pk` that
    form a cycle (the fragment of each is `#/` followed by the path of the next,
    that of the last by the path of the first), `deref` returns an `Error`,
    whatever the options, the loaders and the order of the nodes in the document. -/
theorem C6_local_cycle (env : Env) (loaders : Loaders) (doc : Json) (o : Options)
    (fuel : Nat) (cyc : List (List String)) (hwf : doc.wf = true)
    (hcyc : isRefCycle doc cyc = true) (hfuel : doc.size < fuel) :
    ∃ msg, deref env loaders fuel doc o = .ok (.error msg, (alloc doc []).2) := by
  obtain ⟨n, rfl⟩ : ∃ n, fuel = n + 1 := ⟨fuel - 1, by omega⟩
  obtain ⟨elem, he⟩ := findCircular_of_cycle env doc hwf cyc hcyc
  have hcheck := checkLocalCircular_eq env doc hwf n (by omega) _ _ (deepEq_alloc doc)
  rw [he] at hcheck
  by_cases h1 : (localsOf env doc).isEmpty = true
  · rw [List.isEmpty_iff] at h1
    rw [h1] at he
    simp [findCircular] at he
  · by_cases h2 : (localsOf env doc).any (fun elem => decide (elem.to_ = "#")) = true
    · exact ⟨"Circular self reference",
        deref_of_static_error env loaders doc o n _ (by rw [hcheck]; simp [h1, h2])⟩
    · simp only [h1, h2, if_false] at hcheck
      exact ⟨_, deref_of_static_error env loaders doc o n _ hcheck⟩

/-- C6 at the mutual cycle `{ b: {$ref:'#/a'}, a: {$ref:'#/b'} }`, nodes `a` then `b`. -/
theorem C6_local_cycle_witness :
    ∃ msg, deref exampleEnv noLoaders 10 mutualCycleDoc Options.default
      = .ok (.error msg, (alloc mutualCycleDoc []).2) :=
  C6_local_cycle exampleEnv noLoaders mutualCycleDoc Options.default 10 [["a"], ["b"]]
    (by decide) (by decide) (by decide)

/-- C7 (the claim fails at these inputs): with `mergeAdditionalProperties`, on
    `{ a: {$ref:'#/b', p:{y:2}}, b: {p:{x:1}} }` the key `p` is in both the target
    and the siblings, and the substituted value has `p: {x:1, y:2}`, not the
    sibling's `{y:2}`; and on `{ a: {$ref:'#/b', p:['z']}, b: {p:{length:2}} }`, where
    lodash takes the target's `p` for array-like, the substituted value has
    `p: ['z', undefined]`, and `deref` throws a `TypeError` when the walk comes to
    the undefined element; and on `{ a: {$ref:'#/b', k:1}, b: {hasOwnProperty:1} }`
    with `removeIds` as well, the call `newValue.hasOwnProperty('$id')` throws a
    `TypeError`. -/
theorem C7_mapping_sibling_is_merged :
    returnsDoc (deref exampleEnv noLoaders 10 deepMergeDoc mergeOptions)
      (.obj [("a", .obj [("p", .obj [("x", .num 1), ("y", .num 2)])]),
        ("b", .obj [("p", .obj [("x", .num 1)])])]) = true ∧
    deref exampleEnv noLoaders 10 arrayLikeDoc mergeOptions = .error .typeError ∧
    deref exampleEnv noLoaders 10 shadowDoc mergeRemoveIdsOptions = .error .typeError := by
  refine ⟨?_, ?_, ?_⟩ <;> decide!

/-- C7 (amended): at a node with a string `$ref`, of any reference type, whose
    reference `addToHistory` accepts and for which `getRefSchema` returns a
    mapping, with `mergeAdditionalProperties` set: let `tkvs` be the members of
    the target and `nkvs` those of the node as `_.merge` reads them (`$ref` has
    been deleted from the node and, under `removeIds`, `$id` from the target).  If
    no value of a member of the target, and no node inside one, has a member
    `length` that is an integer from 0 to `Number.MAX_SAFE_INTEGER`, if no value
    of a sibling, and no node inside one, has a member named `length`, if neither
    the target nor the node has, at any depth, a member named `__proto__`, and if,
    under `removeIds`, the target has no member named `hasOwnProperty`, then the
    visitor substitutes a fresh object that has exactly the keys of `tkvs` and of
    `nkvs`; a key only the target has keeps the target's value; a sibling key has
    the sibling's value when the target has no such key, when one of the two
    values is a scalar, or when the sibling's value is a sequence and the
    target's a mapping (in the other cases lodash merges the two values
    recursively). -/
theorem C7_merge_siblings (env : Env) (loaders : Loaders)
    (recur : Val → Options → State → Heap → Except Exn (Res × World)) (fuel : Nat)
    (schema : Val) (path : List String) (node : Val) (s : State × Options) (H : Heap)
    (r0 : String) (st1 st2 : State) (target : Val) (o3 : Options) (st3 : State) (H3 : Heap)
    (tkvs nkvs : List (String × Json))
    (href : getProp H node "$ref" = .str r0)
    (hadd : addToHistory env s.1 (getRefType env H node) (getRefValue H node) = .ok (true, st1))
    (hcur : setCurrent st1 (getRefType env H node) (getRefValue H node) = .ok st2)
    (hres : getRefSchema loaders recur (getRefValue H node) (getRefType env H node) schema s.2
      st2 H = .ok (target, o3, st3, H3))
    (hm : o3.mergeAdditionalProperties = true)
    (ht : deepEq (preMerge o3 H3 target node) target (.obj tkvs) = true)
    (hn : deepEq (preMerge o3 H3 target node) node (.obj nkvs) = true)
    (htwf : (Json.obj tkvs).wf = true) (hnwf : (Json.obj nkvs).wf = true)
    (htsz : (Json.obj tkvs).size ≤ fuel) (hnsz : (Json.obj nkvs).size ≤ fuel)
    (htl : allFields (fun m => !m.arrayLike) tkvs = true)
    (hnl : allFields (fun m => !m.hasLength) nkvs = true)
    (htp : (Json.obj tkvs).all (fun m => !m.hasProto) = true)
    (hnp : (Json.obj nkvs).all (fun m => !m.hasProto) = true)
    (hown : o3.removeIds = true → hasOwn H3 target "hasOwnProperty" = false) :
    ∃ st' H', derefVisit env loaders recur fuel schema path node s H =
        .ok ((st', o3), H', some ⟨.obj H3.length, false⟩) ∧
      (∀ k, hasOwn H' (.obj H3.length) k = true ↔
        ((lookupJ k tkvs).isSome = true ∨ (lookupJ k nkvs).isSome = true)) ∧
      (∀ k x, lookupJ k nkvs = none → lookupJ k tkvs = some x →
        deepEq H' (getProp H' (.obj H3.length) k) x = true) ∧
      (∀ k y, lookupJ k nkvs = some y → siblingWins (lookupJ k tkvs) y = true →
        deepEq H' (getProp H' (.obj H3.length) k) y = true) := by
  obtain ⟨st', H', e, inv⟩ := derefVisit_merge env loaders recur fuel schema path node s H r0 st1
    st2 target o3 st3 H3 tkvs nkvs href hadd hcur hres hm ht hn htwf hnwf htsz hnsz htl hnl
    htp hnp hown
  obtain ⟨hk, hv⟩ := mergeInv_members inv
  obtain ⟨m1, m2, m3⟩ := mergeTop_members tkvs nkvs (Json.wf_props hnwf).1
  rw [preMerge_length] at hk hv
  refine ⟨st', H', e, ?_, ?_, ?_⟩
  · intro k; rw [hk, m1]
  · intro k x h1 h2; exact hv k x (m2 k x h1 h2)
  · intro k y h1 h2; exact hv k y (m3 k y h1 h2)

/-- C7 (amended) at the node `a` of `{ a: {$ref:'#/b', extra:5}, b: {x:1, extra:9} }`:
    the substituted object has `x: 1` from the target and `extra: 5` from the
    sibling. -/
theorem C7_merge_siblings_witness :
    ∃ st' H', derefVisit exampleEnv noLoaders (derefSchema exampleEnv noLoaders 9) 10
        (alloc siblingDoc []).1 ["a"] (.obj 0)
        (initState exampleEnv siblingDoc mergeOptions, mergeOptions) (alloc siblingDoc []).2 =
        .ok ((st', mergeOptions), H', some ⟨.obj 3, false⟩) ∧
      deepEq H' (getProp H' (.obj 3) "x") (.num 1) = true ∧
      deepEq H' (getProp H' (.obj 3) "extra") (.num 5) = true := by
  obtain ⟨st', H', h1, _, h3, h4⟩ := C7_merge_siblings exampleEnv noLoaders
    (derefSchema exampleEnv noLoaders 9) 10 (alloc siblingDoc []).1 ["a"] (.obj 0)
    (initState exampleEnv siblingDoc mergeOptions, mergeOptions) (alloc siblingDoc []).2
    "#/b" { initState exampleEnv siblingDoc mergeOptions with history := ["0:#/b"] }
    { initState exampleEnv siblingDoc mergeOptions with history := ["0:#/b"] } (.obj 1)
    mergeOptions { initState exampleEnv siblingDoc mergeOptions with history := ["0:#/b"] }
    (alloc siblingDoc []).2 [("x", .num 1), ("extra", .num 9)] [("extra", .num 5)]
    (by decide!) (by rfl) (by rfl) (by rfl) rfl (by decide!) (by decide!) (by decide!)
    (by decide!) (by decide!) (by decide!) (by decide!) (by decide!) (by decide!) (by decide!)
    (fun _ => by decide!)
  exact ⟨st', H', h1, h3 "x" _ (by simp [lookupJ]) (by simp [lookupJ]),
    h4 "extra" _ (by simp [lookupJ]) (by decide!)⟩
/-- C8 (code at the failing input): with default options, on
    `{ a: {$ref:'#/b', value:7}, b: {x:1} }` the reference node has a sibling named
    `value`; `getRefValue` reads `ref.value`, finds no reference, and `deref`
    returns the document unchanged: the node keeps `$ref` and its sibling.  With
    `failOnMissing` it returns the error `Missing $ref: undefined`. -/
theorem C8_value_sibling_kept :
    returnsDoc (deref exampleEnv noLoaders 10 valueSiblingDoc Options.default) valueSiblingDoc
      = true ∧
    returnsError (deref exampleEnv noLoaders 10 valueSiblingDoc failOnMissingOptions)
      "Missing $ref: undefined" = true := by
  constructor <;> decide!

/-- C9 (code at the failing input): on `{ a: {$ref:'#//a', $id:'n', k:1} }` the
    reference resolves to the reference node itself; with `removeIds` and
    `mergeAdditionalProperties` the `$id` of the node, a sibling of `$ref`, is
    deleted before the merge and `deref` returns `{ a: {k:1} }`; with
    `mergeAdditionalProperties` alone it returns `{ a: {$id:'n', k:1} }`. -/
theorem C9_sibling_id_removed :
    returnsDoc (deref exampleEnv noLoaders 10 selfMergeDoc mergeRemoveIdsOptions)
      (.obj [("a", .obj [("k", .num 1)])]) = true ∧
    returnsDoc (deref exampleEnv noLoaders 10 selfMergeDoc mergeOptions)
      (.obj [("a", .obj [("$id", .str "n"), ("k", .num 1)])]) = true := by
  constructor <;> decide!

/-- C2 (the claim fails at this input): `{ b: {$ref:'#/c'}, a: {$ref:'#/b/$ref'},
    c: {x:1} }` passes the static check, and each reference node has one key and a
    target that exists and holds no reference (the target of `a` is the string
    `'#/c'`).  With default options `deref` returns
    `{ b: {x:1}, a: {$ref:'#/b/$ref'}, c: {x:1} }`: the node `a` is not replaced by
    the string, since `b` was replaced before `a` was visited. -/
theorem C2_target_under_reference_node :
    checkLocalCircular exampleEnv 10 (alloc refKeyDoc []).2 (alloc refKeyDoc []).1 = .ok none ∧
    refKeyDoc.nodeAt (refPathKeys "#/b/$ref") = some (.str "#/c") ∧
    returnsDoc (deref exampleEnv noLoaders 11 refKeyDoc Options.default)
      (.obj [("b", .obj [("x", .num 1)]), ("a", refNode "#/b/$ref"), ("c", .obj [("x", .num 1)])])
      = true :=
  ⟨by decide!, by rfl, by decide!⟩

/-- C2 (amended): for a document that passes the static circular check and in
    which every reference node is a single-key `{ $ref: '#/p1/.../pn' }` whose
    target exists, is not reached through a reference node and holds no reference
    node, `deref` with `mergeAdditionalProperties` and `removeIds` off returns the
    document with each reference node replaced by the node at its target path, and
    every other node unchanged. -/
theorem C2_references_replaced (env : Env) (loaders : Loaders) (doc : Json) (o : Options)
    (n : Nat) (hloader : loaders .local = none) (hm : o.mergeAdditionalProperties = false)
    (hids : o.removeIds = false) (hwf : doc.wf = true)
    (hok : doc.all (Json.refOK doc) = true) (hn : 2 * doc.size ≤ n)
    (hcheck : checkLocalCircular env n (alloc doc []).2 (alloc doc []).1 = .ok none) :
    returnsDoc (deref env loaders (n + 1) doc o) (Json.subst doc doc) = true :=
  deref_subst env loaders doc o n hloader hm hids hwf hok hn hcheck

/-- C2 (amended) at `{ a: {$ref:'#/b'}, b: {x:1} }` with default options: the
    result is `{ a: {x:1}, b: {x:1} }`. -/
theorem C2_references_replaced_witness :
    Json.subst simpleRefDoc simpleRefDoc =
        .obj [("a", .obj [("x", .num 1)]), ("b", .obj [("x", .num 1)])] ∧
      returnsDoc (deref exampleEnv noLoaders 11 simpleRefDoc Options.default)
        (Json.subst simpleRefDoc simpleRefDoc) = true :=
  ⟨by rfl, C2_references_replaced exampleEnv noLoaders simpleRefDoc Options.default 10 rfl rfl
    rfl (by decide!) (by decide!) (by decide!) (by decide!)⟩

/-- C11 (code at the failing input): with `baseFolder: '/r'` and the files
    `/r/sub/a.json` = `{ c: {$ref:'b.json'} }`, `/r/sub/b.json` = `{ v: 1 }` and
    `/r/b.json` = `{ v: 2 }`, `deref` of `{ a: {$ref:'sub/a.json'}, b: {$ref:'b.json'} }`
    with the file loader returns `{ a: {c:{v:1}}, b: {v:1} }`: the reference `b.json`
    of the top-level document denotes `/r/b.json`, and is served from the cache
    with the content of `/r/sub/b.json`. -/
theorem C11_cache_serves_other_file :
    exampleFiles "/r/b.json" = some (.obj [("v", .num 2)]) ∧
    returnsDoc
      (deref exampleEnv (fileLoaders exampleSys exampleFiles) 21 nestedFolderDoc baseFolderOptions)
      (.obj [("a", .obj [("c", .obj [("v", .num 1)])]), ("b", .obj [("v", .num 1)])]) = true :=
  ⟨by rfl, by decide!⟩

/-- C12 (code at the failing input): `C.json` = `{ b: {$ref:'D.json'} }` and
    `D.json` = `{ c: {$ref:'C.json'}, d: {$ref:'#'} }` refer to each other, and
    `deref` of `{ a: {$ref:'C.json'} }` with the file loader returns a document, in
    which `a.b` is an `Error` object; whereas for `A.json` = `{ b: {$ref:'B.json'} }`
    and `B.json` = `{ c: {$ref:'A.json'} }` it returns the `Error`
    `circular references found: A.json,A.json`. -/
theorem C12_cycle_beside_static_error :
    returnsErrorAt
      (deref exampleEnv (fileLoaders exampleSys exampleFiles) 21 fileCycleStaticDoc
        Options.default) ["a", "b"] "Circular self reference" = true ∧
    returnsError
      (deref exampleEnv (fileLoaders exampleSys exampleFiles) 21 fileCycleDoc Options.default)
      "circular references found: A.json,A.json" = true :=
  ⟨by decide!, by decide!⟩

/-- C13 (code at the failing input): `self.json` = `{ x: {$ref:'#'} }` fails the
    static check, and `deref` of `{ a: {$ref:'self.json'} }` with the file loader
    returns a document in which `a` is the `Error` object of the static check;
    `deref` of `{ a: {$ref:'self.json#/x'} }` returns the document unchanged. -/
theorem C13_static_error_of_external_lost :
    returnsErrorAt
      (deref exampleEnv (fileLoaders exampleSys exampleFiles) 21 externalStaticDoc
        Options.default) ["a"] "Circular self reference" = true ∧
    returnsDoc
      (deref exampleEnv (fileLoaders exampleSys exampleFiles) 21 externalStaticFragmentDoc
        Options.default) externalStaticFragmentDoc = true :=
  ⟨by decide!, by decide!⟩

/-- C14: for a document in which no node has a string-valued `$ref`, `deref`
    returns a value deeply equal to the document, whatever the options and the
    loaders. -/
theorem C14_reference_free_unchanged (env : Env) (loaders : Loaders) (doc : Json) (o : Options)
    (fuel : Nat) (hwf : doc.wf = true) (hfree : doc.all (fun m => !m.hasRef) = true)
    (hfuel : doc.size < fuel) :
    returnsDoc (deref env loaders fuel doc o) doc = true := by
  obtain ⟨n, rfl⟩ : ∃ n, fuel = n + 1 := ⟨fuel - 1, by omega⟩
  have hP : ∀ m, IsNode m doc → m.hasRef = false := by
    intro m hm
    simpa using Json.all_isNode _ doc (le_refl _) hfree m hm
  rw [deref_plain env loaders doc o n hwf hP (by omega)]
  exact deepEq_alloc doc

/-- C14 at `{ x: 1, $ref: 5, y: [null, 's', {$id:'i'}] }` with the file loader,
    `mergeAdditionalProperties` and `removeIds`. -/
theorem C14_reference_free_unchanged_witness :
    returnsDoc
      (deref exampleEnv (fileLoaders exampleSys exampleFiles) 9 plainDoc mergeRemoveIdsOptions)
      plainDoc = true :=
  C14_reference_free_unchanged exampleEnv (fileLoaders exampleSys exampleFiles) plainDoc
    mergeRemoveIdsOptions 9 (by decide) (by decide) (by decide)

/-- C15 (code at the failing input): in the clone of
    `{ x: 1, $ref: 5, y: [null, 's', {$id:'i'}] }`, `getRefPathValue` returns the
    document for `#`, the member for `#/x` and `#/y/2/$id`, `undefined` for the
    absent final segment of `#/nope`, and throws a `TypeError` for `#/nope/x`,
    whose intermediate segment is absent. -/
theorem C15_absent_intermediate_throws :
    getRefPathValue (alloc plainDoc []).2 (alloc plainDoc []).1 "#/nope/x" = .error .typeError ∧
    getRefPathValue (alloc plainDoc []).2 (alloc plainDoc []).1 "#/nope" = .ok .undefined ∧
    getRefPathValue (alloc plainDoc []).2 (alloc plainDoc []).1 "#" = .ok (alloc plainDoc []).1 ∧
    getRefPathValue (alloc plainDoc []).2 (alloc plainDoc []).1 "#/x" = .ok (.num 1) ∧
    getRefPathValue (alloc plainDoc []).2 (alloc plainDoc []).1 "#//y/2//$id" = .ok (.str "i") := by
  decide!

/-- C16 (the claim fails at this input): the node `a` of
    `{ a: {$ref:'#/b', extra:7}, b: {x:1} }` has two keys, and `getRefValue` returns
    its `$ref` string, which `getRefType` tags `local`. -/
theorem C16_second_key_still_reference :
    getRefValue (alloc extraDoc []).2 (getProp (alloc extraDoc []).2 (alloc extraDoc []).1 "a")
      = some "#/b" ∧
    getRefType exampleEnv (alloc extraDoc []).2
      (getProp (alloc extraDoc []).2 (alloc extraDoc []).1 "a") = some .local := by
  decide!

/-- C16 (amended): for every node, `getRefValue` looks at the member named `value`
    when the node has a truthy one, and at the node itself otherwise; it returns
    the `$ref` member of that when it is a non-empty string, whatever the other
    keys, and no value otherwise.  `getRefType` tags the returned string `local`
    when it starts with `#`, else `web` when it is an absolute web URI, else
    `file`, and gives no tag exactly when `getRefValue` returns no value. -/
theorem C16_ref_value_and_type (env : Env) (H : Heap) (v : Val) (t : Json)
    (hd : deepEq H v t = true) :
    getRefValue H v =
      ((match t.member "value" with
        | some w => if w.truthy then w else t
        | none => t).strMember "$ref").filter (fun s => decide (s ≠ "")) ∧
    getRefType env H v = (getRefValue H v).map (classify env) := by
  have key : ∀ thing : Json, ((t.truthy && thing.truthy) = true ∨ thing.strMember "$ref" = none) →
      (if (t.truthy && thing.truthy) = true then
        (match thing.strMember "$ref" with
          | some s => if s = "" then none else some s
          | none => none)
        else none) = (thing.strMember "$ref").filter (fun s => decide (s ≠ "")) := by
    intro thing h
    cases hs : thing.strMember "$ref" with
    | none => simp [Option.filter]
    | some s =>
      have hc : (t.truthy && thing.truthy) = true := by
        rcases h with h | h
        · exact h
        · rw [hs] at h; cases h
      by_cases e : s = "" <;> simp [hc, Option.filter, e]
  constructor
  · rw [getRefValue_deepEq hd]
    unfold Json.refValue
    cases hv : t.member "value" with
    | none =>
      simp only [hv]
      apply key t
      cases ht : t.truthy with
      | false =>
        right
        cases t <;> simp [Json.truthy] at ht <;>
          simp [Json.strMember, Json.member, Json.props, lookupJ]
      | true => left; rfl
    | some w =>
      have ht : t.truthy = true := by
        cases t <;> simp [Json.member, Json.props, lookupJ] at hv <;> rfl
      cases hw : w.truthy with
      | false =>
        simp only [hv, hw, Bool.false_eq_true, if_false]
        exact key t (.inl (by simp [ht]))
      | true =>
        simp only [hv, hw, if_true]
        have h := key w (.inl (by simp [ht, hw]))
        rw [hw] at h
        exact h
  · unfold getRefType classify
    cases getRefValue H v with
    | none => rfl
    | some val =>
      simp only [Option.map_some']
      split
      · rfl
      · split <;> rfl

/-- C16 (amended) at the node `a` of `{ a: {$ref:'#/b', value:7}, b: {x:1} }`: the
    member `value` is truthy and has no `$ref`, so there is no value and no tag. -/
theorem C16_ref_value_and_type_witness :
    deepEq (alloc valueSiblingDoc []).2 (.obj 0) (.obj [("$ref", .str "#/b"), ("value", .num 7)])
      = true ∧
    getRefValue (alloc valueSiblingDoc []).2 (.obj 0) = none ∧
    getRefType exampleEnv (alloc valueSiblingDoc []).2 (.obj 0) = none := by
  have hd : deepEq (alloc valueSiblingDoc []).2 (.obj 0)
      (.obj [("$ref", .str "#/b"), ("value", .num 7)]) = true := by decide!
  have h := C16_ref_value_and_type exampleEnv (alloc valueSiblingDoc []).2 (.obj 0)
    (.obj [("$ref", .str "#/b"), ("value", .num 7)]) hd
  have h1 : getRefValue (alloc valueSiblingDoc []).2 (.obj 0) = none := by
    rw [h.1]
    simp [Json.member, Json.props, lookupJ, Json.truthy, Json.strMember]
  exact ⟨hd, h1, by rw [h.2, h1]; rfl⟩

/-- C17 (code at the failing input, and the half of the claim that holds): when
    the document holds, at the path `k1/.../kn`, the reference node
    `{ $ref: '#/k1/.../km' }` with `1 <= m`, `deref` returns an `Error`, whatever the
    options and the loaders.  But the rule rejects more than that: on
    `{ 'a/b': {$ref:'#/a'}, a: {x:1} }`, which has no cycle, the key `a/b` of the
    reference node gives the path `a/b/`, which starts with the target path `a/`,
    and `deref` returns the error `Circular self reference from a/b to #/a`; on
    `{ ab: {$ref:'#/a'}, a: {x:1} }` it returns `{ ab: {x:1}, a: {x:1} }`. -/
theorem C17_reference_to_ancestor (env : Env) (loaders : Loaders) (doc : Json) (o : Options)
    (fuel : Nat) (ks : List String) (m : Nat) (hwf : doc.wf = true)
    (hnode : doc.nodeAt ks = some (refNode ("#/" ++ joinPath (ks.take m)))) (hm : 1 ≤ m)
    (hfuel : doc.size < fuel) :
    (∃ msg, deref env loaders fuel doc o = .ok (.error msg, (alloc doc []).2)) ∧
    returnsError (deref exampleEnv noLoaders 10 slashKeyDoc Options.default)
      "Circular self reference from a/b to #/a" = true ∧
    returnsDoc (deref exampleEnv noLoaders 10 keyPrefixDoc Options.default)
      (.obj [("ab", .obj [("x", .num 1)]), ("a", .obj [("x", .num 1)])]) = true := by
  refine ⟨?_, by decide!, by decide!⟩
  obtain ⟨n, rfl⟩ : ∃ n, fuel = n + 1 := ⟨fuel - 1, by omega⟩
  obtain ⟨h1, h2, h3⟩ := refNode_local env ("#/" ++ joinPath (ks.take m)) (hash_slash_head _)
  obtain ⟨ext, he, hmem⟩ := twalk_collect env _ doc (le_refl _) hwf [] []
  have hin := hmem ks _ _ hnode h1 h2 h3
  have hloc : localsOf env doc = ext := by simpa [localsOf] using he
  rw [← hloc, List.nil_append] at hin
  have hcheck := checkLocalCircular_eq env doc hwf n (by omega) _ _ (deepEq_alloc doc)
  have hne1 : (localsOf env doc).isEmpty = false := by
    cases hl : localsOf env doc with
    | nil => rw [hl] at hin; cases hin
    | cons _ _ => rfl
  by_cases hany : (localsOf env doc).any (fun elem => decide (elem.to_ = "#")) = true
  · exact ⟨"Circular self reference",
      deref_of_static_error env loaders doc o n _ (by rw [hcheck]; simp [hne1, hany])⟩
  · rcases findCircular_spec (localsOf env doc) DAG.empty DAG.good_empty with
      ⟨elem, hf⟩ | ⟨_, g, _, _, hall⟩
    · rw [hf] at hcheck
      simp only [hne1, hany, if_false, Bool.false_eq_true] at hcheck
      exact ⟨_, deref_of_static_error env loaders doc o n _ hcheck⟩
    · exfalso
      have hp := (hall _ hin).1
      simp only [drop_two] at hp
      rw [joinPath_take_isPrefixOf ks m hm] at hp
      cases hp

/-- C17 at `{ a: { b: {$ref:'#/a'} } }` with default options: `deref` returns an
    `Error`. -/
theorem C17_reference_to_ancestor_witness :
    (∃ msg, deref exampleEnv noLoaders 10 ancestorRefDoc Options.default
        = .ok (.error msg, (alloc ancestorRefDoc []).2)) ∧
    returnsError (deref exampleEnv noLoaders 10 slashKeyDoc Options.default)
      "Circular self reference from a/b to #/a" = true ∧
    returnsDoc (deref exampleEnv noLoaders 10 keyPrefixDoc Options.default)
      (.obj [("ab", .obj [("x", .num 1)]), ("a", .obj [("x", .num 1)])]) = true :=
  C17_reference_to_ancestor exampleEnv noLoaders ancestorRefDoc Options.default 10 ["a", "b"] 1
    (by decide) (by rfl) (by decide) (by decide)

/-- C18 (code at the failing input): `f.json` is
    `{ n: 0, b: false, s: '', z: null, v: {k:1} }`; `deref` with the file loader
    replaces the references `f.json#/v` and `f.json` by the member and by the whole
    content, and leaves `f.json#/n`, `f.json#/b`, `f.json#/s` and `f.json#/z` in
    place, as if their targets were absent. -/
theorem C18_falsy_target_not_returned :
    returnsDoc
      (deref exampleEnv (fileLoaders exampleSys exampleFiles) 21 fragmentsDoc Options.default)
      (.obj [("n", refNode "f.json#/n"), ("b", refNode "f.json#/b"), ("s", refNode "f.json#/s"),
        ("z", refNode "f.json#/z"), ("v", .obj [("k", .num 1)]),
        ("w", .obj [("n", .num 0), ("b", .bool false), ("s", .str ""), ("z", .null),
          ("v", .obj [("k", .num 1)])])]) = true := by
  decide!

/-- C19 (the claim fails at this input): in the initial state, `addToHistory` for
    the local reference `#` returns false. -/
theorem C19_bare_hash_returns_false :
    addToHistory exampleEnv (initState exampleEnv plainDoc Options.default) (some .local)
      (some "#") = .ok (false, initState exampleEnv plainDoc Options.default) := by
  rfl

/-- C19 (amended): for every state, `addToHistory` called for a non-file
    reference whose value is the bare `#` rejects the reference (returns false) and
    leaves the state, `history` included, unchanged; the visitor of `derefSchema`
    then marks the state circular, records the error
    `circular references found: ...` and stops at the node. -/
theorem C19_bare_hash_rejected (env : Env) (loaders : Loaders)
    (recur : Val → Options → State → Heap → Except Exn (Res × World)) (fuel : Nat)
    (schema : Val) (path : List String) (a : Nat) (st : State) (o : Options) (H : Heap)
    (type : Option RefType) (htype : type ≠ some .file)
    (href : getProp H (.obj a) "$ref" = .str "#")
    (hvalue : truthy (getProp H (.obj a) "value") = false) :
    addToHistory env st type (some "#") = .ok (false, st) ∧
    derefVisit env loaders recur fuel schema path (.obj a) (st, o) H =
      .ok (({ st with circular := true, circularRefs := st.circularRefs ++ [some "#"],
                      error := some ("circular references found: " ++
                        showRefs (st.circularRefs ++ [some "#"])) }, o),
        H, some ⟨.obj a, true⟩) := by
  have h1 : ∀ ty : Option RefType, ty ≠ some .file →
      addToHistory env st ty (some "#") = .ok (false, st) := by
    intro ty hty
    simp [addToHistory, hty]
  refine ⟨h1 type htype, ?_⟩
  have hv := getRefValue_of_ref href (by decide) hvalue
  have ht := getRefType_of_ref env href (by decide) hvalue
  simp only [derefVisit, href, strOf, hv, ht]
  rw [h1 (some .local) (by decide)]

/-- C19 (amended) at the node `a` of the clone of `{ a: [ { $ref: '#' } ] }`. -/
theorem C19_bare_hash_rejected_witness :
    addToHistory exampleEnv (initState exampleEnv selfRefDoc Options.default) (some .local)
        (some "#") = .ok (false, initState exampleEnv selfRefDoc Options.default) ∧
    derefVisit exampleEnv noLoaders (derefSchema exampleEnv noLoaders 9) 10
        (alloc selfRefDoc []).1 ["a", "0"] (.obj 0)
        (initState exampleEnv selfRefDoc Options.default, Options.default)
        (alloc selfRefDoc []).2 =
      .ok (({ initState exampleEnv selfRefDoc Options.default with
                circular := true, circularRefs := [some "#"],
                error := some ("circular references found: " ++ showRefs [some "#"]) },
            Options.default),
        (alloc selfRefDoc []).2, some ⟨.obj 0, true⟩) :=
  C19_bare_hash_rejected exampleEnv noLoaders (derefSchema exampleEnv noLoaders 9) 10
    (alloc selfRefDoc []).1 ["a", "0"] 0 (initState exampleEnv selfRefDoc Options.default)
    Options.default (alloc selfRefDoc []).2 (some .local) (by decide) (by decide!) (by decide!)

/-- C20 (code at the failing input): `{ a: {x: {$ref:'#/b'}}, b: {y: {$ref:'#/a'}} }`
    and `{ a: {$ref:'#/'} }` pass the static check, and the walk ends; but in the
    value `deref` returns, `a.x.y` is `a` again in the first case and `a` is the
    root in the second: the value is the clone of no document. -/
theorem C20_result_is_cyclic :
    checkLocalCircular exampleEnv 20 (alloc nestedMutualDoc []).2 (alloc nestedMutualDoc []).1
      = .ok none ∧
    (∃ v H, deref exampleEnv noLoaders 21 nestedMutualDoc Options.default = .ok (.value v, H) ∧
      ∀ t, deepEq H v t = false) ∧
    checkLocalCircular exampleEnv 20 (alloc rootSlashDoc []).2 (alloc rootSlashDoc []).1
      = .ok none ∧
    (∃ v H, deref exampleEnv noLoaders 21 rootSlashDoc Options.default = .ok (.value v, H) ∧
      ∀ t, deepEq H v t = false) :=
  ⟨by decide!,
    not_tree_of_cyclic _ ["a"] ["x", "y"] (by decide!) (by decide),
    by decide!,
    not_tree_of_cyclic _ [] ["a"] (by decide!) (by decide)⟩
end Deref
